import Mathlib

/-!
# Steppable graph traversal engine (BFS, DFS, Dijkstra)

A shallow embedding of `graph_algorithm_visualizer.cpp`.  The global variables of the
program become the fields of `State`; every function that mutates them becomes a function
on `State`.  The arrays `adj`, `visited`, `dist`, `parent` have exactly `N = 21` slots and
are indexed by `Fin N`; a C++ `int` used as an index is converted by `idx`, and an index
outside `[0, N)` (undefined behaviour in the source) makes the enclosing function return
`none`.  Signed overflow of `dist[u] + weight` is undefined behaviour as well and is
treated the same way.  Rendering calls (`glutPostRedisplay`, `usleep`, `glutTimerFunc`)
do not touch the engine state and are left out.
-/

namespace GraphViz

/-- Array size: `const int N = 21`. -/
abbrev N : Nat := 21

/-- Sentinel distance: `const int INF = 1e9`. -/
def INF : Int := 1000000000

/-- Largest value of a 32-bit `int`. -/
def INT_MAX : Int := 2147483647

/-- Smallest value of a 32-bit `int`. -/
def INT_MIN : Int := -2147483648

/-- The enumeration `enum TraversalMode { NONE, BFS, DFS, DIJKSTRA }`. -/
inductive TraversalMode where
  | NONE
  | BFS
  | DFS
  | DIJKSTRA
  deriving DecidableEq, Repr

/-- The global variables of the program that make up the engine state. -/
structure State where
  adj : Fin N → List (Int × Int)
  numNodes : Int
  startNode : Int
  endNode : Int
  visited : Fin N → Bool
  currentNode : Int
  dist : Fin N → Int
  parent : Fin N → Int
  shortestPath : List Int
  isPaused : Bool
  isRunning : Bool
  isStepMode : Bool
  shouldStep : Bool
  currentMode : TraversalMode
  bfsQueue : List Int
  dfsStack : List Int
  dijkstraPQ : List (Int × Int)

/-- Conversion of an `int` to an array index; `none` when it is outside `[0, N)`. -/
def idx (i : Int) : Option (Fin N) :=
  if h : 0 ≤ i ∧ i < (N : Int) then some ⟨i.toNat, by omega⟩ else none

/-- Addition of two `int`s; `none` on signed overflow. -/
def addInt (a b : Int) : Option Int :=
  if INT_MIN ≤ a + b ∧ a + b ≤ INT_MAX then some (a + b) else none

/-- Body of the neighbour loop of `bfsStep`: push the neighbour when it is unvisited. -/
def bfsPush (st : State) (edge : Int × Int) : Option State :=
  (idx edge.1).bind fun j =>
    if st.visited j then some st
    else some { st with bfsQueue := st.bfsQueue ++ [edge.1] }

/-- One call of `bfsStep()`.  The queue front is the head of `bfsQueue`. -/
def bfsStep (s : State) : Option State :=
  match s.bfsQueue with
  | [] => some { s with isRunning := false, currentNode := -1 }
  | u :: rest =>
    let s1 : State := { s with currentNode := u, bfsQueue := rest }
    (idx u).bind fun i =>
      if s1.visited i then some s1
      else
        let s2 : State := { s1 with visited := Function.update s1.visited i true }
        (s2.adj i).foldlM bfsPush s2

/-- Body of the neighbour loop of `dfsStep`: push the neighbour when it is unvisited. -/
def dfsPush (st : State) (edge : Int × Int) : Option State :=
  (idx edge.1).bind fun j =>
    if st.visited j then some st
    else some { st with dfsStack := edge.1 :: st.dfsStack }

/-- One call of `dfsStep()`.  The stack top is the head of `dfsStack`; the neighbour loop
runs from the last adjacency entry down to the first. -/
def dfsStep (s : State) : Option State :=
  match s.dfsStack with
  | [] => some { s with isRunning := false, currentNode := -1 }
  | u :: rest =>
    let s1 : State := { s with currentNode := u, dfsStack := rest }
    (idx u).bind fun i =>
      if s1.visited i then some s1
      else
        let s2 : State := { s1 with visited := Function.update s1.visited i true }
        (s2.adj i).reverse.foldlM dfsPush s2

/-- Order of `greater<pair<int,int>>`'s heap: lexicographic `≤` on `(distance, node)`. -/
def pairLe (a b : Int × Int) : Bool :=
  decide (a.1 < b.1) || (decide (a.1 = b.1) && decide (a.2 ≤ b.2))

/-- Result of `dijkstraPQ.top()`: the least pair of the queue, `none` when it is empty. -/
def pqTop : List (Int × Int) → Option (Int × Int)
  | [] => none
  | x :: xs =>
    match pqTop xs with
    | none => some x
    | some m => if pairLe x m then some x else some m

/-- The `while (curr != -1)` loop of the path reconstruction, collecting the nodes in the
order they are pushed.  `fuel` bounds the number of iterations; `none` when the fuel runs
out or an index is out of range. -/
def walkParents (parent : Fin N → Int) : Nat → Int → List Int → Option (List Int)
  | 0, curr, acc => if curr = -1 then some acc else none
  | fuel + 1, curr, acc =>
    if curr = -1 then some acc
    else (idx curr).bind fun i => walkParents parent fuel (parent i) (acc ++ [curr])

/-- Body of the relaxation loop of `dijkstraStep` for the node `u` with index `i`. -/
def relax (u : Int) (i : Fin N) (st : State) (edge : Int × Int) : Option State :=
  (idx edge.1).bind fun j =>
    if st.visited j then some st
    else
      (addInt (st.dist i) edge.2).bind fun nd =>
        if nd < st.dist j then
          some { st with
            dist := Function.update st.dist j nd
            parent := Function.update st.parent j u
            dijkstraPQ := (nd, edge.1) :: st.dijkstraPQ }
        else some st

/-- One call of `dijkstraStep()`.  The priority queue is kept as a list of its entries;
`pop()` removes one occurrence of the least entry.  `fuel` bounds the parent walk. -/
def dijkstraStep (fuel : Nat) (s : State) : Option State :=
  match pqTop s.dijkstraPQ with
  | none =>
    let s1 : State := { s with isRunning := false, currentNode := -1 }
    (idx s1.endNode).bind fun e =>
      if s1.dist e ≠ INF then
        (walkParents s1.parent fuel s1.endNode []).bind fun p =>
          some { s1 with shortestPath := p.reverse }
      else some s1
  | some top =>
    let u := top.2
    let s1 : State := { s with dijkstraPQ := s.dijkstraPQ.erase top, currentNode := u }
    (idx u).bind fun i =>
      if s1.visited i then some s1
      else
        let s2 : State := { s1 with visited := Function.update s1.visited i true }
        (s2.adj i).foldlM (relax u i) s2

/-- The state change of the timer callback `timer(int)`. -/
def timer (fuel : Nat) (s : State) : Option State :=
  if s.isRunning && !s.isPaused && !s.isStepMode then
    match s.currentMode with
    | TraversalMode.BFS => bfsStep s
    | TraversalMode.DFS => dfsStep s
    | TraversalMode.DIJKSTRA => dijkstraStep fuel s
    | TraversalMode.NONE => some s
  else some s

/-- The function `reset()`. -/
def reset (s : State) : State :=
  { s with
    visited := fun _ => false
    dist := fun _ => INF
    parent := fun _ => -1
    currentNode := -1
    isRunning := false
    isPaused := false
    shortestPath := []
    bfsQueue := []
    dfsStack := []
    dijkstraPQ := [] }

/-- The function `startBFS()`. -/
def startBFS (s : State) : State :=
  let r := reset s
  { r with currentMode := TraversalMode.BFS, bfsQueue := r.bfsQueue ++ [r.startNode],
           isRunning := true }

/-- The function `startDFS()`. -/
def startDFS (s : State) : State :=
  let r := reset s
  { r with currentMode := TraversalMode.DFS, dfsStack := r.startNode :: r.dfsStack,
           isRunning := true }

/-- The function `startDijkstra()`. -/
def startDijkstra (s : State) : Option State :=
  let r := reset s
  (idx r.startNode).bind fun i =>
    some { r with currentMode := TraversalMode.DIJKSTRA
                  dist := Function.update r.dist i 0
                  dijkstraPQ := (0, r.startNode) :: r.dijkstraPQ
                  isRunning := true }

/-- Case `' '` of `keyboard`: pause or resume. -/
def keyPause (s : State) : State :=
  if s.isRunning then { s with isPaused := !s.isPaused } else s

/-- Case `'s'`/`'S'` of `keyboard`: step mode and one manual step. -/
def keyStep (fuel : Nat) (s : State) : Option State :=
  let s1 : State := { s with isStepMode := true, shouldStep := true }
  if s1.isRunning && s1.shouldStep then
    let r :=
      match s1.currentMode with
      | TraversalMode.BFS => bfsStep s1
      | TraversalMode.DFS => dfsStep s1
      | TraversalMode.DIJKSTRA => dijkstraStep fuel s1
      | TraversalMode.NONE => some s1
    r.bind fun s2 => some { s2 with shouldStep := false }
  else some s1

/-- Case `'a'`/`'A'` of `keyboard`: automatic mode. -/
def keyAuto (s : State) : State :=
  let s1 : State := { s with isStepMode := false }
  if s1.isRunning && s1.isPaused then { s1 with isPaused := false } else s1

/-- Outcome of a key press: the handler returns, or the process ends through `exit(0)`. -/
inductive KeyOutcome where
  | returned (r : Option State)
  | exited

/-- The function `keyboard(key, x, y)`; `key` is the character code. -/
def keyboard (fuel : Nat) (key : Nat) (s : State) : KeyOutcome :=
  if key = 32 then KeyOutcome.returned (some (keyPause s))
  else if key = 115 ∨ key = 83 then KeyOutcome.returned (keyStep fuel s)
  else if key = 97 ∨ key = 65 then KeyOutcome.returned (some (keyAuto s))
  else if key = 114 ∨ key = 82 then KeyOutcome.returned (some (reset s))
  else if key = 98 ∨ key = 66 then KeyOutcome.returned (some (startBFS s))
  else if key = 100 ∨ key = 68 then KeyOutcome.returned (some (startDFS s))
  else if key = 106 ∨ key = 74 then KeyOutcome.returned (startDijkstra s)
  else if key = 27 then KeyOutcome.exited
  else KeyOutcome.returned (some s)

/-- Body of the edge-reading loop of `main` for one input triple `(u, v, w)`. -/
def addEdge (numNodes : Int) (adj : Fin N → List (Int × Int)) (e : Int × Int × Int) :
    Option (Fin N → List (Int × Int)) :=
  if 1 ≤ e.1 ∧ e.1 ≤ numNodes ∧ 1 ≤ e.2.1 ∧ e.2.1 ≤ numNodes then
    (idx e.1).bind fun i =>
      let a1 := Function.update adj i (adj i ++ [(e.2.1, e.2.2)])
      (idx e.2.1).bind fun j =>
        some (Function.update a1 j (a1 j ++ [(e.1, e.2.2)]))
  else some adj

/-- The edge-reading loop of `main`, starting from the empty adjacency lists. -/
def readEdges (numNodes : Int) (edges : List (Int × Int × Int)) :
    Option (Fin N → List (Int × Int)) :=
  edges.foldlM (addEdge numNodes) (fun _ => [])


/-! ## Drivers, observations and specification notions -/

/-- State at the moment `glutMainLoop` is entered: the globals with their initialisers,
after `main` has read the graph and filled `dist` with `INF` and `parent` with `-1`. -/
def initialState (adj : Fin N → List (Int × Int)) (numNodes startNode endNode : Int) : State :=
  { adj := adj, numNodes := numNodes, startNode := startNode, endNode := endNode
    visited := fun _ => false, currentNode := -1, dist := fun _ => INF, parent := fun _ => -1
    shortestPath := [], isPaused := false, isRunning := false, isStepMode := false
    shouldStep := false, currentMode := TraversalMode.NONE
    bfsQueue := [], dfsStack := [], dijkstraPQ := [] }

/-- The timer callback fired `n` times in a row. -/
def iterTimer (fuel : Nat) : Nat → State → Option State
  | 0, s => some s
  | n + 1, s => (timer fuel s).bind (iterTimer fuel n)

/-- Nodes whose `visited` flag is off in `s` and on in `s'`, in index order: the nodes newly
marked by a step from `s` to `s'`. -/
def newlyVisited (s s' : State) : List Int :=
  ((List.finRange N).filter fun i => !s.visited i && s'.visited i).map fun i => ((i : Nat) : Int)

/-- A run: the step function is called while `isRunning` holds, at most `n` times.  The
result is the sequence of newly marked nodes together with the final state; `none` when
a step is undefined or `isRunning` still holds after `n` calls. -/
def runTrace (step : State → Option State) : Nat → State → Option (List Int × State)
  | 0, s => if s.isRunning then none else some ([], s)
  | n + 1, s =>
    if s.isRunning then
      (step s).bind fun s' =>
        (runTrace step n s').map fun r => (newlyVisited s s' ++ r.1, r.2)
    else some ([], s)

/-- The adjacency list `adj[u]`; empty when `u` is not an index of the array. -/
def neighbors (s : State) (u : Int) : List (Int × Int) :=
  match idx u with
  | some i => s.adj i
  | none => []

/-- The flag `visited[v]`; `false` when `v` is not an index of the array. -/
def visitedAt (s : State) (v : Int) : Bool :=
  match idx v with
  | some i => s.visited i
  | none => false

/-- Read of an array at an `int` index, with a default outside the array. -/
def arrAt {α : Type} (a : Fin N → α) (dflt : α) (v : Int) : α :=
  match idx v with
  | some i => a i
  | none => dflt

/-- The value `dist[v]`; `INF` when `v` is not an index of the array. -/
def distAt (s : State) (v : Int) : Int :=
  arrAt s.dist INF v

/-- The value `parent[v]`; `-1` when `v` is not an index of the array. -/
def parentAt (s : State) (v : Int) : Int :=
  arrAt s.parent (-1) v

/-- A graph as `main` accepts it: between 1 and 20 nodes, and every stored neighbour id
lies in `[1, numNodes]`. -/
def GraphOK (s : State) : Prop :=
  1 ≤ s.numNodes ∧ s.numNodes ≤ 20 ∧
    ∀ i : Fin N, ∀ e ∈ s.adj i, 1 ≤ e.1 ∧ e.1 ≤ s.numNodes

instance (s : State) : Decidable (GraphOK s) := by
  unfold GraphOK; infer_instance

/-- Total number of adjacency-list entries, the sum of `adj[u].size()` over all `u`. -/
def adjTotal (s : State) : Nat :=
  ((List.finRange N).map fun i => (s.adj i).length).sum

/-- Adjacency entries of the nodes that are not visited yet. -/
def pendingWork (s : State) : Nat :=
  ((List.finRange N).map fun i => if s.visited i then 0 else (s.adj i).length).sum

/-- Walks of the graph: `Walk s u v n c` is a walk from `u` to `v` along adjacency entries,
with `n` edges and total weight `c`. -/
inductive Walk (s : State) : Int → Int → Nat → Int → Prop
  | nil (u : Int) : Walk s u u 0 0
  | snoc {u v x : Int} {n : Nat} {c w : Int} :
      Walk s u v n c → (x, w) ∈ neighbors s v → Walk s u x (n + 1) (c + w)

/-- The node `v` can be reached from the start node through the adjacency lists. -/
def Reachable (s : State) (v : Int) : Prop :=
  ∃ n c, Walk s s.startNode v n c

/-- Unweighted graph distance: `d` is the least number of edges of a walk from the start
node to `v`. -/
def HopDist (s : State) (v : Int) (d : Nat) : Prop :=
  (∃ c, Walk s s.startNode v d c) ∧ ∀ n c, Walk s s.startNode v n c → d ≤ n

/-- Shortest-path weight: `c` is the weight of a walk from the start node to `v`, and no
walk from the start node to `v` weighs less. -/
def ShortestWeight (s : State) (v : Int) (c : Int) : Prop :=
  (∃ k, Walk s s.startNode v k c) ∧ ∀ k c', Walk s s.startNode v k c' → c ≤ c'

/-- Total weight of a path given as a list of nodes: consecutive nodes are joined by
adjacency entries whose weights add up to the given total. -/
inductive PathWeight (s : State) : List Int → Int → Prop
  | single (u : Int) : PathWeight s [u] 0
  | cons {a b : Int} {rest : List Int} {w c : Int} :
      (b, w) ∈ neighbors s a → PathWeight s (b :: rest) c →
      PathWeight s (a :: b :: rest) (w + c)

/-- Recursive depth-first search, the reference of the DFS order property: visit `u`, then
go through its adjacency list in order and recurse into every neighbour that has not been
visited yet.  `seen` is the visit order so far and the result is the extended visit order.
The first argument bounds the recursion depth. -/
def dfsRef (nbrs : Int → List (Int × Int)) : Nat → List Int → Int → List Int
  | 0, seen, _ => seen
  | k + 1, seen, u =>
    (nbrs u).foldl (fun acc e => if e.1 ∈ acc then acc else dfsRef nbrs k acc e.1)
      (seen ++ [u])

/-- States reachable from `s0` by key presses (`keyboard` returning) and timer callbacks. -/
inductive EngineReach (s0 : State) : State → Prop
  | init : EngineReach s0 s0
  | key {s s' : State} (fuel : Nat) (k : Nat) :
      EngineReach s0 s → keyboard fuel k s = KeyOutcome.returned (some s') → EngineReach s0 s'
  | tick {s s' : State} (fuel : Nat) :
      EngineReach s0 s → timer fuel s = some s' → EngineReach s0 s'

/-- Adjacency entries that the input edge `e = (a, b, w)` contributes to the list of node
`u`, in the order in which they are appended: `(b, w)` when `a = u`, then `(a, w)` when
`b = u`; nothing when an endpoint lies outside `[1, numNodes]`. -/
def entriesFor (numNodes : Int) (u : Int) (e : Int × Int × Int) : List (Int × Int) :=
  if 1 ≤ e.1 ∧ e.1 ≤ numNodes ∧ 1 ≤ e.2.1 ∧ e.2.1 ≤ numNodes then
    (if e.1 = u then [(e.2.1, e.2.2)] else []) ++ (if e.2.1 = u then [(e.1, e.2.2)] else [])
  else []

/-- The adjacency list of node `u` as the graph construction property describes it: the
contributions of the input edges, in input order. -/
def adjSpec (numNodes : Int) (edges : List (Int × Int × Int)) (u : Int) : List (Int × Int) :=
  edges.flatMap (entriesFor numNodes u)

/-- Weights for which no relaxation overflows: every stored weight lies in
`[0, INT_MAX - INF]`. -/
def WeightsOK (s : State) : Prop :=
  ∀ i : Fin N, ∀ e ∈ s.adj i, 0 ≤ e.2 ∧ e.2 ≤ INT_MAX - INF

instance (s : State) : Decidable (WeightsOK s) := by
  unfold WeightsOK; infer_instance

/-- The next call of `dijkstraStep` pops an unvisited node `u` and, at some adjacency entry
`(v, weight)` with `v` unvisited, evaluates `dist[u] + weight` outside the range of `int`:
the one kind of undefined behaviour of the source that in-range indices do not exclude. -/
def RelaxOverflow (s : State) : Prop :=
  ∃ (top : Int × Int) (i j : Fin N) (pre post : List (Int × Int)) (e : Int × Int)
    (st : State),
    pqTop s.dijkstraPQ = some top ∧ idx top.2 = some i ∧ s.visited i = false ∧
    s.adj i = pre ++ e :: post ∧
    pre.foldlM (relax top.2 i)
      { s with
        dijkstraPQ := s.dijkstraPQ.erase top
        currentNode := top.2
        visited := Function.update s.visited i true } = some st ∧
    idx e.1 = some j ∧ st.visited j = false ∧
    ¬ (INT_MIN ≤ st.dist i + e.2 ∧ st.dist i + e.2 ≤ INT_MAX)

/-- The graph of scenarios A and B: nodes 1..3, edges (1,2,1) and (2,3,1), start 1. -/
def scenarioA : State :=
  initialState ((readEdges 3 [(1, 2, 1), (2, 3, 1)]).getD fun _ => []) 3 1 3

/-- The graph of scenario C: nodes 1..4, edges (1,2,4), (1,3,1), (3,2,1), (2,4,1), start 1,
end 4. -/
def scenarioC : State :=
  initialState
    ((readEdges 4 [(1, 2, 4), (1, 3, 1), (3, 2, 1), (2, 4, 1)]).getD fun _ => []) 4 1 4

/-- A state in which the front of every frontier is the already visited node 1. -/
def staleState : State :=
  { scenarioA with
    visited := fun _ => true
    isRunning := true
    bfsQueue := [1, 2]
    dfsStack := [1, 2]
    dijkstraPQ := [(5, 2), (0, 1)] }

/-- A state in the middle of a Dijkstra run on the graph of scenario C: node 3 is visited
and the queue holds the entry of node 1. -/
def midRunState : State :=
  { scenarioC with
    visited := fun i => decide (i = 3)
    dist := fun i => if i = 1 then 0 else INF
    isRunning := true
    currentMode := TraversalMode.DIJKSTRA
    dijkstraPQ := [(0, 1)] }

/-- The state that one `dijkstraStep` reaches from `midRunState`: node 1 is marked, the
entry of node 2 is relaxed to 4 and the visited node 3 is skipped. -/
def midRunNext : State :=
  { midRunState with
    currentNode := 1
    visited := Function.update midRunState.visited 1 true
    dist := Function.update midRunState.dist 2 4
    parent := Function.update midRunState.parent 2 1
    dijkstraPQ := [(4, 2)] }

/-- A state of a Dijkstra run on the graph of scenario C in which the edge from node 1 to
node 2 is an equal-cost alternative: `dist[2]` is already 4, reached through node 3. -/
def tieState : State :=
  { scenarioC with
    visited := fun i => decide (i = 3)
    dist := fun i => if i = 1 then 0 else if i = 2 then 4 else INF
    parent := fun i => if i = 2 then 3 else -1
    isRunning := true
    currentMode := TraversalMode.DIJKSTRA
    dijkstraPQ := [(0, 1), (4, 2)] }

/-- The state that one `dijkstraStep` reaches from `tieState`: node 1 is marked and nothing
is relaxed. -/
def tieNext : State :=
  { tieState with
    currentNode := 1
    visited := Function.update tieState.visited 1 true
    dijkstraPQ := [(4, 2)] }

/-- The state of scenario C after the key `j` and six timer callbacks. -/
def finishedC : State :=
  ((startDijkstra scenarioC).bind (iterTimer 21 6)).getD scenarioC

/-- A step function called `n` times in a row. -/
def iterStep (step : State → Option State) : Nat → State → Option State
  | 0, s => some s
  | n + 1, s => (step s).bind (iterStep step n)

/-- The state `s` with the two step-mode flags replaced. -/
def setFlags (a b : Bool) (s : State) : State :=
  { s with isStepMode := a, shouldStep := b }

/-- Two states hold the same graph and the same start and end node. -/
def SameConfig (p q : State) : Prop :=
  q.adj = p.adj ∧ q.numNodes = p.numNodes ∧ q.startNode = p.startNode ∧ q.endNode = p.endNode

/-- Two nodes joined by one edge of weight 2000000000, start 1, end 2: the weight exceeds
`INT_MAX - INF`, yet no relaxation overflows. -/
def heavyEdge : State :=
  initialState ((readEdges 2 [(1, 2, 2000000000)]).getD fun _ => []) 2 1 2

/-- Three nodes, edges (1,2,1) and (2,3,2147483647), start 1, end 3: relaxing the second
edge evaluates `1 + 2147483647`. -/
def overflowEdge : State :=
  initialState ((readEdges 3 [(1, 2, 1), (2, 3, 2147483647)]).getD fun _ => []) 3 1 3

/-! ## Auxiliary notions of the proofs -/

/-- Visit the nodes of a list one after the other with `dfsRef`, skipping those already
seen. -/
def dfsRefList (nbrs : Int → List (Int × Int)) (k : Nat) (seen : List Int) (xs : List Int) :
    List Int :=
  xs.foldl (fun acc v => if v ∈ acc then acc else dfsRef nbrs k acc v) seen

/-- Number of nodes of `[1, n]` that are not in `seen`. -/
def unseenCount (n : Int) (seen : List Int) : Nat :=
  ((Finset.Icc 1 n).filter fun v => v ∉ seen).card

/-- Invariant of a DFS run on the graph of `s0`: `t` is the visit order so far, and the
reference search continued from `t` over the stack yields the reference order. -/
def DfsInv (s0 : State) (K : Nat) (t : List Int) (s : State) : Prop :=
  s.adj = s0.adj ∧
  (∀ v ∈ s.dfsStack, 1 ≤ v ∧ v ≤ s0.numNodes) ∧
  (∀ v, v ∈ t ↔ visitedAt s v = true) ∧
  (∀ v ∈ t, 1 ≤ v ∧ v ≤ s0.numNodes) ∧
  (s.isRunning = false → s.dfsStack = []) ∧
  dfsRefList (neighbors s0) K t s.dfsStack = dfsRef (neighbors s0) K [] s0.startNode

/-- Termination measure of a DFS run. -/
def dfsMeasure (s : State) : Nat :=
  s.dfsStack.length + pendingWork s + (if s.isRunning then 1 else 0)

/-- First occurrences of the elements of `q` that are not in `seen`, in queue order. -/
def firsts : List Int → List Int → List Int
  | _, [] => []
  | seen, x :: q => if x ∈ seen then firsts seen q else x :: firsts (x :: seen) q

/-- Invariant of the breadth-first search on the visit order `t` and the queue `q`, for a
distance function `d` on the reachable nodes. -/
structure BfsInv (nbrs : Int → List Int) (start : Int) (d : Int → Nat) (reach : Int → Prop)
    (t q : List Int) : Prop where
  start_known : start ∈ t ∨ start ∈ q
  closed : ∀ u ∈ t, ∀ v ∈ nbrs u, v ∈ t ∨ v ∈ q
  reach_t : ∀ v ∈ t, reach v
  reach_q : ∀ v ∈ q, reach v
  below : ∀ w, reach w → ∀ a, (a ∈ t ∨ a ∈ q) → d w < d a → (w ∈ t ∨ w ∈ q)
  spread : ∀ p x, p ∈ q → p ∉ t → x ∈ q → x ∉ t → d p ≤ d x + 1
  sorted : (t ++ firsts t q).Pairwise fun a b => d a ≤ d b

/-- Invariant of a BFS run on the graph of `s0`. -/
def BfsCInv (s0 : State) (d : Int → Nat) (t : List Int) (s : State) : Prop :=
  s.adj = s0.adj ∧
  (∀ v ∈ s.bfsQueue, 1 ≤ v ∧ v ≤ s0.numNodes) ∧
  (∀ v, v ∈ t ↔ visitedAt s v = true) ∧
  (s.isRunning = false → s.bfsQueue = []) ∧
  BfsInv (fun u => (neighbors s0 u).map Prod.fst) s0.startNode d (Reachable s0) t s.bfsQueue

/-- Termination measure of a BFS run. -/
def bfsMeasure (s : State) : Nat :=
  s.bfsQueue.length + pendingWork s + (if s.isRunning then 1 else 0)

/-- Invariant of Dijkstra's algorithm on the visit order `t`, the distance and parent
arrays and the priority queue.  `done u e` tells for which adjacency entries `e` of a
visited node `u` the relaxation has already been carried out. -/
structure DijInv (nbrs : Int → List (Int × Int)) (start : Int) (Bd : List Int → Int)
    (real : Int → Int → Prop) (done : Int → Int × Int → Prop)
    (t : List Int) (D par : Int → Int) (pq : List (Int × Int)) : Prop where
  start_dist : D start = 0
  start_par : par start = -1
  bound : ∀ v, D v ≠ INF → 0 ≤ D v ∧ D v ≤ Bd t
  realized : ∀ v, D v ≠ INF → real v (D v)
  queued : ∀ v, v ∉ t → D v ≠ INF → (D v, v) ∈ pq
  pq_ok : ∀ e ∈ pq, D e.2 ≤ e.1 ∧ D e.2 ≠ INF
  relaxed : ∀ u ∈ t, ∀ e ∈ nbrs u, done u e → D e.1 ≤ D u + e.2 ∧ D e.1 ≠ INF
  settled_pq : ∀ u ∈ t, ∀ e ∈ pq, D u ≤ e.1
  settled_le : ∀ u ∈ t, ∀ x, x ∉ t → D u ≤ D x
  vis_fin : ∀ u ∈ t, D u ≠ INF
  par_ok : ∀ v, D v ≠ INF → v ≠ start →
    par v ∈ t ∧ ∃ w, (v, w) ∈ nbrs (par v) ∧ D v = D (par v) + w
  par_order : ∀ t1 v t2, t = t1 ++ v :: t2 → v ≠ start → par v ∈ t1
  nodup : t.Nodup

/-- Extra facts that hold while the adjacency list of the node `u` is being relaxed. -/
structure DijLoop (nbrs : Int → List (Int × Int)) (Bd : List Int → Int)
    (t : List Int) (u : Int) (D : Int → Int) : Prop where
  u_mem : u ∈ t
  u_bound : ∀ e ∈ nbrs u, e.1 ∉ t → D u + e.2 ≤ Bd t
  u_last : ∀ a ∈ t, D a ≤ D u

/-- Facts about the graph that the correctness argument of Dijkstra's algorithm uses:
weights are non-negative, `Bd t` bounds the weight of the edges touching `t` and stays
below `INF`, and `real v c` (a walk of weight `c` reaches `v`) is closed under edges. -/
structure DijHyp (nbrs : Int → List (Int × Int)) (start : Int) (Bd : List Int → Int)
    (real : Int → Int → Prop) : Prop where
  w_nonneg : ∀ u, ∀ e ∈ nbrs u, 0 ≤ e.2
  bd_nonneg : ∀ t, 0 ≤ Bd t
  bd_lt : ∀ t, Bd t < INF
  bd_mono : ∀ t u, Bd t ≤ Bd (t ++ [u])
  bd_step : ∀ t u, ∀ e ∈ nbrs u, u ∉ t → e.1 ∉ t ++ [u] → Bd t + e.2 ≤ Bd (t ++ [u])
  real_start : real start 0
  real_edge : ∀ u c, ∀ e ∈ nbrs u, real u c → real e.1 (c + e.2)

/-- Relaxation progress inside the loop over the adjacency list of `u`: every entry of
another node, and the entries of `u` in the processed prefix `pre`. -/
def doneUpTo (u : Int) (pre : List (Int × Int)) : Int → Int × Int → Prop :=
  fun a e => a ≠ u ∨ e ∈ pre

/-- All adjacency entries of all visited nodes have been relaxed. -/
def doneAll : Int → Int × Int → Prop :=
  fun _ _ => True

/-- Total weight of the in-range input edges that have an endpoint in `t`. -/
def touchW (n : Int) (edges : List (Int × Int × Int)) (t : List Int) : Int :=
  (edges.map fun e =>
    if (1 ≤ e.1 ∧ e.1 ≤ n ∧ 1 ≤ e.2.1 ∧ e.2.1 ≤ n) ∧ (e.1 ∈ t ∨ e.2.1 ∈ t) then e.2.2
    else 0).sum

/-- Loop invariant of the relaxation loop of `dijkstraStep` for the node `u`, started in
the state `st0`, after the adjacency entries `pre` have been processed. -/
def RelaxLoop (s0 : State) (Bd : List Int → Int) (t : List Int) (u : Int) (st0 : State)
    (pre : List (Int × Int)) (st : State) : Prop :=
  st.adj = st0.adj ∧ st.visited = st0.visited ∧ st.isRunning = st0.isRunning ∧
  st.endNode = st0.endNode ∧ st.shortestPath = st0.shortestPath ∧
  DijInv (neighbors s0) s0.startNode Bd (fun v c => ∃ k, Walk s0 s0.startNode v k c)
    (doneUpTo u pre) t (distAt st) (parentAt st) st.dijkstraPQ ∧
  DijLoop (neighbors s0) Bd t u (distAt st) ∧
  (∀ e ∈ st.dijkstraPQ, 1 ≤ e.2 ∧ e.2 ≤ s0.numNodes) ∧
  st.dijkstraPQ.length ≤ st0.dijkstraPQ.length + pre.length

/-- What the path reconstruction leaves in `shortestPath` of the state `sf`. -/
def PathResult (s0 sf : State) : Prop :=
  (distAt sf s0.endNode ≠ INF →
    sf.shortestPath.head? = some s0.startNode ∧
    sf.shortestPath.getLast? = some s0.endNode ∧
    sf.shortestPath.Chain' (fun a b =>
      ∃ w, (b, w) ∈ neighbors s0 a ∧ distAt sf b = distAt sf a + w) ∧
    PathWeight s0 sf.shortestPath (distAt sf s0.endNode)) ∧
  (distAt sf s0.endNode = INF → sf.shortestPath = [])

/-- Invariant of a Dijkstra run on the graph of `s0`; `t` lists the visited nodes in the
order in which they were marked. -/
def DijCInv (s0 : State) (Bd : List Int → Int) (t : List Int) (s : State) : Prop :=
  s.adj = s0.adj ∧ s.endNode = s0.endNode ∧
  (∀ e ∈ s.dijkstraPQ, 1 ≤ e.2 ∧ e.2 ≤ s0.numNodes) ∧
  (∀ v, v ∈ t ↔ visitedAt s v = true) ∧
  (∀ v ∈ t, 1 ≤ v ∧ v ≤ s0.numNodes) ∧
  DijInv (neighbors s0) s0.startNode Bd (fun v c => ∃ k, Walk s0 s0.startNode v k c)
    doneAll t (distAt s) (parentAt s) s.dijkstraPQ ∧
  (s.isRunning = true → s.shortestPath = []) ∧
  (s.isRunning = false → s.dijkstraPQ = [] ∧ PathResult s0 s)

/-- Termination measure of a Dijkstra run. -/
def dijMeasure (s : State) : Nat :=
  s.dijkstraPQ.length + pendingWork s + (if s.isRunning then 1 else 0)

/-- A non-empty `shortestPath` only occurs after a completed Dijkstra run with a reachable
end node. -/
def PathInv (s : State) : Prop :=
  s.shortestPath ≠ [] →
    s.currentMode = TraversalMode.DIJKSTRA ∧ s.isRunning = false ∧ s.dijkstraPQ = [] ∧
      distAt s s.endNode ≠ INF

/-- Invariant of a graph search on the visit order `t` and the frontier `q` that is
independent of the frontier discipline: no node is visited twice, the start node is known,
every neighbour of a visited node is visited or in the frontier, and only reachable nodes
are visited or in the frontier. -/
structure ClosedInv (nbrs : Int → List Int) (start : Int) (reach : Int → Prop)
    (t q : List Int) : Prop where
  nodup : t.Nodup
  start_known : start ∈ t ∨ start ∈ q
  closed : ∀ u ∈ t, ∀ v ∈ nbrs u, v ∈ t ∨ v ∈ q
  reach_t : ∀ v ∈ t, reach v
  reach_q : ∀ v ∈ q, reach v

/-- Every parent entry is `-1` or a node of the visit order `t` that comes before the
node it belongs to, when that node is in `t` as well. -/
def ParentOrder (t : List Int) (parent : Fin N → Int) : Prop :=
  ∀ j : Fin N, parent j = -1 ∨
    (parent j ∈ t ∧ (((j : Nat) : Int) ∈ t → t.indexOf (parent j) < t.indexOf ((j : Nat) : Int)))

/-- Range invariant of a Dijkstra run on the graph of `s0`, with visit order `t`. -/
def DijSafe (s0 : State) (t : List Int) (s : State) : Prop :=
  s.adj = s0.adj ∧ s.endNode = s0.endNode ∧
  (∀ e ∈ s.dijkstraPQ, 1 ≤ e.2 ∧ e.2 ≤ s0.numNodes) ∧
  (∀ v, v ∈ t ↔ visitedAt s v = true) ∧
  (∀ v ∈ t, 1 ≤ v ∧ v ≤ s0.numNodes) ∧ t.Nodup ∧
  ParentOrder t s.parent ∧
  (s.currentNode = -1 ∨ (1 ≤ s.currentNode ∧ s.currentNode ≤ s0.numNodes)) ∧
  (∀ v ∈ s.shortestPath, 1 ≤ v ∧ v ≤ s0.numNodes)

/-- Every distance entry lies in `[0, INF]`. -/
def DistBound (s : State) : Prop :=
  ∀ j : Fin N, 0 ≤ s.dist j ∧ s.dist j ≤ INF

/-- Invariant of the relaxation loop for the node `u`, started in the state `s2`. -/
def RelaxSafe (s2 : State) (u : Int) (n : Int) (st : State) : Prop :=
  st.adj = s2.adj ∧ st.endNode = s2.endNode ∧ st.visited = s2.visited ∧
  st.isRunning = s2.isRunning ∧ st.currentNode = s2.currentNode ∧
  st.shortestPath = s2.shortestPath ∧
  (∀ e ∈ st.dijkstraPQ, 1 ≤ e.2 ∧ e.2 ≤ n) ∧
  (∀ j, st.parent j = s2.parent j ∨ (st.parent j = u ∧ s2.visited j = false))

/-- Range invariant of the BFS state on the graph of `s0`. -/
def BfsSafe (s0 : State) (s : State) : Prop :=
  s.adj = s0.adj ∧ (∀ v ∈ s.bfsQueue, 1 ≤ v ∧ v ≤ s0.numNodes) ∧
  (s.currentNode = -1 ∨ (1 ≤ s.currentNode ∧ s.currentNode ≤ s0.numNodes))

/-- Range invariant of the DFS state on the graph of `s0`. -/
def DfsSafe (s0 : State) (s : State) : Prop :=
  s.adj = s0.adj ∧ (∀ v ∈ s.dfsStack, 1 ≤ v ∧ v ≤ s0.numNodes) ∧
  (s.currentNode = -1 ∨ (1 ≤ s.currentNode ∧ s.currentNode ≤ s0.numNodes))

/-! ## Theorems -/

/-! ### Priority queue order -/

theorem pairLe_total (a b : Int × Int) : pairLe a b = true ∨ pairLe b a = true := by
  simp only [pairLe, Bool.or_eq_true, Bool.and_eq_true, decide_eq_true_eq]
  omega

theorem pairLe_trans (a b c : Int × Int) (h1 : pairLe a b = true) (h2 : pairLe b c = true) :
    pairLe a c = true := by
  simp only [pairLe, Bool.or_eq_true, Bool.and_eq_true, decide_eq_true_eq] at *
  omega

theorem pairLe_refl (a : Int × Int) : pairLe a a = true := by
  simp [pairLe]

theorem pairLe_fst (a b : Int × Int) (h : pairLe a b = true) : a.1 ≤ b.1 := by
  simp only [pairLe, Bool.or_eq_true, Bool.and_eq_true, decide_eq_true_eq] at h
  omega

theorem pqTop_eq_none (pq : List (Int × Int)) : pqTop pq = none ↔ pq = [] := by
  cases pq with
  | nil => simp [pqTop]
  | cons x xs =>
    simp only [pqTop]
    cases pqTop xs with
    | none => simp
    | some m => simp; split <;> simp

theorem pqTop_spec : ∀ (pq : List (Int × Int)) (m : Int × Int), pqTop pq = some m →
    m ∈ pq ∧ ∀ e ∈ pq, pairLe m e = true := by
  intro pq
  induction pq with
  | nil => intro m h; simp [pqTop] at h
  | cons x xs ih =>
    intro m h
    simp only [pqTop] at h
    cases hxs : pqTop xs with
    | none =>
      rw [hxs] at h
      simp at h
      subst h
      have : xs = [] := (pqTop_eq_none xs).1 hxs
      subst this
      simp [pairLe_refl]
    | some m' =>
      rw [hxs] at h
      simp only at h
      obtain ⟨hm', hle⟩ := ih m' hxs
      by_cases hx : pairLe x m' = true
      · simp [hx] at h
        subst h
        refine ⟨List.mem_cons_self _ _, ?_⟩
        intro e he
        rcases List.mem_cons.1 he with rfl | he
        · exact pairLe_refl _
        · exact pairLe_trans _ _ _ hx (hle e he)
      · simp [hx] at h
        subst h
        refine ⟨List.mem_cons_of_mem _ hm', ?_⟩
        intro e he
        rcases List.mem_cons.1 he with rfl | he
        · rcases pairLe_total e m' with h1 | h1
          · exact absurd h1 hx
          · exact h1
        · exact hle e he

theorem append_singleton_split {α : Type} (t t1 t2 : List α) (u v : α)
    (h : t ++ [u] = t1 ++ v :: t2) :
    (t2 = [] ∧ v = u ∧ t1 = t) ∨ ∃ t2', t2 = t2' ++ [u] ∧ t = t1 ++ v :: t2' := by
  rcases List.eq_nil_or_concat t2 with h2 | ⟨t2', x, h2⟩
  · subst h2
    have h' : t ++ [u] = t1 ++ [v] := h
    have := List.append_inj' h' rfl
    left
    refine ⟨rfl, ?_, this.1.symm⟩
    have := this.2
    simp at this
    exact this.symm
  · right
    rw [List.concat_eq_append] at h2
    subst h2
    have h' : t ++ [u] = (t1 ++ v :: t2') ++ [x] := by
      rw [h]; simp
    have := List.append_inj' h' rfl
    have hx : u = x := by
      have := this.2
      simpa using this
    subst hx
    exact ⟨t2', rfl, this.1⟩

/-! ### Indices, array views, loops and runs -/

theorem foldlM_inv {α β : Type} (f : β → α → Option β) (P : β → Prop)
    (hf : ∀ b a b', f b a = some b' → P b → P b') :
    ∀ (l : List α) (b b' : β), l.foldlM f b = some b' → P b → P b' := by
  intro l
  induction l with
  | nil => intro b b' h hb; simp [List.foldlM] at h; subst h; exact hb
  | cons a l ih =>
    intro b b' h hb
    rw [List.foldlM_cons] at h
    cases hfa : f b a with
    | none => simp [hfa] at h
    | some b1 =>
      simp [hfa] at h
      exact ih b1 b' h (hf b a b1 hfa hb)

theorem idx_eq_some {v : Int} {i : Fin N} : idx v = some i ↔ v = ((i : Nat) : Int) := by
  unfold idx
  constructor
  · intro h
    split at h
    · simp at h
      rw [← h]; simp; omega
    · simp at h
  · intro h
    have hi := i.2
    have : 0 ≤ v ∧ v < (N : Int) := by subst h; simp only [N] at hi ⊢; omega
    rw [dif_pos this]
    simp
    apply Fin.ext
    simp [h]

theorem idx_of_range {v : Int} (h0 : 0 ≤ v) (h1 : v < 21) : ∃ i, idx v = some i := by
  refine ⟨⟨v.toNat, by simp only [N]; omega⟩, ?_⟩
  rw [idx_eq_some]; simp; omega

theorem idx_cast (i : Fin N) : idx ((i : Nat) : Int) = some i := idx_eq_some.2 rfl

theorem visitedAt_cast (s : State) (i : Fin N) : visitedAt s ((i : Nat) : Int) = s.visited i := by
  simp [visitedAt, idx_cast]

theorem newlyVisited_same (s s' : State) (h : s'.visited = s.visited) :
    newlyVisited s s' = [] := by
  simp [newlyVisited, h]

theorem newlyVisited_update (s s' : State) (i : Fin N) (hi : s.visited i = false)
    (h : s'.visited = Function.update s.visited i true) :
    newlyVisited s s' = [((i : Nat) : Int)] := by
  have hf : (fun j => !s.visited j && s'.visited j) = fun j => decide (j = i) := by
    funext j
    by_cases hj : j = i
    · subst hj; simp [h, hi]
    · simp [h, Function.update_noteq hj, hj]
  have hc : (List.finRange N).filter (fun j => decide (j = i)) = [i] := by
    have h1 := List.filter_eq (List.finRange N) i
    have h2 : (List.finRange N).count i = 1 :=
      List.count_eq_one_of_mem (List.nodup_finRange N) (List.mem_finRange i)
    rw [h2] at h1
    simpa using h1
  simp only [newlyVisited]
  rw [hf, hc]
  rfl

theorem runTrace_of_inv (step : State → Option State) (P : List Int → State → Prop)
    (μ : State → Nat)
    (hstep : ∀ t s, P t s → s.isRunning = true →
      ∃ s', step s = some s' ∧ P (t ++ newlyVisited s s') s' ∧ μ s' < μ s) :
    ∀ (n : Nat) (t : List Int) (s : State), P t s → μ s ≤ n →
      ∃ tr sf, runTrace step n s = some (tr, sf) ∧ sf.isRunning = false ∧ P (t ++ tr) sf := by
  intro n
  induction n with
  | zero =>
    intro t s hP hμ
    cases hr : s.isRunning with
    | false => exact ⟨[], s, by simp [runTrace, hr], hr, by simpa using hP⟩
    | true =>
      obtain ⟨s', _, _, hlt⟩ := hstep t s hP hr
      omega
  | succ n ih =>
    intro t s hP hμ
    cases hr : s.isRunning with
    | false => exact ⟨[], s, by simp [runTrace, hr], hr, by simpa using hP⟩
    | true =>
      obtain ⟨s', hs', hP', hlt⟩ := hstep t s hP hr
      obtain ⟨tr, sf, hrun, hf, hPf⟩ := ih (t ++ newlyVisited s s') s' hP' (by omega)
      refine ⟨newlyVisited s s' ++ tr, sf, ?_, hf, ?_⟩
      · simp [runTrace, hr, hs', hrun]
      · simpa [List.append_assoc] using hPf

theorem sum_map_update {ι : Type} (f g : ι → Nat) (i : ι) (h : ∀ j, j ≠ i → f j = g j) :
    ∀ (l : List ι), l.Nodup →
      (i ∈ l → (l.map f).sum + g i = (l.map g).sum + f i) ∧
      (i ∉ l → (l.map f).sum = (l.map g).sum) := by
  intro l
  induction l with
  | nil => intro _; simp
  | cons a l ih =>
    intro hnd
    rw [List.nodup_cons] at hnd
    obtain ⟨h1, h2⟩ := ih hnd.2
    constructor
    · intro hi
      by_cases hai : a = i
      · subst hai
        have := h2 hnd.1
        simp only [List.map_cons, List.sum_cons]
        omega
      · have hil : i ∈ l := by
          rcases List.mem_cons.1 hi with h | h
          · exact absurd h.symm hai
          · exact h
        have := h1 hil
        have := h a hai
        simp only [List.map_cons, List.sum_cons]
        omega
    · intro hi
      have hai : a ≠ i := fun h => hi (h ▸ List.mem_cons_self _ _)
      have hil : i ∉ l := fun h => hi (List.mem_cons_of_mem _ h)
      have := h2 hil
      have := h a hai
      simp only [List.map_cons, List.sum_cons]
      omega

theorem pendingWork_update (s s' : State) (i : Fin N) (hi : s.visited i = false)
    (hv : s'.visited = Function.update s.visited i true) (ha : s'.adj = s.adj) :
    pendingWork s' + (s.adj i).length = pendingWork s := by
  have := (sum_map_update
    (fun j => if s'.visited j then 0 else (s'.adj j).length)
    (fun j => if s.visited j then 0 else (s.adj j).length) i
    (fun j hj => by simp [hv, ha, Function.update_noteq hj])
    (List.finRange N) (List.nodup_finRange N)).1 (List.mem_finRange i)
  simp only [hv, ha, hi, Function.update_same] at this
  simp only [pendingWork, hv, ha]
  simpa using this

theorem pendingWork_same (s s' : State) (hv : s'.visited = s.visited) (ha : s'.adj = s.adj) :
    pendingWork s' = pendingWork s := by
  simp [pendingWork, hv, ha]

/-! ### Reset, no-op steps, tick gating, manual step, monotonicity (C5 to C10) -/

/-- C5 (reset completeness): after `reset()` every `visited[n]` is false, every `dist[n]` is
`INF`, every `parent[n]` is `-1`, `shortestPath` is empty, `currentNode` is `-1`,
`isRunning` is false, and the BFS queue, the DFS stack and the priority queue are empty;
this holds for every engine state. -/
theorem reset_complete (s : State) :
    (∀ n, (reset s).visited n = false) ∧ (∀ n, (reset s).dist n = INF) ∧
    (∀ n, (reset s).parent n = -1) ∧ (reset s).shortestPath = [] ∧
    (reset s).currentNode = -1 ∧ (reset s).isRunning = false ∧
    (reset s).bfsQueue = [] ∧ (reset s).dfsStack = [] ∧ (reset s).dijkstraPQ = [] := by
  simp [reset]

/-- C6, counterexample: after `startBFS()` on the initial state, `reset()` leaves the run mode
`BFS`, so the mode is not `NONE` after `reset()`. -/
theorem reset_mode_counterexample :
    (reset (startBFS (initialState (fun _ => []) 1 1 1))).currentMode ≠ TraversalMode.NONE := by
  decide

/-- C6, amended: `reset()` does not touch the run mode; after `reset()` the value of
`currentMode` is what it was before. -/
theorem reset_mode_unchanged (s : State) : (reset s).currentMode = s.currentMode := rfl

/-- C7 (no-op steps): when the frontier of `bfsStep`, `dfsStep` or `dijkstraStep` is
non-empty and the node it yields (queue front, stack top, least entry of the priority
queue) is already visited, the step changes nothing but `currentNode`, which becomes that
node, and the frontier, which loses exactly that entry; `visited`, `dist`, `parent`,
`shortestPath`, `isRunning` and the run mode are as before. -/
theorem noop_step_frame :
    (∀ (s : State) (u : Int) (rest : List Int) (i : Fin N),
      s.bfsQueue = u :: rest → idx u = some i → s.visited i = true →
      bfsStep s = some { s with currentNode := u, bfsQueue := rest }) ∧
    (∀ (s : State) (u : Int) (rest : List Int) (i : Fin N),
      s.dfsStack = u :: rest → idx u = some i → s.visited i = true →
      dfsStep s = some { s with currentNode := u, dfsStack := rest }) ∧
    (∀ (fuel : Nat) (s : State) (top : Int × Int) (i : Fin N),
      pqTop s.dijkstraPQ = some top → idx top.2 = some i → s.visited i = true →
      dijkstraStep fuel s =
        some { s with currentNode := top.2, dijkstraPQ := s.dijkstraPQ.erase top } ∧
      top ∈ s.dijkstraPQ ∧ (∀ e ∈ s.dijkstraPQ, pairLe top e = true) ∧
      (s.dijkstraPQ.erase top).length + 1 = s.dijkstraPQ.length) := by
  refine ⟨?_, ?_, ?_⟩
  · intro s u rest i hq hi hv
    simp [bfsStep, hq, hi, hv]
  · intro s u rest i hq hi hv
    simp [dfsStep, hq, hi, hv]
  · intro fuel s top i hq hi hv
    obtain ⟨hmem, hmin⟩ := pqTop_spec _ _ hq
    refine ⟨by simp [dijkstraStep, hq, hi, hv], hmem, hmin, ?_⟩
    rw [List.length_erase_of_mem hmem]
    have : 0 < s.dijkstraPQ.length := List.length_pos_of_mem hmem
    omega

/-- C7, witness: in `staleState` the front of each frontier is the visited node 1. -/
theorem noop_step_frame_witness :
    bfsStep staleState = some { staleState with currentNode := 1, bfsQueue := [2] } ∧
    dfsStep staleState = some { staleState with currentNode := 1, dfsStack := [2] } ∧
    dijkstraStep 21 staleState =
      some { staleState with currentNode := 1, dijkstraPQ := [(5, 2)] } :=
  ⟨noop_step_frame.1 staleState 1 [2] 1 rfl (by decide) rfl,
    noop_step_frame.2.1 staleState 1 [2] 1 rfl (by decide) rfl,
    (noop_step_frame.2.2 21 staleState (0, 1) 1 (by decide) (by decide) rfl).1⟩

theorem timer_paused (fuel : Nat) (s : State) (h : s.isPaused = true) :
    ∀ n, iterTimer fuel n s = some s := by
  intro n
  induction n with
  | zero => rfl
  | succ n ih => simp [iterTimer, timer, h, ih]

/-- C8 (tick gating): the timer callback leaves the whole state unchanged unless
`isRunning` holds and neither `isPaused` nor `isStepMode` does; when that condition holds
its result is the result of one call of the step function of the current mode (and the
state is unchanged when the mode is `NONE`).  After a run has been started and the pause
key applied, any number of timer calls leaves the state unchanged. -/
theorem tick_gating (fuel : Nat) (s : State) :
    (¬ (s.isRunning = true ∧ s.isPaused = false ∧ s.isStepMode = false) →
      timer fuel s = some s) ∧
    ((s.isRunning = true ∧ s.isPaused = false ∧ s.isStepMode = false) →
      (s.currentMode = TraversalMode.BFS → timer fuel s = bfsStep s) ∧
      (s.currentMode = TraversalMode.DFS → timer fuel s = dfsStep s) ∧
      (s.currentMode = TraversalMode.DIJKSTRA → timer fuel s = dijkstraStep fuel s) ∧
      (s.currentMode = TraversalMode.NONE → timer fuel s = some s)) ∧
    (∀ n, iterTimer fuel n (keyPause (startBFS s)) = some (keyPause (startBFS s))) ∧
    (∀ n, iterTimer fuel n (keyPause (startDFS s)) = some (keyPause (startDFS s))) ∧
    (∀ s', startDijkstra s = some s' →
      ∀ n, iterTimer fuel n (keyPause s') = some (keyPause s')) := by
  refine ⟨?_, ?_, ?_, ?_, ?_⟩
  · intro h
    unfold timer
    split
    · rename_i hc
      simp at hc
      exact absurd ⟨hc.1.1, hc.1.2, hc.2⟩ h
    · rfl
  · rintro ⟨h1, h2, h3⟩
    refine ⟨?_, ?_, ?_, ?_⟩ <;> intro hm <;> simp [timer, h1, h2, h3, hm]
  · exact timer_paused fuel _ (by simp [keyPause, startBFS, reset])
  · exact timer_paused fuel _ (by simp [keyPause, startDFS, reset])
  · intro s' hs'
    apply timer_paused
    simp only [startDijkstra, Option.bind_eq_some] at hs'
    obtain ⟨i, _, hi⟩ := hs'
    simp at hi
    subst hi
    simp [keyPause, reset]

/-- C8, witness: right after `startBFS()` on the initial state the timer performs one
`bfsStep`. -/
theorem tick_gating_witness :
    timer 0 (startBFS (initialState (fun _ => []) 1 1 1)) =
      bfsStep (startBFS (initialState (fun _ => []) 1 1 1)) :=
  ((tick_gating 0 (startBFS (initialState (fun _ => []) 1 1 1))).2.1
    ⟨rfl, rfl, rfl⟩).1 rfl

/-- C9, counterexample: in the initial state, where `isRunning` and `isStepMode` are false,
the step key turns `isStepMode` on. -/
theorem manual_step_counterexample :
    (initialState (fun _ => []) 1 1 1).isRunning = false ∧
    (initialState (fun _ => []) 1 1 1).isStepMode = false ∧
    (keyStep 0 (initialState (fun _ => []) 1 1 1)).map State.isStepMode = some true ∧
    keyStep 0 (initialState (fun _ => []) 1 1 1) ≠ some (initialState (fun _ => []) 1 1 1) := by
  refine ⟨rfl, rfl, by decide, ?_⟩
  intro h
  have h2 := congrArg (Option.map State.isStepMode) h
  revert h2
  decide

/-- C9, amended: while `isRunning` is false the step key performs no step: it sets
`isStepMode` and `shouldStep` to true and leaves every other part of the state unchanged. -/
theorem manual_step_idle (fuel : Nat) (s : State) (h : s.isRunning = false) :
    keyStep fuel s = some { s with isStepMode := true, shouldStep := true } := by
  simp [keyStep, h]

/-- C9, witness of the amended claim on the initial state. -/
theorem manual_step_idle_witness :
    keyStep 0 (initialState (fun _ => []) 1 1 1) =
      some { initialState (fun _ => []) 1 1 1 with isStepMode := true, shouldStep := true } :=
  manual_step_idle 0 (initialState (fun _ => []) 1 1 1) rfl

theorem bfsPush_visited (st st' : State) (e : Int × Int) (h : bfsPush st e = some st') :
    st'.visited = st.visited := by
  simp only [bfsPush, Option.bind_eq_some] at h
  obtain ⟨j, _, hj⟩ := h
  split at hj <;> simp at hj <;> subst hj <;> rfl

theorem dfsPush_visited (st st' : State) (e : Int × Int) (h : dfsPush st e = some st') :
    st'.visited = st.visited := by
  simp only [dfsPush, Option.bind_eq_some] at h
  obtain ⟨j, _, hj⟩ := h
  split at hj <;> simp at hj <;> subst hj <;> rfl

theorem relax_mono (u : Int) (i : Fin N) (st st' : State) (e : Int × Int)
    (h : relax u i st e = some st') :
    st'.visited = st.visited ∧ ∀ k, st'.dist k ≤ st.dist k := by
  simp only [relax, Option.bind_eq_some] at h
  obtain ⟨j, _, hj⟩ := h
  split at hj
  · simp at hj; subst hj; exact ⟨rfl, fun _ => le_refl _⟩
  · simp only [Option.bind_eq_some] at hj
    obtain ⟨nd, _, hnd⟩ := hj
    split at hnd
    · rename_i hlt
      simp at hnd; subst hnd
      refine ⟨rfl, fun k => ?_⟩
      by_cases hk : k = j
      · subst hk; simp; omega
      · simp [Function.update_noteq hk]
    · simp at hnd; subst hnd; exact ⟨rfl, fun _ => le_refl _⟩

/-- C10 (overlay monotonicity): whenever `bfsStep`, `dfsStep` or `dijkstraStep` returns, a
node that was visited before the step is visited after it, and for `dijkstraStep` no
entry of `dist` is larger after the step than before. -/
theorem overlay_monotone :
    (∀ (s s' : State) (i : Fin N), bfsStep s = some s' →
      s.visited i = true → s'.visited i = true) ∧
    (∀ (s s' : State) (i : Fin N), dfsStep s = some s' →
      s.visited i = true → s'.visited i = true) ∧
    (∀ (fuel : Nat) (s s' : State) (i : Fin N), dijkstraStep fuel s = some s' →
      (s.visited i = true → s'.visited i = true) ∧ s'.dist i ≤ s.dist i) := by
  refine ⟨?_, ?_, ?_⟩
  · intro s s' i h hv
    unfold bfsStep at h
    split at h
    · simp at h; subst h; exact hv
    · simp only [Option.bind_eq_some] at h
      obtain ⟨k, _, hk⟩ := h
      split at hk
      · simp at hk; subst hk; exact hv
      · have := foldlM_inv bfsPush (fun st => st.visited i = true)
          (fun b a b' hb hP => by show b'.visited i = true; rw [bfsPush_visited b b' a hb]; exact hP) _ _ _ hk
        apply this
        by_cases hik : i = k
        · subst hik; simp
        · simp [Function.update_noteq hik, hv]
  · intro s s' i h hv
    unfold dfsStep at h
    split at h
    · simp at h; subst h; exact hv
    · simp only [Option.bind_eq_some] at h
      obtain ⟨k, _, hk⟩ := h
      split at hk
      · simp at hk; subst hk; exact hv
      · have := foldlM_inv dfsPush (fun st => st.visited i = true)
          (fun b a b' hb hP => by show b'.visited i = true; rw [dfsPush_visited b b' a hb]; exact hP) _ _ _ hk
        apply this
        by_cases hik : i = k
        · subst hik; simp
        · simp [Function.update_noteq hik, hv]
  · intro fuel s s' i h
    unfold dijkstraStep at h
    split at h
    · simp only [Option.bind_eq_some] at h
      obtain ⟨e, _, he⟩ := h
      split at he
      · simp only [Option.bind_eq_some] at he
        obtain ⟨p, _, hp⟩ := he
        simp at hp; subst hp; exact ⟨fun hv => hv, le_refl _⟩
      · simp at he; subst he; exact ⟨fun hv => hv, le_refl _⟩
    · simp only [Option.bind_eq_some] at h
      obtain ⟨k, _, hk⟩ := h
      split at hk
      · simp at hk; subst hk; exact ⟨fun hv => hv, le_refl _⟩
      · rename_i top _ _ _
        have := foldlM_inv (relax top.2 k)
          (fun st => (s.visited i = true → st.visited i = true) ∧ st.dist i ≤ s.dist i)
          (fun b a b' hb hP => by
            obtain ⟨h1, h2⟩ := relax_mono _ _ b b' a hb
            show (s.visited i = true → b'.visited i = true) ∧ b'.dist i ≤ s.dist i
            rw [h1]; exact ⟨hP.1, le_trans (h2 i) hP.2⟩) _ _ _ hk
        apply this
        refine ⟨fun hv => ?_, le_refl _⟩
        by_cases hik : i = k
        · subst hik; simp
        · simp [Function.update_noteq hik, hv]

/-- C10, witness: `bfsStep` and `dfsStep` on `staleState`, where node 1 is visited, and the
`dijkstraStep` from `midRunState` to `midRunNext`, which keeps node 3 visited and lowers
`dist[2]` from `INF` to 4. -/
theorem overlay_monotone_witness :
    ({ staleState with currentNode := 1, bfsQueue := [2] } : State).visited 1 = true ∧
    ({ staleState with currentNode := 1, dfsStack := [2] } : State).visited 1 = true ∧
    midRunNext.visited 3 = true ∧ midRunNext.dist 2 ≤ midRunState.dist 2 :=
  ⟨overlay_monotone.1 staleState { staleState with currentNode := 1, bfsQueue := [2] } 1
      rfl rfl,
    overlay_monotone.2.1 staleState { staleState with currentNode := 1, dfsStack := [2] } 1
      rfl rfl,
    (overlay_monotone.2.2 21 midRunState midRunNext 3 rfl).1 rfl,
    (overlay_monotone.2.2 21 midRunState midRunNext 2 rfl).2⟩

/-! ### Depth-first search against the recursive reference (C4) -/

theorem dfsRef_succ (nbrs : Int → List (Int × Int)) (k : Nat) (seen : List Int) (u : Int) :
    dfsRef nbrs (k + 1) seen u = dfsRefList nbrs k (seen ++ [u]) ((nbrs u).map Prod.fst) := by
  simp [dfsRef, dfsRefList, List.foldl_map]

theorem dfsRefList_append (nbrs : Int → List (Int × Int)) (k : Nat) (seen xs ys : List Int) :
    dfsRefList nbrs k seen (xs ++ ys) = dfsRefList nbrs k (dfsRefList nbrs k seen xs) ys := by
  simp [dfsRefList, List.foldl_append]

theorem dfsRef_subset (nbrs : Int → List (Int × Int)) :
    ∀ (k : Nat) (seen : List Int) (u : Int), seen ⊆ dfsRef nbrs k seen u := by
  intro k
  induction k with
  | zero => intro seen u; simp [dfsRef]
  | succ k ih =>
    intro seen u
    rw [dfsRef]
    have key : ∀ (es : List (Int × Int)) (acc : List Int), acc ⊆
        es.foldl (fun acc e => if e.1 ∈ acc then acc else dfsRef nbrs k acc e.1) acc := by
      intro es
      induction es with
      | nil => intro acc; simp
      | cons e es ihe =>
        intro acc
        simp only [List.foldl_cons]
        split
        · exact ihe acc
        · exact (ih acc e.1).trans (ihe _)
    exact (List.subset_append_left seen [u]).trans (key _ _)

theorem dfsRefList_subset (nbrs : Int → List (Int × Int)) (k : Nat) :
    ∀ (xs seen : List Int), seen ⊆ dfsRefList nbrs k seen xs := by
  intro xs
  induction xs with
  | nil => intro seen; simp [dfsRefList]
  | cons x xs ih =>
    intro seen
    simp only [dfsRefList, List.foldl_cons]
    split
    · exact ih seen
    · exact (dfsRef_subset nbrs k seen x).trans (ih _)

theorem unseenCount_mono (n : Int) {a b : List Int} (h : a ⊆ b) :
    unseenCount n b ≤ unseenCount n a := by
  apply Finset.card_le_card
  intro v hv
  simp only [Finset.mem_filter] at hv ⊢
  exact ⟨hv.1, fun hva => hv.2 (h hva)⟩

theorem unseenCount_snoc (n : Int) (seen : List Int) (u : Int) (h1 : 1 ≤ u) (h2 : u ≤ n)
    (hu : u ∉ seen) : unseenCount n (seen ++ [u]) < unseenCount n seen := by
  apply Finset.card_lt_card
  constructor
  · intro v hv
    simp only [Finset.mem_filter] at hv ⊢
    exact ⟨hv.1, fun hva => hv.2 (List.mem_append_left _ hva)⟩
  · intro hsub
    have : u ∈ (Finset.Icc 1 n).filter fun v => v ∉ seen ++ [u] :=
      hsub (by simp [hu, h1, h2])
    simp at this

theorem dfsRef_fuel (nbrs : Int → List (Int × Int)) (n : Int)
    (hn : ∀ u e, e ∈ nbrs u → 1 ≤ e.1 ∧ e.1 ≤ n) :
    ∀ (k : Nat) (seen : List Int) (u : Int), u ∉ seen → 1 ≤ u → u ≤ n →
      unseenCount n seen ≤ k → dfsRef nbrs k seen u = dfsRef nbrs (k + 1) seen u := by
  intro k
  induction k with
  | zero =>
    intro seen u hu h1 h2 hc
    have hpos : 0 < unseenCount n seen := by
      apply Finset.card_pos.2
      exact ⟨u, by simp [hu, h1, h2]⟩
    omega
  | succ k ih =>
    intro seen u hu h1 h2 hc
    rw [dfsRef, dfsRef]
    have hc' : unseenCount n (seen ++ [u]) ≤ k := by
      have := unseenCount_snoc n seen u h1 h2 hu
      omega
    have key : ∀ (es : List (Int × Int)), (∀ e ∈ es, 1 ≤ e.1 ∧ e.1 ≤ n) →
        ∀ (acc : List Int), unseenCount n acc ≤ k →
        es.foldl (fun acc e => if e.1 ∈ acc then acc else dfsRef nbrs k acc e.1) acc =
        es.foldl (fun acc e => if e.1 ∈ acc then acc else dfsRef nbrs (k + 1) acc e.1) acc := by
      intro es
      induction es with
      | nil => intro _ acc _; rfl
      | cons e es ihe =>
        intro hes acc hacc
        simp only [List.foldl_cons]
        have he := hes e (List.mem_cons_self _ _)
        have hes' : ∀ e ∈ es, 1 ≤ e.1 ∧ e.1 ≤ n := fun x hx => hes x (List.mem_cons_of_mem _ hx)
        by_cases hm : e.1 ∈ acc
        · simp only [hm, if_true]
          exact ihe hes' acc hacc
        · simp only [hm, if_false]
          rw [← ih acc e.1 hm he.1 he.2 hacc]
          apply ihe hes'
          exact (unseenCount_mono n (dfsRef_subset nbrs k acc e.1)).trans hacc
    exact key (nbrs u) (fun e he => hn u e he) _ hc'

theorem dfsRef_fuel_le (nbrs : Int → List (Int × Int)) (n : Int)
    (hn : ∀ u e, e ∈ nbrs u → 1 ≤ e.1 ∧ e.1 ≤ n) (seen : List Int) (u : Int)
    (hu : u ∉ seen) (h1 : 1 ≤ u) (h2 : u ≤ n) (k : Nat) (hk : unseenCount n seen ≤ k) :
    ∀ K, k ≤ K → dfsRef nbrs k seen u = dfsRef nbrs K seen u := by
  intro K hK
  induction K, hK using Nat.le_induction with
  | base => rfl
  | succ m hm ih =>
    rw [ih]
    exact dfsRef_fuel nbrs n hn m seen u hu h1 h2 (hk.trans hm)

theorem dfsRefList_fuel (nbrs : Int → List (Int × Int)) (n : Int)
    (hn : ∀ u e, e ∈ nbrs u → 1 ≤ e.1 ∧ e.1 ≤ n) (k K : Nat) (hkK : k ≤ K) :
    ∀ (xs : List Int), (∀ x ∈ xs, 1 ≤ x ∧ x ≤ n) → ∀ (seen : List Int),
      unseenCount n seen ≤ k → dfsRefList nbrs k seen xs = dfsRefList nbrs K seen xs := by
  intro xs
  induction xs with
  | nil => intro _ seen _; rfl
  | cons x xs ih =>
    intro hxs seen hc
    simp only [dfsRefList, List.foldl_cons]
    have hx := hxs x (List.mem_cons_self _ _)
    have hxs' : ∀ y ∈ xs, 1 ≤ y ∧ y ≤ n := fun y hy => hxs y (List.mem_cons_of_mem _ hy)
    by_cases hm : x ∈ seen
    · simp only [hm, if_true]
      exact ih hxs' seen hc
    · simp only [hm, if_false]
      rw [← dfsRef_fuel_le nbrs n hn seen x hm hx.1 hx.2 k hc K hkK]
      exact ih hxs' _ ((unseenCount_mono n (dfsRef_subset nbrs k seen x)).trans hc)

theorem dfsRefList_filter (nbrs : Int → List (Int × Int)) (k : Nat) (t : List Int) :
    ∀ (xs seen : List Int), t ⊆ seen →
      dfsRefList nbrs k seen (xs.filter fun v => decide (v ∉ t)) = dfsRefList nbrs k seen xs := by
  intro xs
  induction xs with
  | nil => intro seen _; rfl
  | cons x xs ih =>
    intro seen hsub
    by_cases hx : x ∈ t
    · have hxs : x ∈ seen := hsub hx
      simp only [List.filter_cons, hx, not_true_eq_false, decide_False, Bool.false_eq_true,
        if_false]
      rw [ih seen hsub]
      simp [dfsRefList, hxs]
    · simp only [List.filter_cons, hx, not_false_eq_true, decide_True, if_true]
      simp only [dfsRefList, List.foldl_cons]
      split
      · exact ih seen hsub
      · exact ih _ (hsub.trans (dfsRef_subset nbrs k seen x))

/-- Effect of visiting an unseen node on the reference: the pending list gets the unseen
neighbours in front. -/
theorem dfsRefList_expand (nbrs : Int → List (Int × Int)) (n : Int)
    (hn : ∀ u e, e ∈ nbrs u → 1 ≤ e.1 ∧ e.1 ≤ n) (K : Nat) (t : List Int) (u : Int)
    (rest : List Int) (hu : u ∉ t) (h1 : 1 ≤ u) (h2 : u ≤ n) (hK : unseenCount n t ≤ K) :
    dfsRefList nbrs K t (u :: rest) =
      dfsRefList nbrs K (t ++ [u])
        ((((nbrs u).map Prod.fst).filter fun v => decide (v ∉ t ++ [u])) ++ rest) := by
  have hpos : 0 < unseenCount n t := Finset.card_pos.2 ⟨u, by simp [hu, h1, h2]⟩
  obtain ⟨k, rfl⟩ : ∃ k, K = k + 1 := ⟨K - 1, by omega⟩
  have hc' : unseenCount n (t ++ [u]) ≤ k := by
    have := unseenCount_snoc n t u h1 h2 hu
    omega
  rw [dfsRefList_append, dfsRefList_filter nbrs (k + 1) (t ++ [u]) _ _ (List.Subset.refl _)]
  conv_lhs => simp only [dfsRefList, List.foldl_cons, hu, if_false]
  rw [dfsRef_succ]
  rw [dfsRefList_fuel nbrs n hn k (k + 1) (Nat.le_succ k) _ _ _ hc']
  · rfl
  · intro x hx
    simp only [List.mem_map] at hx
    obtain ⟨e, he, rfl⟩ := hx
    exact hn u e he

theorem dfsPush_loop :
    ∀ (es : List (Int × Int)) (st : State), (∀ e ∈ es, ∃ j, idx e.1 = some j) →
      es.foldlM dfsPush st = some { st with
        dfsStack := ((es.filter fun e => !visitedAt st e.1).map Prod.fst).reverse
          ++ st.dfsStack } := by
  intro es
  induction es with
  | nil => intro st _; simp
  | cons e es ih =>
    intro st h
    obtain ⟨j, hj⟩ := h e (List.mem_cons_self _ _)
    have h' : ∀ x ∈ es, ∃ j, idx x.1 = some j := fun x hx => h x (List.mem_cons_of_mem _ hx)
    rw [List.foldlM_cons]
    by_cases hv : st.visited j = true
    · have h1 : dfsPush st e = some st := by simp [dfsPush, hj, hv]
      have h2 : visitedAt st e.1 = true := by simp [visitedAt, hj, hv]
      rw [h1]
      simp only [Option.some_bind, Option.bind_eq_bind]
      rw [ih st h']
      simp [List.filter_cons, h2]
    · have h1 : dfsPush st e = some { st with dfsStack := e.1 :: st.dfsStack } := by
        simp [dfsPush, hj, hv]
      have h2 : visitedAt st e.1 = false := by simp [visitedAt, hj, hv]
      rw [h1]
      simp only [Option.some_bind, Option.bind_eq_bind]
      have hva : visitedAt { st with dfsStack := e.1 :: st.dfsStack } = visitedAt st := rfl
      rw [ih _ h', hva]
      simp [List.filter_cons, h2]

theorem unseenCount_le (n : Int) (seen : List Int) (hn : n ≤ 20) : unseenCount n seen ≤ 20 := by
  unfold unseenCount
  calc _ ≤ (Finset.Icc 1 n).card := Finset.card_filter_le _ _
    _ = (n + 1 - 1).toNat := Int.card_Icc 1 n
    _ ≤ 20 := by omega

theorem neighbors_range (s : State) (h : GraphOK s) :
    ∀ u e, e ∈ neighbors s u → 1 ≤ e.1 ∧ e.1 ≤ s.numNodes := by
  intro u e he
  unfold neighbors at he
  split at he
  · exact h.2.2 _ e he
  · simp at he

theorem neighbors_idx (s : State) (u : Int) (i : Fin N) (h : idx u = some i) :
    neighbors s u = s.adj i := by
  simp [neighbors, h]

theorem visitedAt_idx (s : State) (u : Int) (i : Fin N) (h : idx u = some i) :
    visitedAt s u = s.visited i := by
  simp [visitedAt, h]

theorem visitedAt_update (s s' : State) (u : Int) (i : Fin N) (h : idx u = some i)
    (hv : s'.visited = Function.update s.visited i true) (v : Int) :
    visitedAt s' v = (decide (v = u) || visitedAt s v) := by
  unfold visitedAt
  cases hj : idx v with
  | none =>
    have : v ≠ u := fun e => by rw [e, h] at hj; simp at hj
    simp [this]
  | some j =>
    by_cases hji : j = i
    · have : v = u := by rw [idx_eq_some] at hj h; rw [hj, h, hji]
      simp [hv, hji, this]
    · have : v ≠ u := fun e => by rw [e, h] at hj; exact hji (Option.some.inj hj).symm
      simp [hv, Function.update_noteq hji, this]

theorem dfsStep_nil (s : State) (hq : s.dfsStack = []) :
    ∃ s', dfsStep s = some s' ∧ s'.adj = s.adj ∧ s'.visited = s.visited ∧
      s'.dfsStack = [] ∧ s'.isRunning = false :=
  ⟨{ s with isRunning := false, currentNode := -1 }, by simp [dfsStep, hq], rfl, rfl, hq, rfl⟩

theorem dfsStep_seen (s : State) (u : Int) (rest : List Int) (i : Fin N)
    (hq : s.dfsStack = u :: rest) (hi : idx u = some i) (hv : s.visited i = true) :
    ∃ s', dfsStep s = some s' ∧ s'.adj = s.adj ∧ s'.visited = s.visited ∧
      s'.dfsStack = rest ∧ s'.isRunning = s.isRunning :=
  ⟨{ s with currentNode := u, dfsStack := rest }, by simp [dfsStep, hq, hi, hv],
    rfl, rfl, rfl, rfl⟩

theorem visitedAt_congr (s s' : State) (h : s'.visited = s.visited) :
    visitedAt s' = visitedAt s := by
  funext v; simp [visitedAt, h]

theorem dfsPush_loop_spec (es : List (Int × Int)) (st : State)
    (h : ∀ e ∈ es, ∃ j, idx e.1 = some j) :
    ∃ st', es.foldlM dfsPush st = some st' ∧ st'.adj = st.adj ∧ st'.visited = st.visited ∧
      st'.isRunning = st.isRunning ∧
      st'.dfsStack = ((es.filter fun e => !visitedAt st e.1).map Prod.fst).reverse
          ++ st.dfsStack :=
  ⟨_, dfsPush_loop es st h, rfl, rfl, rfl, rfl⟩

theorem dfsStep_new (s : State) (u : Int) (rest : List Int) (i : Fin N)
    (hq : s.dfsStack = u :: rest) (hi : idx u = some i) (hv : s.visited i = false)
    (hidx : ∀ e ∈ s.adj i, ∃ j, idx e.1 = some j) :
    ∃ s', dfsStep s = some s' ∧ s'.adj = s.adj ∧
      s'.visited = Function.update s.visited i true ∧
      s'.dfsStack = (((s.adj i).map Prod.fst).filter fun v => !visitedAt s' v) ++ rest ∧
      s'.isRunning = s.isRunning := by
  obtain ⟨s', hs', ha, hvv, hrn, hst⟩ := dfsPush_loop_spec (s.adj i).reverse
    { s with currentNode := u, dfsStack := rest, visited := Function.update s.visited i true }
    (fun e he => hidx e (List.mem_reverse.1 he))
  refine ⟨s', ?_, ha, hvv, ?_, hrn⟩
  · simp only [dfsStep, hq, hi, hv, Option.some_bind, Bool.false_eq_true, if_false]
    exact hs'
  · rw [hst, List.filter_reverse, List.map_reverse, List.reverse_reverse, List.filter_map,
      visitedAt_congr _ _ hvv]
    rfl

theorem dfsStep_inv (s0 : State) (K : Nat) (hK : 20 ≤ K) (hg : GraphOK s0) (t : List Int)
    (s : State) (hI : DfsInv s0 K t s) (hr : s.isRunning = true) :
    ∃ s', dfsStep s = some s' ∧ DfsInv s0 K (t ++ newlyVisited s s') s' ∧
      dfsMeasure s' < dfsMeasure s := by
  obtain ⟨hadj, hstk, hvis, htr, hrun, href⟩ := hI
  cases hq : s.dfsStack with
  | nil =>
    obtain ⟨s', hs', ha, hvv, hst, hrn⟩ := dfsStep_nil s hq
    refine ⟨s', hs', ?_, ?_⟩
    · rw [newlyVisited_same s s' hvv, List.append_nil]
      refine ⟨ha.trans hadj, by simp [hst], ?_, htr, fun _ => hst, ?_⟩
      · intro v; rw [hvis v]; simp [visitedAt, hvv]
      · rw [hst, ← href, hq]
    · have := pendingWork_same s s' hvv ha
      simp [dfsMeasure, hr, hrn, this, hst, hq]
  | cons u rest =>
    have hu := hstk u (by simp [hq])
    obtain ⟨i, hi⟩ := idx_of_range (v := u) (by omega) (by have := hg.2.1; omega)
    have hrest : ∀ v ∈ rest, 1 ≤ v ∧ v ≤ s0.numNodes := fun v hv => hstk v (by simp [hq, hv])
    by_cases hv : s.visited i = true
    · obtain ⟨s', hs', ha, hvv, hst, hrn⟩ := dfsStep_seen s u rest i hq hi hv
      refine ⟨s', hs', ?_, ?_⟩
      · rw [newlyVisited_same s s' hvv, List.append_nil]
        refine ⟨ha.trans hadj, by rw [hst]; exact hrest, ?_, htr,
          fun h => by rw [hrn, hr] at h; simp at h, ?_⟩
        · intro v; rw [hvis v]; simp [visitedAt, hvv]
        · have hut : u ∈ t := (hvis u).2 (by rw [visitedAt_idx s u i hi, hv])
          rw [hst, ← href, hq]
          simp [dfsRefList, hut]
      · have := pendingWork_same s s' hvv ha
        simp [dfsMeasure, hr, hrn, this, hst, hq]
    · have hv' : s.visited i = false := by simpa using hv
      have hut : u ∉ t := fun h => by
        have := (hvis u).1 h
        rw [visitedAt_idx s u i hi, hv'] at this
        simp at this
      have hnb : neighbors s0 u = s.adj i := by rw [neighbors_idx s0 u i hi, hadj]
      have hrange : ∀ e ∈ s.adj i, 1 ≤ e.1 ∧ e.1 ≤ s0.numNodes := fun e he => by
        rw [hadj] at he; exact hg.2.2 i e he
      have hidx : ∀ e ∈ s.adj i, ∃ j, idx e.1 = some j := fun e he => by
        have := hrange e he
        exact idx_of_range (by omega) (by have := hg.2.1; omega)
      obtain ⟨s', hs', ha, hvv, hst, hrn⟩ := dfsStep_new s u rest i hq hi hv' hidx
      have hvis2 : ∀ v, visitedAt s' v = (decide (v = u) || visitedAt s v) :=
        visitedAt_update s s' u i hi hvv
      have hmem : ∀ v, v ∈ t ++ [u] ↔ visitedAt s' v = true := by
        intro v
        rw [hvis2 v, List.mem_append, hvis v]
        simp [or_comm]
      have hfilt : (((s.adj i).map Prod.fst).filter fun v => !visitedAt s' v)
          = ((s.adj i).map Prod.fst).filter fun v => decide (v ∉ t ++ [u]) := by
        apply List.filter_congr
        intro v _
        have := hmem v
        by_cases hx : visitedAt s' v = true
        · simp [hx, this.2 hx]
        · have hx' : v ∉ t ++ [u] := fun h => hx (this.1 h)
          simp [hx, hx']
      refine ⟨s', hs', ?_, ?_⟩
      · rw [newlyVisited_update s s' i hv' hvv, ← idx_eq_some.1 hi]
        refine ⟨ha.trans hadj, ?_, hmem, ?_, fun h => by rw [hrn, hr] at h; simp at h, ?_⟩
        · intro v hv
          rw [hst] at hv
          simp only [List.mem_append, List.mem_filter, List.mem_map] at hv
          rcases hv with ⟨⟨e, he, rfl⟩, _⟩ | hv
          · exact hrange e he
          · exact hrest v hv
        · intro v hv
          rcases List.mem_append.1 hv with h | h
          · exact htr v h
          · simp at h; subst h; exact hu
        · rw [hst, hfilt, ← href, hq, ← hnb]
          exact (dfsRefList_expand (neighbors s0) s0.numNodes (neighbors_range s0 hg) K t u rest
            hut hu.1 hu.2 ((unseenCount_le _ _ hg.2.1).trans hK)).symm
      · have hp := pendingWork_update s s' i hv' hvv ha
        have hlen : (((s.adj i).map Prod.fst).filter fun v => !visitedAt s' v).length
            ≤ (s.adj i).length :=
          (List.length_filter_le _ _).trans (by simp)
        simp only [dfsMeasure, hr, hrn, hq, hst, List.length_append, List.length_cons, if_true]
        omega

theorem pendingWork_le (s : State) : pendingWork s ≤ adjTotal s := by
  unfold pendingWork adjTotal
  apply List.sum_le_sum
  intro i _
  split <;> simp

/-- C4 (DFS order): on a graph whose neighbour ids are in range and for a start node in
`[1, numNodes]`, the run `startDFS()` then `dfsStep()` until `isRunning` is false ends
within `2 + adjTotal s` steps, and the sequence of newly marked nodes is the visit order
of the recursive depth-first search from the start node that recurses into the unvisited
neighbours in adjacency-list order (for every recursion bound `K ≥ N`). -/
theorem dfs_matches_recursive (s : State) (hg : GraphOK s)
    (hs : 1 ≤ s.startNode ∧ s.startNode ≤ s.numNodes) (K : Nat) (hK : N ≤ K)
    (n : Nat) (hn : 2 + adjTotal s ≤ n) :
    ∃ sf, runTrace dfsStep n (startDFS s) =
        some (dfsRef (neighbors s) K [] s.startNode, sf) ∧ sf.isRunning = false := by
  have h0 : DfsInv s K [] (startDFS s) := by
    refine ⟨rfl, ?_, ?_, ?_, ?_, ?_⟩
    · intro v hv
      simp [startDFS, reset] at hv
      subst hv; exact hs
    · intro v
      simp [visitedAt, startDFS, reset]
      split <;> simp
    · simp
    · simp [startDFS]
    · simp [startDFS, reset, dfsRefList]
  have hμ : dfsMeasure (startDFS s) ≤ n := by
    have := pendingWork_le (startDFS s)
    have h2 : adjTotal (startDFS s) = adjTotal s := rfl
    simp only [dfsMeasure] at *
    simp [startDFS, reset] at *
    omega
  obtain ⟨tr, sf, hrun, hf, hP⟩ := runTrace_of_inv dfsStep (DfsInv s K) dfsMeasure
    (fun t st hI hr => dfsStep_inv s K (by simp only [N] at hK; omega) hg t st hI hr)
    n [] (startDFS s) h0 hμ
  refine ⟨sf, ?_, hf⟩
  rw [hrun]
  obtain ⟨_, _, _, _, hstk, href⟩ := hP
  rw [hstk hf] at href
  simp [dfsRefList] at href
  rw [href]

/-- C4, witness (scenario B): nodes 1..3, edges (1,2,1), (2,3,1), start 1 visits 1, 2, 3. -/
theorem dfs_matches_recursive_witness :
    ∃ sf, runTrace dfsStep 6 (startDFS scenarioA) = some ([1, 2, 3], sf) ∧
      sf.isRunning = false :=
  dfs_matches_recursive scenarioA (by decide) (by decide) 21 (by decide) 6 (by decide)

/-! ### Breadth-first search layer order (C3) -/

theorem mem_firsts (x : Int) : ∀ (q seen : List Int), x ∈ firsts seen q ↔ x ∈ q ∧ x ∉ seen := by
  intro q
  induction q with
  | nil => intro seen; simp [firsts]
  | cons y q ih =>
    intro seen
    by_cases hy : y ∈ seen
    · simp only [firsts, hy, if_true, ih, List.mem_cons]
      constructor
      · rintro ⟨h1, h2⟩; exact ⟨Or.inr h1, h2⟩
      · rintro ⟨h1 | h1, h2⟩
        · subst h1; exact absurd hy h2
        · exact ⟨h1, h2⟩
    · simp only [firsts, hy, if_false, List.mem_cons, ih, not_or]
      constructor
      · rintro (h | ⟨h1, h2, h3⟩)
        · subst h; exact ⟨Or.inl rfl, hy⟩
        · exact ⟨Or.inr h1, h3⟩
      · rintro ⟨h1 | h1, h2⟩
        · exact Or.inl h1
        · by_cases hxy : x = y
          · exact Or.inl hxy
          · exact Or.inr ⟨h1, hxy, h2⟩

theorem firsts_congr : ∀ (q s1 s2 : List Int), (∀ x, x ∈ s1 ↔ x ∈ s2) →
    firsts s1 q = firsts s2 q := by
  intro q
  induction q with
  | nil => intro _ _ _; rfl
  | cons y q ih =>
    intro s1 s2 h
    by_cases hy : y ∈ s1
    · have hy2 : y ∈ s2 := (h y).1 hy
      simp only [firsts, hy, hy2, if_true]
      exact ih s1 s2 h
    · have hy2 : y ∉ s2 := fun h2 => hy ((h y).2 h2)
      simp only [firsts, hy, hy2, if_false]
      rw [ih (y :: s1) (y :: s2) (fun x => by simp [h x])]

theorem firsts_cons_of_mem {x : Int} {seen : List Int} (q : List Int) (h : x ∈ seen) :
    firsts seen (x :: q) = firsts seen q := by
  simp [firsts, h]

theorem firsts_cons_of_not_mem {x : Int} {seen : List Int} (q : List Int) (h : x ∉ seen) :
    firsts seen (x :: q) = x :: firsts (x :: seen) q := by
  simp [firsts, h]

theorem firsts_append : ∀ (a b seen : List Int),
    firsts seen (a ++ b) = firsts seen a ++ firsts (a ++ seen) b := by
  intro a
  induction a with
  | nil => intro b seen; simp [firsts]
  | cons x a ih =>
    intro b seen
    by_cases hx : x ∈ seen
    · rw [List.cons_append, firsts_cons_of_mem _ hx, firsts_cons_of_mem _ hx, ih b seen]
      congr 1
      apply firsts_congr
      intro y
      simp only [List.mem_append, List.mem_cons]
      constructor
      · rintro (h | h)
        · exact Or.inl (Or.inr h)
        · exact Or.inr h
      · rintro ((h | h) | h)
        · subst h; exact Or.inr hx
        · exact Or.inl h
        · exact Or.inr h
    · rw [List.cons_append, firsts_cons_of_not_mem _ hx, firsts_cons_of_not_mem _ hx,
        ih b (x :: seen)]
      simp only [List.cons_append]
      congr 2
      apply firsts_congr
      intro y
      simp only [List.mem_append, List.mem_cons]
      tauto

theorem BfsInv.drop_seen {nbrs : Int → List Int} {start : Int} {d : Int → Nat}
    {reach : Int → Prop} {t rest : List Int} {u : Int}
    (h : BfsInv nbrs start d reach t (u :: rest)) (hu : u ∈ t) :
    BfsInv nbrs start d reach t rest := by
  have hq : ∀ v, v ∈ t ∨ v ∈ u :: rest → v ∈ t ∨ v ∈ rest := by
    intro v hv
    rcases hv with hv | hv
    · exact Or.inl hv
    · rcases List.mem_cons.1 hv with hv | hv
      · subst hv; exact Or.inl hu
      · exact Or.inr hv
  refine ⟨hq _ h.start_known, fun a ha v hv => hq _ (h.closed a ha v hv), h.reach_t,
    fun v hv => h.reach_q v (List.mem_cons_of_mem _ hv), ?_, ?_, ?_⟩
  · intro w hw a ha hlt
    refine hq _ (h.below w hw a ?_ hlt)
    rcases ha with ha | ha
    · exact Or.inl ha
    · exact Or.inr (List.mem_cons_of_mem _ ha)
  · intro p x hp hpt hx hxt
    exact h.spread p x (List.mem_cons_of_mem _ hp) hpt (List.mem_cons_of_mem _ hx) hxt
  · have := h.sorted
    simpa [firsts, hu] using this

/-- A node that is neither visited nor queued lies strictly deeper than the unvisited queue
head. -/
theorem BfsInv.deeper {nbrs : Int → List Int} {start : Int} {d : Int → Nat}
    {reach : Int → Prop} {t rest : List Int} {u : Int}
    (hd2 : ∀ v, reach v → v ≠ start → ∃ p, reach p ∧ v ∈ nbrs p ∧ d p + 1 = d v)
    (h : BfsInv nbrs start d reach t (u :: rest)) (hu : u ∉ t)
    (x : Int) (hx : reach x) (hxt : x ∉ t) (hxq : x ∉ u :: rest) : d u < d x := by
  by_contra hcon
  have hle : d x ≤ d u := by omega
  have hxs : x ≠ start := by
    intro e
    rcases h.start_known with h1 | h1
    · exact hxt (e ▸ h1)
    · exact hxq (e ▸ h1)
  obtain ⟨p, hp, hxp, hdp⟩ := hd2 x hx hxs
  have hmin : ∀ y ∈ rest, y ∉ t → d u ≤ d y := by
    intro y hy hyt
    have hs := h.sorted
    simp only [firsts, hu, if_false] at hs
    rw [List.pairwise_append] at hs
    have hc := hs.2.1
    rw [List.pairwise_cons] at hc
    by_cases hyu : y = u
    · rw [hyu]
    · exact hc.1 y ((mem_firsts y rest (u :: t)).2 ⟨hy, by simp [hyu, hyt]⟩)
  rcases h.below p hp u (Or.inr (List.mem_cons_self _ _)) (by omega) with hpt | hpq
  · rcases h.closed p hpt x hxp with h1 | h1
    · exact hxt h1
    · exact hxq h1
  · by_cases hpt : p ∈ t
    · rcases h.closed p hpt x hxp with h1 | h1
      · exact hxt h1
      · exact hxq h1
    · rcases List.mem_cons.1 hpq with e | hpr
      · rw [e] at hdp; omega
      · have := hmin p hpr hpt
        omega

theorem BfsInv.visit {nbrs : Int → List Int} {start : Int} {d : Int → Nat}
    {reach : Int → Prop} {t rest : List Int} {u : Int}
    (hd1 : ∀ a v, reach a → v ∈ nbrs a → reach v ∧ d v ≤ d a + 1)
    (hd2 : ∀ v, reach v → v ≠ start → ∃ p, reach p ∧ v ∈ nbrs p ∧ d p + 1 = d v)
    (h : BfsInv nbrs start d reach t (u :: rest)) (hu : u ∉ t) :
    BfsInv nbrs start d reach (t ++ [u])
      (rest ++ (nbrs u).filter fun v => decide (v ∉ t ++ [u])) := by
  have hur : reach u := h.reach_q u (List.mem_cons_self _ _)
  have hknown : ∀ v, v ∈ t ∨ v ∈ u :: rest → v ∈ t ++ [u] ∨
      v ∈ rest ++ (nbrs u).filter fun v => decide (v ∉ t ++ [u]) := by
    intro v hv
    rcases hv with hv | hv
    · exact Or.inl (List.mem_append_left _ hv)
    · rcases List.mem_cons.1 hv with hv | hv
      · subst hv; exact Or.inl (by simp)
      · exact Or.inr (List.mem_append_left _ hv)
  have hknown' : ∀ v, v ∈ t ++ [u] ∨
      v ∈ rest ++ (nbrs u).filter (fun v => decide (v ∉ t ++ [u])) →
      (v ∈ t ∨ v ∈ u :: rest) ∨ (v ∈ nbrs u ∧ v ∉ t ∧ v ∉ u :: rest) := by
    intro v hv
    by_cases hk : v ∈ t ∨ v ∈ u :: rest
    · exact Or.inl hk
    · right
      rw [not_or] at hk
      rcases hv with hv | hv
      · rcases List.mem_append.1 hv with h1 | h1
        · exact absurd h1 hk.1
        · simp at h1; subst h1; exact absurd (List.mem_cons_self _ _) hk.2
      · rcases List.mem_append.1 hv with h1 | h1
        · exact absurd (List.mem_cons_of_mem _ h1) hk.2
        · exact ⟨(List.mem_filter.1 h1).1, hk.1, hk.2⟩
  have hmin : ∀ y, y ∈ u :: rest → y ∉ t → d u ≤ d y := by
    intro y hy hyt
    have hs := h.sorted
    simp only [firsts, hu, if_false] at hs
    rw [List.pairwise_append] at hs
    have hc := hs.2.1
    rw [List.pairwise_cons] at hc
    by_cases hyu : y = u
    · rw [hyu]
    · rcases List.mem_cons.1 hy with e | hy
      · exact absurd e hyu
      · exact hc.1 y ((mem_firsts y rest (u :: t)).2 ⟨hy, by simp [hyu, hyt]⟩)
  have hnew : ∀ x, x ∈ nbrs u → x ∉ t → x ∉ u :: rest → d x = d u + 1 := by
    intro x hx hxt hxq
    have h1 := hd1 u x hur hx
    have h2 := BfsInv.deeper hd2 h hu x h1.1 hxt hxq
    omega
  refine ⟨hknown _ h.start_known, ?_, ?_, ?_, ?_, ?_, ?_⟩
  · intro a ha v hv
    rcases List.mem_append.1 ha with ha | ha
    · exact hknown _ (h.closed a ha v hv)
    · simp at ha; subst ha
      by_cases hvt : v ∈ t ++ [a]
      · exact Or.inl hvt
      · exact Or.inr (List.mem_append_right _ (List.mem_filter.2 ⟨hv, by simpa using hvt⟩))
  · intro v hv
    rcases List.mem_append.1 hv with hv | hv
    · exact h.reach_t v hv
    · simp at hv; subst hv; exact hur
  · intro v hv
    rcases List.mem_append.1 hv with hv | hv
    · exact h.reach_q v (List.mem_cons_of_mem _ hv)
    · exact (hd1 u v hur (List.mem_filter.1 hv).1).1
  · intro w hw a ha hlt
    by_cases hwk : w ∈ t ∨ w ∈ u :: rest
    · exact hknown _ hwk
    · rw [not_or] at hwk
      rcases hknown' a ha with hak | ⟨han, hat, haq⟩
      · exact absurd (h.below w hw a hak hlt) (by rw [not_or]; exact hwk)
      · have := hnew a han hat haq
        have := BfsInv.deeper hd2 h hu w hw hwk.1 hwk.2
        omega
  · intro p x hp hpt hx hxt
    have hp' := hknown' p (Or.inr hp)
    have hx' := hknown' x (Or.inr hx)
    have hpt' : p ∉ t := fun e => hpt (List.mem_append_left _ e)
    have hxt' : x ∉ t := fun e => hxt (List.mem_append_left _ e)
    have hpu : p ≠ u := fun e => hpt (by simp [e])
    have hxu : x ≠ u := fun e => hxt (by simp [e])
    rcases hp' with (hpk | hpk) | ⟨hpn, _, hpq⟩
    · exact absurd hpk hpt'
    · rcases hx' with (hxk | hxk) | ⟨hxn, _, hxq⟩
      · exact absurd hxk hxt'
      · exact h.spread p x hpk hpt' hxk hxt'
      · have := hnew x hxn hxt' hxq
        have := h.spread p u hpk hpt' (List.mem_cons_self _ _) hu
        omega
    · have h1 := hnew p hpn hpt' hpq
      rcases hx' with (hxk | hxk) | ⟨hxn, _, hxq⟩
      · exact absurd hxk hxt'
      · have := hmin x hxk hxt'
        omega
      · have := hnew x hxn hxt' hxq
        omega
  · have hs := h.sorted
    simp only [firsts, hu, if_false] at hs
    rw [firsts_append]
    have e1 : firsts (t ++ [u]) rest = firsts (u :: t) rest :=
      firsts_congr rest _ _ (fun x => by simp [or_comm])
    rw [e1]
    have e2 : t ++ [u] ++ (firsts (u :: t) rest ++
        firsts (rest ++ (t ++ [u])) ((nbrs u).filter fun v => decide (v ∉ t ++ [u]))) =
        (t ++ u :: firsts (u :: t) rest) ++
        firsts (rest ++ (t ++ [u])) ((nbrs u).filter fun v => decide (v ∉ t ++ [u])) := by
      simp
    rw [e2, List.pairwise_append]
    have hX : ∀ x ∈ firsts (rest ++ (t ++ [u]))
        ((nbrs u).filter fun v => decide (v ∉ t ++ [u])), d x = d u + 1 := by
      intro x hx
      rw [mem_firsts] at hx
      obtain ⟨hx1, hx2⟩ := hx
      have hx3 := (List.mem_filter.1 hx1).1
      simp only [List.mem_append, List.mem_singleton, not_or] at hx2
      exact hnew x hx3 hx2.2.1 (by simp [hx2.1, hx2.2.2])
    refine ⟨hs, ?_, ?_⟩
    · apply List.Pairwise.imp_of_mem (R := fun _ _ => True)
      · intro a b ha hb _
        rw [hX a ha, hX b hb]
      · exact List.pairwise_of_forall (fun _ _ => trivial)
    · intro a ha x hx
      rw [hX x hx]
      rcases List.mem_append.1 ha with ha | ha
      · have := (List.pairwise_append.1 hs).2.2 a ha u (List.mem_cons_self _ _)
        omega
      · rcases List.mem_cons.1 ha with e | ha
        · rw [e]; omega
        · rw [mem_firsts] at ha
          have hat : a ∉ t := fun e => ha.2 (List.mem_cons_of_mem _ e)
          have := h.spread a u (List.mem_cons_of_mem _ ha.1) hat (List.mem_cons_self _ _) hu
          omega

theorem hopDist_exists (s : State) (v : Int) (h : Reachable s v) : ∃ d, HopDist s v d := by
  classical
  have hex : ∃ n, ∃ c, Walk s s.startNode v n c := h
  refine ⟨Nat.find hex, Nat.find_spec hex, ?_⟩
  intro n c hw
  exact Nat.find_min' hex ⟨c, hw⟩

theorem hopDist_unique (s : State) (v : Int) (d1 d2 : Nat) (h1 : HopDist s v d1)
    (h2 : HopDist s v d2) : d1 = d2 := by
  obtain ⟨c1, w1⟩ := h1.1
  obtain ⟨c2, w2⟩ := h2.1
  have := h1.2 _ _ w2
  have := h2.2 _ _ w1
  omega

theorem hopDist_fun (s : State) :
    ∃ d : Int → Nat, ∀ v, Reachable s v → HopDist s v (d v) := by
  classical
  refine ⟨fun v => if h : Reachable s v then Classical.choose (hopDist_exists s v h) else 0, ?_⟩
  intro v hv
  simp only [hv, dif_pos]
  exact Classical.choose_spec (hopDist_exists s v hv)

theorem hopDist_edge (s : State) (d : Int → Nat) (hd : ∀ v, Reachable s v → HopDist s v (d v))
    (a v : Int) (ha : Reachable s a) (hv : v ∈ (neighbors s a).map Prod.fst) :
    Reachable s v ∧ d v ≤ d a + 1 := by
  obtain ⟨e, he, rfl⟩ := List.mem_map.1 hv
  obtain ⟨c, hw⟩ := (hd a ha).1
  have hw' : Walk s s.startNode e.1 (d a + 1) (c + e.2) := Walk.snoc hw he
  have hr : Reachable s e.1 := ⟨_, _, hw'⟩
  exact ⟨hr, (hd e.1 hr).2 _ _ hw'⟩

theorem hopDist_pred (s : State) (d : Int → Nat) (hd : ∀ v, Reachable s v → HopDist s v (d v))
    (v : Int) (hv : Reachable s v) (hne : v ≠ s.startNode) :
    ∃ p, Reachable s p ∧ v ∈ (neighbors s p).map Prod.fst ∧ d p + 1 = d v := by
  obtain ⟨c, hw⟩ := (hd v hv).1
  generalize hk : d v = k at hw
  cases hw with
  | nil => exact absurd rfl hne
  | snoc hw' he =>
    have hp : Reachable s _ := ⟨_, _, hw'⟩
    refine ⟨_, hp, List.mem_map.2 ⟨_, he, rfl⟩, ?_⟩
    have h1 := (hd _ hp).2 _ _ hw'
    have h2 := (hopDist_edge s d hd _ v hp (List.mem_map.2 ⟨_, he, rfl⟩)).2
    omega

theorem bfsPush_loop :
    ∀ (es : List (Int × Int)) (st : State), (∀ e ∈ es, ∃ j, idx e.1 = some j) →
      es.foldlM bfsPush st = some { st with
        bfsQueue := st.bfsQueue ++ (es.filter fun e => !visitedAt st e.1).map Prod.fst } := by
  intro es
  induction es with
  | nil => intro st _; simp
  | cons e es ih =>
    intro st h
    obtain ⟨j, hj⟩ := h e (List.mem_cons_self _ _)
    have h' : ∀ x ∈ es, ∃ j, idx x.1 = some j := fun x hx => h x (List.mem_cons_of_mem _ hx)
    rw [List.foldlM_cons]
    by_cases hv : st.visited j = true
    · have h1 : bfsPush st e = some st := by simp [bfsPush, hj, hv]
      have h2 : visitedAt st e.1 = true := by simp [visitedAt, hj, hv]
      rw [h1]
      simp only [Option.some_bind, Option.bind_eq_bind]
      rw [ih st h']
      simp [List.filter_cons, h2]
    · have h1 : bfsPush st e = some { st with bfsQueue := st.bfsQueue ++ [e.1] } := by
        simp [bfsPush, hj, hv]
      have h2 : visitedAt st e.1 = false := by simp [visitedAt, hj, hv]
      have hva : visitedAt { st with bfsQueue := st.bfsQueue ++ [e.1] } = visitedAt st := rfl
      rw [h1]
      simp only [Option.some_bind, Option.bind_eq_bind]
      rw [ih _ h', hva]
      simp [List.filter_cons, h2]

theorem bfsPush_loop_spec (es : List (Int × Int)) (st : State)
    (h : ∀ e ∈ es, ∃ j, idx e.1 = some j) :
    ∃ st', es.foldlM bfsPush st = some st' ∧ st'.adj = st.adj ∧ st'.visited = st.visited ∧
      st'.isRunning = st.isRunning ∧
      st'.bfsQueue = st.bfsQueue ++ (es.filter fun e => !visitedAt st e.1).map Prod.fst :=
  ⟨_, bfsPush_loop es st h, rfl, rfl, rfl, rfl⟩

theorem bfsStep_nil (s : State) (hq : s.bfsQueue = []) :
    ∃ s', bfsStep s = some s' ∧ s'.adj = s.adj ∧ s'.visited = s.visited ∧
      s'.bfsQueue = [] ∧ s'.isRunning = false :=
  ⟨{ s with isRunning := false, currentNode := -1 }, by simp [bfsStep, hq], rfl, rfl, hq, rfl⟩

theorem bfsStep_seen (s : State) (u : Int) (rest : List Int) (i : Fin N)
    (hq : s.bfsQueue = u :: rest) (hi : idx u = some i) (hv : s.visited i = true) :
    ∃ s', bfsStep s = some s' ∧ s'.adj = s.adj ∧ s'.visited = s.visited ∧
      s'.bfsQueue = rest ∧ s'.isRunning = s.isRunning :=
  ⟨{ s with currentNode := u, bfsQueue := rest }, by simp [bfsStep, hq, hi, hv],
    rfl, rfl, rfl, rfl⟩

theorem bfsStep_new (s : State) (u : Int) (rest : List Int) (i : Fin N)
    (hq : s.bfsQueue = u :: rest) (hi : idx u = some i) (hv : s.visited i = false)
    (hidx : ∀ e ∈ s.adj i, ∃ j, idx e.1 = some j) :
    ∃ s', bfsStep s = some s' ∧ s'.adj = s.adj ∧
      s'.visited = Function.update s.visited i true ∧
      s'.bfsQueue = rest ++ (((s.adj i).map Prod.fst).filter fun v => !visitedAt s' v) ∧
      s'.isRunning = s.isRunning := by
  obtain ⟨s', hs', ha, hvv, hrn, hst⟩ := bfsPush_loop_spec (s.adj i)
    { s with currentNode := u, bfsQueue := rest, visited := Function.update s.visited i true }
    hidx
  refine ⟨s', ?_, ha, hvv, ?_, hrn⟩
  · simp only [bfsStep, hq, hi, hv, Option.some_bind, Bool.false_eq_true, if_false]
    exact hs'
  · rw [hst, List.filter_map, visitedAt_congr _ _ hvv]
    rfl

theorem bfsStep_inv (s0 : State) (d : Int → Nat) (hg : GraphOK s0)
    (hd : ∀ v, Reachable s0 v → HopDist s0 v (d v)) (t : List Int)
    (s : State) (hI : BfsCInv s0 d t s) (hr : s.isRunning = true) :
    ∃ s', bfsStep s = some s' ∧ BfsCInv s0 d (t ++ newlyVisited s s') s' ∧
      bfsMeasure s' < bfsMeasure s := by
  obtain ⟨hadj, hstk, hvis, hrun, hinv⟩ := hI
  cases hq : s.bfsQueue with
  | nil =>
    obtain ⟨s', hs', ha, hvv, hst, hrn⟩ := bfsStep_nil s hq
    refine ⟨s', hs', ?_, ?_⟩
    · rw [newlyVisited_same s s' hvv, List.append_nil]
      refine ⟨ha.trans hadj, by simp [hst], ?_, fun _ => hst, ?_⟩
      · intro v; rw [hvis v, visitedAt_congr s s' hvv]
      · rw [hst, ← hq]; exact hinv
    · have := pendingWork_same s s' hvv ha
      simp [bfsMeasure, hr, hrn, this, hst, hq]
  | cons u rest =>
    have hu := hstk u (by simp [hq])
    obtain ⟨i, hi⟩ := idx_of_range (v := u) (by omega) (by have := hg.2.1; omega)
    have hrest : ∀ v ∈ rest, 1 ≤ v ∧ v ≤ s0.numNodes := fun v hv => hstk v (by simp [hq, hv])
    rw [hq] at hinv
    by_cases hv : s.visited i = true
    · obtain ⟨s', hs', ha, hvv, hst, hrn⟩ := bfsStep_seen s u rest i hq hi hv
      refine ⟨s', hs', ?_, ?_⟩
      · rw [newlyVisited_same s s' hvv, List.append_nil]
        refine ⟨ha.trans hadj, by rw [hst]; exact hrest, ?_,
          fun h => by rw [hrn, hr] at h; simp at h, ?_⟩
        · intro v; rw [hvis v, visitedAt_congr s s' hvv]
        · have hut : u ∈ t := (hvis u).2 (by rw [visitedAt_idx s u i hi, hv])
          rw [hst]
          exact hinv.drop_seen hut
      · have := pendingWork_same s s' hvv ha
        simp [bfsMeasure, hr, hrn, this, hst, hq]
    · have hv' : s.visited i = false := by simpa using hv
      have hut : u ∉ t := fun h => by
        have := (hvis u).1 h
        rw [visitedAt_idx s u i hi, hv'] at this
        simp at this
      have hnb : neighbors s0 u = s.adj i := by rw [neighbors_idx s0 u i hi, hadj]
      have hrange : ∀ e ∈ s.adj i, 1 ≤ e.1 ∧ e.1 ≤ s0.numNodes := fun e he => by
        rw [hadj] at he; exact hg.2.2 i e he
      have hidx : ∀ e ∈ s.adj i, ∃ j, idx e.1 = some j := fun e he => by
        have := hrange e he
        exact idx_of_range (by omega) (by have := hg.2.1; omega)
      obtain ⟨s', hs', ha, hvv, hst, hrn⟩ := bfsStep_new s u rest i hq hi hv' hidx
      have hvis2 : ∀ v, visitedAt s' v = (decide (v = u) || visitedAt s v) :=
        visitedAt_update s s' u i hi hvv
      have hmem : ∀ v, v ∈ t ++ [u] ↔ visitedAt s' v = true := by
        intro v
        rw [hvis2 v, List.mem_append, hvis v]
        simp [or_comm]
      have hfilt : (((s.adj i).map Prod.fst).filter fun v => !visitedAt s' v)
          = ((s.adj i).map Prod.fst).filter fun v => decide (v ∉ t ++ [u]) := by
        apply List.filter_congr
        intro v _
        have := hmem v
        by_cases hx : visitedAt s' v = true
        · simp [hx, this.2 hx]
        · have hx' : v ∉ t ++ [u] := fun h => hx (this.1 h)
          simp [hx, hx']
      refine ⟨s', hs', ?_, ?_⟩
      · rw [newlyVisited_update s s' i hv' hvv, ← idx_eq_some.1 hi]
        refine ⟨ha.trans hadj, ?_, hmem, fun h => by rw [hrn, hr] at h; simp at h, ?_⟩
        · intro v hv
          rw [hst] at hv
          simp only [List.mem_append, List.mem_filter, List.mem_map] at hv
          rcases hv with hv | ⟨⟨e, he, rfl⟩, _⟩
          · exact hrest v hv
          · exact hrange e he
        · rw [hst, hfilt, ← hnb]
          exact hinv.visit (hopDist_edge s0 d hd) (hopDist_pred s0 d hd) hut
      · have hp := pendingWork_update s s' i hv' hvv ha
        have hlen : (((s.adj i).map Prod.fst).filter fun v => !visitedAt s' v).length
            ≤ (s.adj i).length :=
          (List.length_filter_le _ _).trans (by simp)
        simp only [bfsMeasure, hr, hrn, hq, hst, List.length_append, List.length_cons, if_true]
        omega

/-- C3 (BFS layer order): on a graph whose neighbour ids are in range and for a start node
in `[1, numNodes]`, the run `startBFS()` then `bfsStep()` until `isRunning` is false ends
within `2 + adjTotal s` steps; every newly marked node has a graph distance from the start
node, and in the sequence of newly marked nodes a node never has a larger distance than a
node marked after it. -/
theorem bfs_layer_order (s : State) (hg : GraphOK s)
    (hs : 1 ≤ s.startNode ∧ s.startNode ≤ s.numNodes) (n : Nat) (hn : 2 + adjTotal s ≤ n) :
    ∃ tr sf, runTrace bfsStep n (startBFS s) = some (tr, sf) ∧ sf.isRunning = false ∧
      (∀ x ∈ tr, ∃ dx, HopDist s x dx) ∧
      tr.Pairwise fun x y => ∀ dx dy, HopDist s x dx → HopDist s y dy → dx ≤ dy := by
  obtain ⟨d, hd⟩ := hopDist_fun s
  have hstart : Reachable s s.startNode := ⟨0, 0, Walk.nil _⟩
  have hd0 : d s.startNode = 0 := by
    have := (hd _ hstart).2 0 0 (Walk.nil _)
    omega
  have h0 : BfsCInv s d [] (startBFS s) := by
    refine ⟨rfl, ?_, ?_, ?_, ?_⟩
    · intro v hv
      simp [startBFS, reset] at hv
      subst hv; exact hs
    · intro v
      simp [visitedAt, startBFS, reset]
      split <;> simp
    · simp [startBFS]
    · have hq : (startBFS s).bfsQueue = [s.startNode] := by simp [startBFS, reset]
      rw [hq]
      refine ⟨Or.inr (by simp), by simp, by simp, ?_, ?_, ?_, ?_⟩
      · intro v hv; simp at hv; subst hv; exact hstart
      · intro w _ a ha hlt
        simp at ha; subst ha; omega
      · intro p x hp _ hx _
        simp at hp hx; subst hp; subst hx; omega
      · simp [firsts]
  have hμ : bfsMeasure (startBFS s) ≤ n := by
    have := pendingWork_le (startBFS s)
    have h2 : adjTotal (startBFS s) = adjTotal s := rfl
    simp only [bfsMeasure] at *
    simp [startBFS, reset] at *
    omega
  obtain ⟨tr, sf, hrun, hf, hP⟩ := runTrace_of_inv bfsStep (BfsCInv s d) bfsMeasure
    (fun t st hI hr => bfsStep_inv s d hg hd t st hI hr)
    n [] (startBFS s) h0 hμ
  refine ⟨tr, sf, hrun, hf, ?_, ?_⟩
  · intro x hx
    exact ⟨d x, hd x (hP.2.2.2.2.reach_t x (by simpa using hx))⟩
  · obtain ⟨_, _, _, hstk, hinv⟩ := hP
    have hsort := hinv.sorted
    rw [hstk hf] at hsort
    simp only [firsts, List.nil_append, List.append_nil] at hsort
    have hreach := hinv.reach_t
    simp only [List.nil_append] at hreach
    refine List.Pairwise.imp_of_mem ?_ hsort
    intro x y hx hy hxy dx dy hdx hdy
    rw [hopDist_unique s x dx (d x) hdx (hd x (hreach x hx)),
      hopDist_unique s y dy (d y) hdy (hd y (hreach y hy))]
    exact hxy

/-- C3, witness (scenario A): nodes 1..3, edges (1,2,1), (2,3,1), start 1 visits 1, 2, 3. -/
theorem bfs_layer_order_witness :
    (∃ tr sf, runTrace bfsStep 6 (startBFS scenarioA) = some (tr, sf) ∧
      sf.isRunning = false ∧
      (∀ x ∈ tr, ∃ dx, HopDist scenarioA x dx) ∧
      tr.Pairwise fun x y =>
        ∀ dx dy, HopDist scenarioA x dx → HopDist scenarioA y dy → dx ≤ dy) ∧
    (runTrace bfsStep 6 (startBFS scenarioA)).map Prod.fst = some [1, 2, 3] :=
  ⟨bfs_layer_order scenarioA (by decide) (by decide) 6 (by decide), by decide⟩

/-! ### Dijkstra: invariant, relaxation loop, path reconstruction (C1, C2) -/

theorem DijInv.init {nbrs : Int → List (Int × Int)} {start : Int} {Bd : List Int → Int}
    {real : Int → Int → Prop} (H : DijHyp nbrs start Bd real) :
    DijInv nbrs start Bd real doneAll [] (Function.update (fun _ => INF) start 0)
      (fun _ => -1) [(0, start)] := by
  have hD : ∀ v, Function.update (fun _ => INF) start (0 : Int) v ≠ INF → v = start := by
    intro v hv
    by_contra hne
    exact hv (by simp [Function.update_noteq hne])
  refine ⟨by simp, rfl, ?_, ?_, ?_, ?_, by simp, by simp, by simp, by simp, ?_, ?_, by simp⟩
  · intro v hv
    rw [hD v hv]
    simp [H.bd_nonneg]
  · intro v hv
    rw [hD v hv]
    simpa using H.real_start
  · intro v _ hv
    rw [hD v hv]
    simp
  · intro e he
    simp at he
    subst he
    simp [INF]
  · intro v hv hne
    exact absurd (hD v hv) hne
  · intro t1 v t2 h
    simp at h

theorem DijInv.pop_seen {nbrs : Int → List (Int × Int)} {start : Int} {Bd : List Int → Int}
    {real : Int → Int → Prop} {t : List Int} {D par : Int → Int} {pq : List (Int × Int)}
    (h : DijInv nbrs start Bd real doneAll t D par pq) (top : Int × Int)
    (ht : top.2 ∈ t) :
    DijInv nbrs start Bd real doneAll t D par (pq.erase top) := by
  refine ⟨h.start_dist, h.start_par, h.bound, h.realized, ?_, ?_, h.relaxed, ?_,
    h.settled_le, h.vis_fin, h.par_ok, h.par_order, h.nodup⟩
  · intro v hv hD
    have := h.queued v hv hD
    refine (List.mem_erase_of_ne ?_).2 this
    intro e
    rw [← e] at ht
    exact hv ht
  · intro e he
    exact h.pq_ok e (List.mem_of_mem_erase he)
  · intro u hu e he
    exact h.settled_pq u hu e (List.mem_of_mem_erase he)

theorem DijInv.pop {nbrs : Int → List (Int × Int)} {start : Int} {Bd : List Int → Int}
    {real : Int → Int → Prop} {t : List Int} {D par : Int → Int} {pq : List (Int × Int)}
    (H : DijHyp nbrs start Bd real)
    (h : DijInv nbrs start Bd real doneAll t D par pq) (top : Int × Int)
    (htop : pqTop pq = some top) (ht : top.2 ∉ t) :
    DijInv nbrs start Bd real (doneUpTo top.2 []) (t ++ [top.2]) D par (pq.erase top) ∧
      DijLoop nbrs Bd (t ++ [top.2]) top.2 D := by
  obtain ⟨hmem, hmin⟩ := pqTop_spec pq top htop
  have htopok := h.pq_ok top hmem
  have hlast : ∀ a ∈ t ++ [top.2], D a ≤ D top.2 := by
    intro a ha
    rcases List.mem_append.1 ha with ha | ha
    · exact h.settled_le a ha top.2 ht
    · simp at ha; rw [ha]
  have hbd := h.bound top.2 htopok.2
  refine ⟨⟨h.start_dist, h.start_par, ?_, h.realized, ?_, ?_, ?_, ?_, ?_, ?_, ?_, ?_, ?_⟩,
    ⟨by simp, ?_, hlast⟩⟩
  · intro v hv
    have := h.bound v hv
    exact ⟨this.1, this.2.trans (H.bd_mono t top.2)⟩
  · intro v hv hD
    have hvt : v ∉ t := fun e => hv (List.mem_append_left _ e)
    have hvu : v ≠ top.2 := fun e => hv (by simp [e])
    refine (List.mem_erase_of_ne ?_).2 (h.queued v hvt hD)
    intro e
    exact hvu (by rw [← e])
  · intro e he
    exact h.pq_ok e (List.mem_of_mem_erase he)
  · intro u hu e he hdone
    rcases hdone with hne | hin
    · have hut : u ∈ t := by
        rcases List.mem_append.1 hu with h1 | h1
        · exact h1
        · simp at h1; exact absurd h1 hne
      exact h.relaxed u hut e he trivial
    · simp at hin
  · intro u hu e he
    have he' := List.mem_of_mem_erase he
    rcases List.mem_append.1 hu with h1 | h1
    · exact h.settled_pq u h1 e he'
    · simp at h1; subst h1
      have := pairLe_fst _ _ (hmin e he')
      omega
  · intro u hu x hx
    have hxt : x ∉ t := fun e => hx (List.mem_append_left _ e)
    rcases List.mem_append.1 hu with h1 | h1
    · exact h.settled_le u h1 x hxt
    · simp at h1; subst h1
      by_cases hDx : D x = INF
      · rw [hDx]
        have := H.bd_lt t
        omega
      · have := pairLe_fst _ _ (hmin _ (h.queued x hxt hDx))
        simp at this
        omega
  · intro u hu
    rcases List.mem_append.1 hu with h1 | h1
    · exact h.vis_fin u h1
    · simp at h1; subst h1; exact htopok.2
  · intro v hv hne
    obtain ⟨h1, h2⟩ := h.par_ok v hv hne
    exact ⟨List.mem_append_left _ h1, h2⟩
  · intro t1 v t2 heq hne
    rcases append_singleton_split t t1 t2 top.2 v heq with ⟨_, hv, ht1⟩ | ⟨t2', _, ht'⟩
    · rw [ht1, hv]
      rw [hv] at hne
      exact (h.par_ok top.2 htopok.2 hne).1
    · exact h.par_order t1 v t2' ht' hne
  · rw [List.nodup_append]
    refine ⟨h.nodup, by simp, ?_⟩
    intro a ha hb
    simp at hb
    exact ht (hb ▸ ha)
  · intro e he het
    have := H.bd_step t top.2 e he ht het
    omega

theorem DijInv.skip {nbrs : Int → List (Int × Int)} {start : Int} {Bd : List Int → Int}
    {real : Int → Int → Prop} {t : List Int} {D par : Int → Int} {pq : List (Int × Int)}
    {u : Int} {pre : List (Int × Int)}
    (H : DijHyp nbrs start Bd real)
    (h : DijInv nbrs start Bd real (doneUpTo u pre) t D par pq)
    (hl : DijLoop nbrs Bd t u D) (e : Int × Int) (he : e ∈ nbrs u)
    (hc : e.1 ∈ t ∨ ¬ (D u + e.2 < D e.1)) :
    DijInv nbrs start Bd real (doneUpTo u (pre ++ [e])) t D par pq := by
  refine ⟨h.start_dist, h.start_par, h.bound, h.realized, h.queued, h.pq_ok, ?_,
    h.settled_pq, h.settled_le, h.vis_fin, h.par_ok, h.par_order, h.nodup⟩
  intro a ha e' he' hdone
  rcases hdone with hne | hin
  · exact h.relaxed a ha e' he' (Or.inl hne)
  · rcases List.mem_append.1 hin with hin | hin
    · exact h.relaxed a ha e' he' (Or.inr hin)
    · simp at hin
      subst hin
      by_cases hau : a = u
      · subst hau
        have hw := H.w_nonneg a e' he
        rcases hc with hc | hc
        · have := hl.u_last e'.1 hc
          exact ⟨by omega, h.vis_fin _ hc⟩
        · by_cases het : e'.1 ∈ t
          · have := hl.u_last e'.1 het
            exact ⟨by omega, h.vis_fin _ het⟩
          · have h1 := hl.u_bound e' he het
            have h2 := H.bd_lt t
            exact ⟨by omega, by omega⟩
      · exact h.relaxed a ha e' he' (Or.inl hau)

theorem DijInv.update {nbrs : Int → List (Int × Int)} {start : Int} {Bd : List Int → Int}
    {real : Int → Int → Prop} {t : List Int} {D par : Int → Int} {pq : List (Int × Int)}
    {u : Int} {pre : List (Int × Int)}
    (H : DijHyp nbrs start Bd real)
    (h : DijInv nbrs start Bd real (doneUpTo u pre) t D par pq)
    (hl : DijLoop nbrs Bd t u D) (e : Int × Int) (he : e ∈ nbrs u)
    (het : e.1 ∉ t) (hlt : D u + e.2 < D e.1) :
    DijInv nbrs start Bd real (doneUpTo u (pre ++ [e])) t
        (Function.update D e.1 (D u + e.2)) (Function.update par e.1 u)
        ((D u + e.2, e.1) :: pq) ∧
      DijLoop nbrs Bd t u (Function.update D e.1 (D u + e.2)) := by
  have hut := hl.u_mem
  have hvu : u ≠ e.1 := fun e' => het (by rw [← e']; exact hut)
  have hDu := h.vis_fin u hut
  have hDu0 := (h.bound u hDu).1
  have hw := H.w_nonneg u e he
  have hnd := hl.u_bound e he het
  have hlt' := H.bd_lt t
  have hvs : e.1 ≠ start := by
    intro e'
    rw [e', h.start_dist] at hlt
    omega
  have hDt : ∀ x ∈ t, Function.update D e.1 (D u + e.2) x = D x := by
    intro x hx
    exact Function.update_noteq (fun e' => het (by rw [← e']; exact hx)) _ _
  have hDv : Function.update D e.1 (D u + e.2) e.1 = D u + e.2 := Function.update_same _ _ _
  have hDne : ∀ x, x ≠ e.1 → Function.update D e.1 (D u + e.2) x = D x :=
    fun x hx => Function.update_noteq hx _ _
  have hPne : ∀ x, x ≠ e.1 → Function.update par e.1 u x = par x :=
    fun x hx => Function.update_noteq hx _ _
  have hle : ∀ x, Function.update D e.1 (D u + e.2) x ≤ D x := by
    intro x
    by_cases hx : x = e.1
    · rw [hx, hDv]; omega
    · rw [hDne x hx]
  have hfin : ∀ x, D x ≠ INF → Function.update D e.1 (D u + e.2) x ≠ INF := by
    intro x hx
    by_cases hxe : x = e.1
    · rw [hxe, hDv]; omega
    · rw [hDne x hxe]; exact hx
  refine ⟨⟨?_, ?_, ?_, ?_, ?_, ?_, ?_, ?_, ?_, ?_, ?_, ?_, h.nodup⟩, ⟨hut, ?_, ?_⟩⟩
  · rw [hDne _ hvs.symm]; exact h.start_dist
  · rw [hPne _ hvs.symm]; exact h.start_par
  · intro x hx
    by_cases hxe : x = e.1
    · rw [hxe, hDv]; omega
    · rw [hDne x hxe] at hx ⊢; exact h.bound x hx
  · intro x hx
    by_cases hxe : x = e.1
    · rw [hxe, hDv]
      exact H.real_edge u (D u) e he (h.realized u hDu)
    · rw [hDne x hxe] at hx ⊢; exact h.realized x hx
  · intro x hxt hx
    by_cases hxe : x = e.1
    · rw [hxe, hDv]; exact List.mem_cons_self _ _
    · rw [hDne x hxe] at hx ⊢
      exact List.mem_cons_of_mem _ (h.queued x hxt hx)
  · intro e' he'
    rcases List.mem_cons.1 he' with h1 | h1
    · rw [h1]
      simp only [hDv]
      exact ⟨le_refl _, by omega⟩
    · have := h.pq_ok e' h1
      exact ⟨(hle e'.2).trans this.1, hfin _ this.2⟩
  · intro a ha e' he' hdone
    rw [hDt a ha]
    have key : D e'.1 ≤ D a + e'.2 ∧ D e'.1 ≠ INF →
        Function.update D e.1 (D u + e.2) e'.1 ≤ D a + e'.2 ∧
        Function.update D e.1 (D u + e.2) e'.1 ≠ INF :=
      fun hh => ⟨(hle _).trans hh.1, hfin _ hh.2⟩
    rcases hdone with hne | hin
    · exact key (h.relaxed a ha e' he' (Or.inl hne))
    · rcases List.mem_append.1 hin with hin | hin
      · exact key (h.relaxed a ha e' he' (Or.inr hin))
      · simp at hin
        subst hin
        by_cases hau : a = u
        · subst hau
          rw [hDv]
          exact ⟨le_refl _, by omega⟩
        · exact key (h.relaxed a ha e' he' (Or.inl hau))
  · intro a ha e' he'
    rw [hDt a ha]
    rcases List.mem_cons.1 he' with h1 | h1
    · rw [h1]
      have := hl.u_last a ha
      simp only
      omega
    · exact h.settled_pq a ha e' h1
  · intro a ha x hx
    rw [hDt a ha]
    by_cases hxe : x = e.1
    · rw [hxe, hDv]
      have := hl.u_last a ha
      omega
    · rw [hDne x hxe]; exact h.settled_le a ha x hx
  · intro a ha
    rw [hDt a ha]; exact h.vis_fin a ha
  · intro x hx hxs
    by_cases hxe : x = e.1
    · rw [hxe, hDv]
      have hpv : Function.update par e.1 u e.1 = u := Function.update_same _ _ _
      rw [hpv]
      refine ⟨hut, e.2, he, ?_⟩
      rw [hDne u hvu]
    · rw [hDne x hxe] at hx ⊢
      rw [hPne x hxe]
      obtain ⟨h1, w, h2, h3⟩ := h.par_ok x hx hxs
      refine ⟨h1, w, h2, ?_⟩
      rw [hDt _ h1]; exact h3
  · intro t1 x t2 heq hxs
    have hxt : x ∈ t := by rw [heq]; simp
    rw [hPne x (fun e' => het (by rw [← e']; exact hxt))]
    exact h.par_order t1 x t2 heq hxs
  · intro e' he' het'
    rw [hDt u hut]
    exact hl.u_bound e' he' het'
  · intro a ha
    rw [hDt a ha, hDt u hut]
    exact hl.u_last a ha

theorem DijInv.close {nbrs : Int → List (Int × Int)} {start : Int} {Bd : List Int → Int}
    {real : Int → Int → Prop} {t : List Int} {D par : Int → Int} {pq : List (Int × Int)}
    {u : Int}
    (h : DijInv nbrs start Bd real (doneUpTo u (nbrs u)) t D par pq) :
    DijInv nbrs start Bd real doneAll t D par pq := by
  refine ⟨h.start_dist, h.start_par, h.bound, h.realized, h.queued, h.pq_ok, ?_,
    h.settled_pq, h.settled_le, h.vis_fin, h.par_ok, h.par_order, h.nodup⟩
  intro a ha e he _
  by_cases hau : a = u
  · exact h.relaxed a ha e he (Or.inr (hau ▸ he))
  · exact h.relaxed a ha e he (Or.inl hau)

/-- When the queue is empty every node with a finite distance is visited. -/
theorem DijInv.finite_visited {nbrs : Int → List (Int × Int)} {start : Int}
    {Bd : List Int → Int} {real : Int → Int → Prop} {t : List Int} {D par : Int → Int}
    (h : DijInv nbrs start Bd real doneAll t D par []) (v : Int) (hv : D v ≠ INF) : v ∈ t := by
  by_contra hvt
  have := h.queued v hvt hv
  simp at this


theorem foldlM_inv_mem {α β : Type} (f : β → α → Option β) (P : β → Prop) (l : List α)
    (hf : ∀ b a b', a ∈ l → f b a = some b' → P b → P b') :
    ∀ (b b' : β), l.foldlM f b = some b' → P b → P b' := by
  induction l with
  | nil => intro b b' h hb; simp [List.foldlM] at h; subst h; exact hb
  | cons a l ih =>
    intro b b' h hb
    rw [List.foldlM_cons] at h
    cases hfa : f b a with
    | none => simp [hfa] at h
    | some b1 =>
      simp [hfa] at h
      exact ih (fun b a' b' ha' => hf b a' b' (List.mem_cons_of_mem _ ha')) b1 b' h
        (hf b a b1 (List.mem_cons_self _ _) hfa hb)

theorem addEdge_mem (n : Int) (adj adj' : Fin N → List (Int × Int)) (e : Int × Int × Int)
    (h : addEdge n adj e = some adj') (k : Fin N) (p : Int × Int) (hp : p ∈ adj' k) :
    p ∈ adj k ∨ ((1 ≤ e.1 ∧ e.1 ≤ n ∧ 1 ≤ e.2.1 ∧ e.2.1 ≤ n) ∧ e.2.2 = p.2 ∧
      ((e.1 = ((k : Nat) : Int) ∧ e.2.1 = p.1) ∨ (e.2.1 = ((k : Nat) : Int) ∧ e.1 = p.1))) := by
  unfold addEdge at h
  split at h
  · rename_i hr
    simp only [Option.bind_eq_some] at h
    obtain ⟨i, hi, j, hj, hadj⟩ := h
    simp only [Option.some.injEq] at hadj
    subst hadj
    rw [idx_eq_some] at hi hj
    by_cases hkj : k = j
    · subst hkj
      simp only [Function.update_same, List.mem_append, List.mem_singleton] at hp
      rcases hp with hp | hp
      · by_cases hki : k = i
        · subst hki
          simp only [Function.update_same, List.mem_append, List.mem_singleton] at hp
          rcases hp with hp | hp
          · exact Or.inl hp
          · right
            subst hp
            exact ⟨hr, rfl, Or.inl ⟨hi, rfl⟩⟩
        · rw [Function.update_noteq hki] at hp
          exact Or.inl hp
      · right
        subst hp
        exact ⟨hr, rfl, Or.inr ⟨hj, rfl⟩⟩
    · rw [Function.update_noteq hkj] at hp
      by_cases hki : k = i
      · subst hki
        simp only [Function.update_same, List.mem_append, List.mem_singleton] at hp
        rcases hp with hp | hp
        · exact Or.inl hp
        · right
          subst hp
          exact ⟨hr, rfl, Or.inl ⟨hi, rfl⟩⟩
      · rw [Function.update_noteq hki] at hp
        exact Or.inl hp
  · simp at h
    subst h
    exact Or.inl hp

theorem readEdges_mem (n : Int) (edges : List (Int × Int × Int))
    (adj : Fin N → List (Int × Int)) (h : readEdges n edges = some adj) :
    ∀ (k : Fin N) (p : Int × Int), p ∈ adj k →
      ∃ e ∈ edges, (1 ≤ e.1 ∧ e.1 ≤ n ∧ 1 ≤ e.2.1 ∧ e.2.1 ≤ n) ∧ e.2.2 = p.2 ∧
        ((e.1 = ((k : Nat) : Int) ∧ e.2.1 = p.1) ∨ (e.2.1 = ((k : Nat) : Int) ∧ e.1 = p.1)) := by
  refine foldlM_inv_mem (addEdge n)
    (fun a => ∀ (k : Fin N) (p : Int × Int), p ∈ a k →
      ∃ e ∈ edges, (1 ≤ e.1 ∧ e.1 ≤ n ∧ 1 ≤ e.2.1 ∧ e.2.1 ≤ n) ∧ e.2.2 = p.2 ∧
        ((e.1 = ((k : Nat) : Int) ∧ e.2.1 = p.1) ∨ (e.2.1 = ((k : Nat) : Int) ∧ e.1 = p.1)))
    edges ?_ _ adj h ?_
  · intro b a b' ha hb hP k p hp
    rcases addEdge_mem n b b' a hb k p hp with h1 | h1
    · exact hP k p h1
    · exact ⟨a, ha, h1⟩
  · intro k p hp
    simp at hp

theorem readEdges_graphOK (s : State) (edges : List (Int × Int × Int))
    (hn : 1 ≤ s.numNodes ∧ s.numNodes ≤ 20) (h : readEdges s.numNodes edges = some s.adj) :
    GraphOK s := by
  refine ⟨hn.1, hn.2, ?_⟩
  intro i p hp
  obtain ⟨e, _, hr, _, hc⟩ := readEdges_mem _ edges _ h i p hp
  rcases hc with ⟨_, h2⟩ | ⟨_, h2⟩
  · rw [← h2]; exact ⟨hr.2.2.1, hr.2.2.2⟩
  · rw [← h2]; exact ⟨hr.1, hr.2.1⟩

theorem sum_map_step {α : Type} (f g : α → Int) (w : Int) :
    ∀ (l : List α), (∀ x ∈ l, f x ≤ g x) → ∀ e ∈ l, f e + w ≤ g e →
      (l.map f).sum + w ≤ (l.map g).sum := by
  intro l
  induction l with
  | nil => intro _ e he; simp at he
  | cons a l ih =>
    intro hle e he hw
    simp only [List.map_cons, List.sum_cons]
    have ha := hle a (List.mem_cons_self _ _)
    have hl : ∀ x ∈ l, f x ≤ g x := fun x hx => hle x (List.mem_cons_of_mem _ hx)
    rcases List.mem_cons.1 he with h1 | h1
    · subst h1
      have := List.sum_le_sum hl
      omega
    · have := ih hl e h1 hw
      omega

theorem dijHyp_of_edges (s : State) (edges : List (Int × Int × Int))
    (hadj : readEdges s.numNodes edges = some s.adj)
    (hw : ∀ e ∈ edges, 0 ≤ e.2.2) (htot : (edges.map fun e => e.2.2).sum < INF) :
    DijHyp (neighbors s) s.startNode (touchW s.numNodes edges)
      (fun v c => ∃ k, Walk s s.startNode v k c) := by
  have hterm : ∀ (t : List Int), ∀ e ∈ edges, 0 ≤
      (if (1 ≤ e.1 ∧ e.1 ≤ s.numNodes ∧ 1 ≤ e.2.1 ∧ e.2.1 ≤ s.numNodes) ∧
        (e.1 ∈ t ∨ e.2.1 ∈ t) then e.2.2 else 0) := by
    intro t e he
    split
    · exact hw e he
    · exact le_refl _
  have hmono : ∀ (t : List Int) (u : Int), ∀ e ∈ edges,
      (if (1 ≤ e.1 ∧ e.1 ≤ s.numNodes ∧ 1 ≤ e.2.1 ∧ e.2.1 ≤ s.numNodes) ∧
        (e.1 ∈ t ∨ e.2.1 ∈ t) then e.2.2 else 0) ≤
      (if (1 ≤ e.1 ∧ e.1 ≤ s.numNodes ∧ 1 ≤ e.2.1 ∧ e.2.1 ≤ s.numNodes) ∧
        (e.1 ∈ t ++ [u] ∨ e.2.1 ∈ t ++ [u]) then e.2.2 else 0) := by
    intro t u e he
    have := hw e he
    by_cases h1 : (1 ≤ e.1 ∧ e.1 ≤ s.numNodes ∧ 1 ≤ e.2.1 ∧ e.2.1 ≤ s.numNodes) ∧
        (e.1 ∈ t ∨ e.2.1 ∈ t)
    · have h2 : (1 ≤ e.1 ∧ e.1 ≤ s.numNodes ∧ 1 ≤ e.2.1 ∧ e.2.1 ≤ s.numNodes) ∧
          (e.1 ∈ t ++ [u] ∨ e.2.1 ∈ t ++ [u]) :=
        ⟨h1.1, h1.2.imp (List.mem_append_left _) (List.mem_append_left _)⟩
      rw [if_pos h1, if_pos h2]
    · rw [if_neg h1]
      split
      · exact this
      · exact le_refl _
  refine ⟨?_, ?_, ?_, ?_, ?_, ⟨0, Walk.nil _⟩, ?_⟩
  · intro u e he
    unfold neighbors at he
    split at he
    · obtain ⟨e', he', _, h2, _⟩ := readEdges_mem _ edges _ hadj _ e he
      rw [← h2]; exact hw e' he'
    · simp at he
  · intro t
    exact List.sum_nonneg (by
      intro x hx
      obtain ⟨e, he, rfl⟩ := List.mem_map.1 hx
      exact hterm t e he)
  · intro t
    refine lt_of_le_of_lt ?_ htot
    apply List.sum_le_sum
    intro e he
    split
    · exact le_refl _
    · exact hw e he
  · intro t u
    exact List.sum_le_sum (hmono t u)
  · intro t u e he hut het
    unfold neighbors at he
    split at he
    · rename_i i hi
      obtain ⟨e', he', hr, h2, hc⟩ := readEdges_mem _ edges _ hadj _ e he
      rw [idx_eq_some] at hi
      have hends : (e'.1 = u ∧ e'.2.1 = e.1) ∨ (e'.2.1 = u ∧ e'.1 = e.1) := by
        rcases hc with ⟨h3, h4⟩ | ⟨h3, h4⟩
        · exact Or.inl ⟨by rw [h3, hi], h4⟩
        · exact Or.inr ⟨by rw [h3, hi], h4⟩
      have het' : e.1 ∉ t := fun h => het (List.mem_append_left _ h)
      refine sum_map_step _ _ e.2 edges (hmono t u) e' he' ?_
      have h1 : ¬ ((1 ≤ e'.1 ∧ e'.1 ≤ s.numNodes ∧ 1 ≤ e'.2.1 ∧ e'.2.1 ≤ s.numNodes) ∧
          (e'.1 ∈ t ∨ e'.2.1 ∈ t)) := by
        rintro ⟨_, h | h⟩
        · rcases hends with ⟨h3, _⟩ | ⟨_, h4⟩
          · exact hut (h3 ▸ h)
          · exact het' (h4 ▸ h)
        · rcases hends with ⟨_, h4⟩ | ⟨h3, _⟩
          · exact het' (h4 ▸ h)
          · exact hut (h3 ▸ h)
      have h2' : (1 ≤ e'.1 ∧ e'.1 ≤ s.numNodes ∧ 1 ≤ e'.2.1 ∧ e'.2.1 ≤ s.numNodes) ∧
          (e'.1 ∈ t ++ [u] ∨ e'.2.1 ∈ t ++ [u]) := by
        refine ⟨hr, ?_⟩
        rcases hends with ⟨h3, _⟩ | ⟨h3, _⟩
        · exact Or.inl (by simp [h3])
        · exact Or.inr (by simp [h3])
      rw [if_neg h1, if_pos h2', h2]
      omega
    · simp at he
  · rintro u c e he ⟨k, hk⟩
    exact ⟨k + 1, Walk.snoc hk he⟩

theorem arrAt_idx {α : Type} (a : Fin N → α) (dflt : α) (v : Int) (i : Fin N)
    (h : idx v = some i) : arrAt a dflt v = a i := by
  simp [arrAt, h]

theorem arrAt_update {α : Type} (a : Fin N → α) (dflt : α) (v : Int) (j : Fin N) (x : α)
    (h : idx v = some j) :
    arrAt (Function.update a j x) dflt = Function.update (arrAt a dflt) v x := by
  funext y
  by_cases hy : y = v
  · subst hy
    simp [arrAt, h]
  · rw [Function.update_noteq hy]
    unfold arrAt
    cases hk : idx y with
    | none => rfl
    | some k =>
      have hkj : k ≠ j := by
        intro e
        rw [idx_eq_some] at hk h
        exact hy (by rw [hk, h, e])
      simp [Function.update_noteq hkj]

theorem foldlM_steps {α β : Type} (f : β → α → Option β) (P : List α → β → Prop)
    (l : List α)
    (hstep : ∀ pre a b, a ∈ l → P pre b → ∃ b', f b a = some b' ∧ P (pre ++ [a]) b') :
    ∀ (post pre : List α), l = pre ++ post → ∀ b, P pre b →
      ∃ b', post.foldlM f b = some b' ∧ P l b' := by
  intro post
  induction post with
  | nil =>
    intro pre hl b hb
    simp at hl
    subst hl
    exact ⟨b, by simp, hb⟩
  | cons a post ih =>
    intro pre hl b hb
    have ha : a ∈ l := by rw [hl]; simp
    obtain ⟨b1, hb1, hP1⟩ := hstep pre a b ha hb
    obtain ⟨b', hb', hP'⟩ := ih (pre ++ [a]) (by rw [hl]; simp) b1 hP1
    refine ⟨b', ?_, hP'⟩
    rw [List.foldlM_cons, hb1]
    exact hb'

theorem relax_iter (s0 : State) (Bd : List Int → Int) (hg : GraphOK s0)
    (H : DijHyp (neighbors s0) s0.startNode Bd (fun v c => ∃ k, Walk s0 s0.startNode v k c))
    (t : List Int) (u : Int) (i : Fin N) (hi : idx u = some i) (st0 : State)
    (hvis : ∀ v, v ∈ t ↔ visitedAt st0 v = true)
    (pre : List (Int × Int)) (st : State) (e : Int × Int) (he : e ∈ neighbors s0 u)
    (hP : RelaxLoop s0 Bd t u st0 pre st) :
    ∃ st', relax u i st e = some st' ∧ RelaxLoop s0 Bd t u st0 (pre ++ [e]) st' := by
  obtain ⟨hadj, hv, hrn, hen, hsp, hinv, hl, hpq, hlen⟩ := hP
  have her := neighbors_range s0 hg u e he
  obtain ⟨j, hj⟩ := idx_of_range (v := e.1) (by omega) (by have := hg.2.1; omega)
  have hlen' : st.dijkstraPQ.length ≤ st0.dijkstraPQ.length + (pre ++ [e]).length := by
    simp only [List.length_append, List.length_singleton]; omega
  have hvj : visitedAt st0 e.1 = st.visited j := by
    rw [visitedAt_idx st0 e.1 j hj, hv]
  have hdi : distAt st u = st.dist i := arrAt_idx _ _ _ _ hi
  have hdj : distAt st e.1 = st.dist j := arrAt_idx _ _ _ _ hj
  by_cases hvis_j : st.visited j = true
  · refine ⟨st, by simp [relax, hj, hvis_j], hadj, hv, hrn, hen, hsp, ?_, hl, hpq, hlen'⟩
    exact hinv.skip H hl e he (Or.inl ((hvis e.1).2 (by rw [hvj, hvis_j])))
  · have het : e.1 ∉ t := fun h => hvis_j (by rw [← hvj]; exact (hvis e.1).1 h)
    have hut := hl.u_mem
    have hDu := hinv.vis_fin u hut
    have hDu0 := (hinv.bound u hDu).1
    have hw := H.w_nonneg u e he
    have hnd := hl.u_bound e he het
    have hltB := H.bd_lt t
    have hadd : addInt (st.dist i) e.2 = some (st.dist i + e.2) := by
      rw [hdi] at hDu0 hnd
      unfold addInt
      rw [if_pos]
      simp only [INT_MIN, INT_MAX]
      simp only [INF] at hltB
      omega
    by_cases hlt : st.dist i + e.2 < st.dist j
    · refine ⟨{ st with
          dist := Function.update st.dist j (st.dist i + e.2)
          parent := Function.update st.parent j u
          dijkstraPQ := (st.dist i + e.2, e.1) :: st.dijkstraPQ }, ?_, hadj, hv, hrn, hen,
          hsp, ?_, ?_, ?_, ?_⟩
      · simp [relax, hj, hvis_j, hadd, hlt]
      · have := (hinv.update H hl e he het (by rw [hdi, hdj]; exact hlt)).1
        rw [hdi] at this
        show DijInv _ _ _ _ _ _ (arrAt (Function.update st.dist j (st.dist i + e.2)) INF)
          (arrAt (Function.update st.parent j u) (-1)) _
        rw [arrAt_update _ _ _ _ _ hj, arrAt_update _ _ _ _ _ hj]
        exact this
      · have := (hinv.update H hl e he het (by rw [hdi, hdj]; exact hlt)).2
        rw [hdi] at this
        show DijLoop _ _ _ _ (arrAt (Function.update st.dist j (st.dist i + e.2)) INF)
        rw [arrAt_update _ _ _ _ _ hj]
        exact this
      · intro e' he'
        rcases List.mem_cons.1 he' with h1 | h1
        · rw [h1]; exact her
        · exact hpq e' h1
      · simp only [List.length_cons, List.length_append, List.length_singleton]
        omega
    · refine ⟨st, by simp [relax, hj, hvis_j, hadd, hlt], hadj, hv, hrn, hen, hsp, ?_, hl,
        hpq, hlen'⟩
      exact hinv.skip H hl e he (Or.inr (by rw [hdi, hdj]; exact hlt))

theorem relax_loop (s0 : State) (Bd : List Int → Int) (hg : GraphOK s0)
    (H : DijHyp (neighbors s0) s0.startNode Bd (fun v c => ∃ k, Walk s0 s0.startNode v k c))
    (t : List Int) (u : Int) (i : Fin N) (hi : idx u = some i) (st0 : State)
    (hadj : st0.adj = s0.adj)
    (hvis : ∀ v, v ∈ t ↔ visitedAt st0 v = true)
    (hP : RelaxLoop s0 Bd t u st0 [] st0) :
    ∃ st', (st0.adj i).foldlM (relax u i) st0 = some st' ∧
      RelaxLoop s0 Bd t u st0 (neighbors s0 u) st' := by
  have hnb : neighbors s0 u = st0.adj i := by rw [neighbors_idx s0 u i hi, hadj]
  rw [hnb]
  refine foldlM_steps (relax u i) (RelaxLoop s0 Bd t u st0) (st0.adj i) ?_ (st0.adj i) []
    rfl st0 hP
  intro pre a b ha hb
  exact relax_iter s0 Bd hg H t u i hi st0 hvis pre b a (by rw [hnb]; exact ha) hb

theorem PathWeight.snoc (s : State) : ∀ (q : List Int) (c : Int), PathWeight s q c →
    ∀ (a b w : Int), q.getLast? = some a → (b, w) ∈ neighbors s a →
      PathWeight s (q ++ [b]) (c + w) := by
  intro q c h
  induction h with
  | single u =>
    intro a b w ha hb
    simp at ha
    subst ha
    have := PathWeight.cons hb (PathWeight.single (s := s) b)
    simpa using this
  | @cons a0 b0 rest w0 c0 hedge _ ih =>
    intro a b w ha hb
    rw [List.getLast?_cons_cons] at ha
    have := PathWeight.cons hedge (ih a b w ha hb)
    have e : w0 + (c0 + w) = w0 + c0 + w := by ring
    rw [e] at this
    exact this

theorem walkParents_done (parent : Fin N → Int) (fuel : Nat) (acc : List Int) :
    walkParents parent fuel (-1) acc = some acc := by
  cases fuel <;> simp [walkParents]

theorem walkParents_step (parent : Fin N → Int) (fuel : Nat) (v : Int) (i : Fin N)
    (acc : List Int) (hv : v ≠ -1) (hi : idx v = some i) :
    walkParents parent (fuel + 1) v acc = walkParents parent fuel (parent i) (acc ++ [v]) := by
  simp [walkParents, hv, hi]

theorem walkParents_spec (s0 sf : State) (Bd : List Int → Int) (t : List Int)
    (pq : List (Int × Int)) (hn : s0.numNodes ≤ 20)
    (h : DijInv (neighbors s0) s0.startNode Bd (fun v c => ∃ k, Walk s0 s0.startNode v k c)
      doneAll t (distAt sf) (parentAt sf) pq)
    (ht : ∀ v ∈ t, 1 ≤ v ∧ v ≤ s0.numNodes) :
    ∀ (k : Nat) (t1 : List Int) (v : Int) (t2 : List Int), t = t1 ++ v :: t2 →
      t1.length ≤ k → ∀ fuel, k + 1 ≤ fuel → ∀ acc,
      ∃ p, walkParents sf.parent fuel v acc = some (acc ++ p) ∧
        p.reverse.head? = some s0.startNode ∧ p.reverse.getLast? = some v ∧
        p.reverse.Chain' (fun a b =>
          ∃ w, (b, w) ∈ neighbors s0 a ∧ distAt sf b = distAt sf a + w) ∧
        PathWeight s0 p.reverse (distAt sf v) := by
  intro k
  induction k with
  | zero =>
    intro t1 v t2 heq hlen fuel hfuel acc
    have ht1 : t1 = [] := List.length_eq_zero.1 (by omega)
    subst ht1
    have hvt : v ∈ t := by rw [heq]; simp
    have hvr := ht v hvt
    obtain ⟨i, hi⟩ := idx_of_range (v := v) (by omega) (by omega)
    obtain ⟨f, rfl⟩ : ∃ f, fuel = f + 1 := ⟨fuel - 1, by omega⟩
    have hvs : v = s0.startNode := by
      by_contra hne
      have := h.par_order [] v t2 heq hne
      simp at this
    have hpar : sf.parent i = -1 := by
      have := h.start_par
      rw [← hvs] at this
      rw [← this]
      exact (arrAt_idx _ _ _ _ hi).symm
    refine ⟨[v], ?_, by simp [hvs], by simp, by simp, ?_⟩
    · rw [walkParents_step _ _ _ _ _ (by omega) hi, hpar, walkParents_done]
    · have : distAt sf v = 0 := by rw [hvs]; exact h.start_dist
      rw [this]
      exact PathWeight.single v
  | succ k ih =>
    intro t1 v t2 heq hlen fuel hfuel acc
    have hvt : v ∈ t := by rw [heq]; simp
    have hvr := ht v hvt
    obtain ⟨i, hi⟩ := idx_of_range (v := v) (by omega) (by omega)
    obtain ⟨f, rfl⟩ : ∃ f, fuel = f + 1 := ⟨fuel - 1, by omega⟩
    by_cases hvs : v = s0.startNode
    · have hpar : sf.parent i = -1 := by
        have := h.start_par
        rw [← hvs] at this
        rw [← this]
        exact (arrAt_idx _ _ _ _ hi).symm
      refine ⟨[v], ?_, by simp [hvs], by simp, by simp, ?_⟩
      · rw [walkParents_step _ _ _ _ _ (by omega) hi, hpar, walkParents_done]
      · have : distAt sf v = 0 := by rw [hvs]; exact h.start_dist
        rw [this]
        exact PathWeight.single v
    · have hpm := h.par_order t1 v t2 heq hvs
      have hpi : sf.parent i = parentAt sf v := (arrAt_idx _ _ _ _ hi).symm
      obtain ⟨a, b, hab⟩ := List.append_of_mem hpm
      have heq' : t = a ++ parentAt sf v :: (b ++ v :: t2) := by
        rw [heq, hab]; simp
      have hla : a.length ≤ k := by
        have : t1.length = a.length + 1 + b.length := by rw [hab]; simp; omega
        omega
      obtain ⟨p', hp', hhead, hlast, hchain, hpw⟩ :=
        ih a (parentAt sf v) (b ++ v :: t2) heq' hla f (by omega) (acc ++ [v])
      obtain ⟨_, w, hedge, hdist⟩ := h.par_ok v (h.vis_fin v hvt) hvs
      refine ⟨v :: p', ?_, ?_, ?_, ?_, ?_⟩
      · rw [walkParents_step _ _ _ _ _ (by omega) hi, hpi, hp']
        simp
      · rw [List.reverse_cons, List.head?_append, hhead]
        rfl
      · rw [List.reverse_cons, List.getLast?_concat]
      · rw [List.reverse_cons]
        refine List.Chain'.append hchain (List.chain'_singleton v) ?_
        intro x hx y hy
        rw [hlast] at hx
        simp at hx hy
        subst hx; subst hy
        exact ⟨w, hedge, hdist⟩
      · rw [List.reverse_cons, hdist]
        exact PathWeight.snoc s0 _ _ hpw _ _ _ hlast hedge

theorem nodup_range_length (n : Int) (hn : n ≤ 20) (t : List Int) (hnd : t.Nodup)
    (ht : ∀ v ∈ t, 1 ≤ v ∧ v ≤ n) : t.length ≤ 20 := by
  have h1 : t.toFinset.card = t.length := List.toFinset_card_of_nodup hnd
  have h2 : t.toFinset ⊆ Finset.Icc 1 n := by
    intro v hv
    rw [List.mem_toFinset] at hv
    rw [Finset.mem_Icc]
    exact ht v hv
  have h3 := Finset.card_le_card h2
  rw [Int.card_Icc] at h3
  omega

theorem dijkstraStep_empty_inf (fuel : Nat) (s : State) (e : Fin N)
    (htop : pqTop s.dijkstraPQ = none) (he : idx s.endNode = some e) (hd : s.dist e = INF) :
    ∃ s', dijkstraStep fuel s = some s' ∧ s'.adj = s.adj ∧ s'.endNode = s.endNode ∧
      s'.visited = s.visited ∧ s'.dist = s.dist ∧ s'.parent = s.parent ∧
      s'.dijkstraPQ = s.dijkstraPQ ∧ s'.shortestPath = s.shortestPath ∧
      s'.isRunning = false :=
  ⟨{ s with isRunning := false, currentNode := -1 }, by simp [dijkstraStep, htop, he, hd],
    rfl, rfl, rfl, rfl, rfl, rfl, rfl, rfl⟩

theorem dijkstraStep_empty_fin (fuel : Nat) (s : State) (e : Fin N) (p : List Int)
    (htop : pqTop s.dijkstraPQ = none) (he : idx s.endNode = some e) (hd : s.dist e ≠ INF)
    (hp : walkParents s.parent fuel s.endNode [] = some p) :
    ∃ s', dijkstraStep fuel s = some s' ∧ s'.adj = s.adj ∧ s'.endNode = s.endNode ∧
      s'.visited = s.visited ∧ s'.dist = s.dist ∧ s'.parent = s.parent ∧
      s'.dijkstraPQ = s.dijkstraPQ ∧ s'.shortestPath = p.reverse ∧
      s'.isRunning = false :=
  ⟨{ s with isRunning := false, currentNode := -1, shortestPath := p.reverse },
    by simp [dijkstraStep, htop, he, hd, hp], rfl, rfl, rfl, rfl, rfl, rfl, rfl, rfl⟩

theorem dijkstraStep_seen (fuel : Nat) (s : State) (top : Int × Int) (i : Fin N)
    (htop : pqTop s.dijkstraPQ = some top) (hi : idx top.2 = some i)
    (hv : s.visited i = true) :
    ∃ s', dijkstraStep fuel s = some s' ∧ s'.adj = s.adj ∧ s'.endNode = s.endNode ∧
      s'.visited = s.visited ∧ s'.dist = s.dist ∧ s'.parent = s.parent ∧
      s'.dijkstraPQ = s.dijkstraPQ.erase top ∧ s'.shortestPath = s.shortestPath ∧
      s'.isRunning = s.isRunning :=
  ⟨{ s with dijkstraPQ := s.dijkstraPQ.erase top, currentNode := top.2 },
    by simp [dijkstraStep, htop, hi, hv], rfl, rfl, rfl, rfl, rfl, rfl, rfl, rfl⟩

theorem distAt_congr (s s' : State) (h : s'.dist = s.dist) : distAt s' = distAt s := by
  funext v; simp [distAt, h]

theorem parentAt_congr (s s' : State) (h : s'.parent = s.parent) :
    parentAt s' = parentAt s := by
  funext v; simp [parentAt, h]

theorem PathResult.congr (s0 s s' : State) (hd : s'.dist = s.dist)
    (hp : s'.shortestPath = s.shortestPath) (h : PathResult s0 s) : PathResult s0 s' := by
  unfold PathResult at *
  rw [distAt_congr s s' hd, hp]
  exact h

theorem dijkstraStep_inv (s0 : State) (Bd : List Int → Int) (hg : GraphOK s0)
    (H : DijHyp (neighbors s0) s0.startNode Bd (fun v c => ∃ k, Walk s0 s0.startNode v k c))
    (hend : 1 ≤ s0.endNode ∧ s0.endNode ≤ s0.numNodes) (fuel : Nat) (hfuel : N ≤ fuel)
    (t : List Int) (s : State) (hI : DijCInv s0 Bd t s) (hr : s.isRunning = true) :
    ∃ s', dijkstraStep fuel s = some s' ∧ DijCInv s0 Bd (t ++ newlyVisited s s') s' ∧
      dijMeasure s' < dijMeasure s := by
  obtain ⟨hadj, hen, hpq, hvis, htr, hinv, hsp, _⟩ := hI
  have hsp0 := hsp hr
  cases htop : pqTop s.dijkstraPQ with
  | none =>
    have hq : s.dijkstraPQ = [] := (pqTop_eq_none _).1 htop
    obtain ⟨e, he⟩ := idx_of_range (v := s.endNode) (by rw [hen]; omega)
      (by rw [hen]; have := hg.2.1; omega)
    have hde : distAt s s0.endNode = s.dist e := by
      rw [← hen]; exact arrAt_idx _ _ _ _ he
    have hfinal : ∀ s', s'.adj = s.adj → s'.endNode = s.endNode → s'.visited = s.visited →
        s'.dist = s.dist → s'.parent = s.parent → s'.dijkstraPQ = s.dijkstraPQ →
        s'.isRunning = false → PathResult s0 s' →
        DijCInv s0 Bd (t ++ newlyVisited s s') s' ∧ dijMeasure s' < dijMeasure s := by
      intro s' ha hen' hvv hdd hpp hqq hrn hres
      constructor
      · rw [newlyVisited_same s s' hvv, List.append_nil]
        refine ⟨ha.trans hadj, hen'.trans hen, by rw [hqq]; exact hpq, ?_, htr, ?_,
          fun h => by rw [hrn] at h; simp at h, fun _ => ⟨hqq.trans hq, hres⟩⟩
        · intro v; rw [hvis v, visitedAt_congr s s' hvv]
        · rw [distAt_congr s s' hdd, parentAt_congr s s' hpp, hqq]; exact hinv
      · have := pendingWork_same s s' hvv ha
        simp only [dijMeasure, this, hr, hrn, hqq]
        simp
    by_cases hfin : s.dist e = INF
    · obtain ⟨s', hs', ha, hen', hvv, hdd, hpp, hqq, hss, hrn⟩ :=
        dijkstraStep_empty_inf fuel s e htop he hfin
      refine ⟨s', hs', hfinal s' ha hen' hvv hdd hpp hqq hrn ⟨?_, ?_⟩⟩
      · intro hne
        rw [distAt_congr s s' hdd] at hne
        exact absurd (hde.trans hfin) hne
      · intro _
        exact hss.trans hsp0
    · have hinv' := hinv
      rw [hq] at hinv'
      have hmem : s0.endNode ∈ t := hinv'.finite_visited _ (by rw [hde]; exact hfin)
      obtain ⟨t1, t2, ht12⟩ := List.append_of_mem hmem
      have hlen := nodup_range_length s0.numNodes hg.2.1 t hinv.nodup htr
      have hl1 : t1.length + 1 ≤ fuel := by
        have : t.length = t1.length + 1 + t2.length := by rw [ht12]; simp; omega
        simp only [N] at hfuel
        omega
      obtain ⟨p, hp, hhead, hlast, hchain, hpw⟩ :=
        walkParents_spec s0 s Bd t s.dijkstraPQ hg.2.1 hinv htr t1.length t1 s0.endNode t2
          ht12 (le_refl _) fuel hl1 []
      rw [List.nil_append, ← hen] at hp
      obtain ⟨s', hs', ha, hen', hvv, hdd, hpp, hqq, hss, hrn⟩ :=
        dijkstraStep_empty_fin fuel s e p htop he hfin hp
      refine ⟨s', hs', hfinal s' ha hen' hvv hdd hpp hqq hrn ⟨?_, ?_⟩⟩
      · intro _
        rw [distAt_congr s s' hdd, hss]
        exact ⟨hhead, hlast, hchain, hpw⟩
      · intro hinf
        rw [distAt_congr s s' hdd] at hinf
        exact absurd (hde.symm.trans hinf) hfin
  | some top =>
    obtain ⟨hmem, _⟩ := pqTop_spec _ _ htop
    have hur := hpq top hmem
    obtain ⟨i, hi⟩ := idx_of_range (v := top.2) (by omega) (by have := hg.2.1; omega)
    have hpq' : ∀ e ∈ s.dijkstraPQ.erase top, 1 ≤ e.2 ∧ e.2 ≤ s0.numNodes :=
      fun e he => hpq e (List.mem_of_mem_erase he)
    have hlen : (s.dijkstraPQ.erase top).length + 1 = s.dijkstraPQ.length := by
      rw [List.length_erase_of_mem hmem]
      have : 0 < s.dijkstraPQ.length := List.length_pos_of_mem hmem
      omega
    by_cases hv : s.visited i = true
    · obtain ⟨s', hs', ha, hen', hvv, hdd, hpp, hqq, hss, hrn⟩ :=
        dijkstraStep_seen fuel s top i htop hi hv
      refine ⟨s', hs', ?_, ?_⟩
      · rw [newlyVisited_same s s' hvv, List.append_nil]
        have hut : top.2 ∈ t := (hvis top.2).2 (by rw [visitedAt_idx s _ i hi, hv])
        refine ⟨ha.trans hadj, hen'.trans hen, by rw [hqq]; exact hpq', ?_, htr, ?_,
          fun _ => hss.trans hsp0, fun h => by rw [hrn, hr] at h; simp at h⟩
        · intro v; rw [hvis v, visitedAt_congr s s' hvv]
        · rw [distAt_congr s s' hdd, parentAt_congr s s' hpp, hqq]
          exact hinv.pop_seen top hut
      · have := pendingWork_same s s' hvv ha
        simp only [dijMeasure, this, hr, hrn, hqq, if_true]
        omega
    · have hv' : s.visited i = false := by simpa using hv
      have hut : top.2 ∉ t := fun h => by
        have := (hvis top.2).1 h
        rw [visitedAt_idx s _ i hi, hv'] at this
        simp at this
      obtain ⟨hmid, hloop⟩ := hinv.pop H top htop hut
      obtain ⟨s2, hs2⟩ : ∃ s2 : State, s2 = { s with
          dijkstraPQ := s.dijkstraPQ.erase top
          currentNode := top.2
          visited := Function.update s.visited i true } := ⟨_, rfl⟩
      have h2v : s2.visited = Function.update s.visited i true := by rw [hs2]
      have h2a : s2.adj = s.adj := by rw [hs2]
      have h2q : s2.dijkstraPQ = s.dijkstraPQ.erase top := by rw [hs2]
      have h2d : distAt s2 = distAt s := by rw [hs2]; rfl
      have h2p : parentAt s2 = parentAt s := by rw [hs2]; rfl
      have hvis2 : ∀ v, v ∈ t ++ [top.2] ↔ visitedAt s2 v = true := by
        intro v
        rw [visitedAt_update s s2 top.2 i hi h2v v, List.mem_append, hvis v]
        simp [or_comm]
      obtain ⟨s', hs', ha, hvv, hrn, hen', hsp', hinv', _, hpq'', hlen'⟩ :=
        relax_loop s0 Bd hg H (t ++ [top.2]) top.2 i hi s2 (h2a.trans hadj) hvis2
          ⟨rfl, rfl, rfl, rfl, rfl, by rw [h2d, h2p, h2q]; exact hmid,
            by rw [h2d]; exact hloop, by rw [h2q]; exact hpq', by simp⟩
      have hstep : dijkstraStep fuel s = some s' := by
        simp only [dijkstraStep, htop, hi, hv, Option.some_bind, Bool.false_eq_true, if_false]
        rw [hs2] at hs'
        exact hs'
      have hvv' : s'.visited = Function.update s.visited i true := hvv.trans h2v
      have ha' : s'.adj = s.adj := ha.trans h2a
      refine ⟨s', hstep, ?_, ?_⟩
      · rw [newlyVisited_update s s' i hv' hvv', ← idx_eq_some.1 hi]
        refine ⟨ha'.trans hadj, ?_, hpq'', ?_, ?_, hinv'.close,
          fun _ => ?_, fun h => ?_⟩
        · rw [hen', hs2]; exact hen
        · intro v
          rw [hvis2 v, visitedAt_congr _ _ hvv]
        · intro v hv
          rcases List.mem_append.1 hv with h | h
          · exact htr v h
          · simp at h; subst h; exact hur
        · rw [hsp', hs2]; exact hsp0
        · rw [hrn, hs2] at h
          rw [hr] at h; simp at h
      · have hp := pendingWork_update s s' i hv' hvv' ha'
        have hnl : (neighbors s0 top.2).length = (s.adj i).length := by
          rw [neighbors_idx s0 _ i hi, hadj]
        have hrn' : s'.isRunning = true := by rw [hrn, hs2]; exact hr
        simp only [dijMeasure, hr, hrn', if_true]
        rw [hnl, h2q] at hlen'
        omega

theorem arrAt_const {α : Type} (x : α) : arrAt (fun _ => x) x = fun _ => x := by
  funext v
  unfold arrAt
  split <;> rfl

theorem dijkstra_run (s : State) (edges : List (Int × Int × Int))
    (hn : 1 ≤ s.numNodes ∧ s.numNodes ≤ 20)
    (hadj : readEdges s.numNodes edges = some s.adj)
    (hw : ∀ e ∈ edges, 0 ≤ e.2.2) (htot : (edges.map fun e => e.2.2).sum < INF)
    (hs : 1 ≤ s.startNode ∧ s.startNode ≤ s.numNodes)
    (hend : 1 ≤ s.endNode ∧ s.endNode ≤ s.numNodes)
    (fuel : Nat) (hfuel : N ≤ fuel) (n : Nat) (hsteps : 2 + adjTotal s ≤ n) :
    ∃ s1 tr sf, startDijkstra s = some s1 ∧
      runTrace (dijkstraStep fuel) n s1 = some (tr, sf) ∧ sf.isRunning = false ∧
      DijCInv s (touchW s.numNodes edges) tr sf := by
  have hg := readEdges_graphOK s edges hn hadj
  have H := dijHyp_of_edges s edges hadj hw htot
  obtain ⟨i, hi⟩ := idx_of_range (v := s.startNode) (by omega) (by omega)
  obtain ⟨s1, hs1⟩ : ∃ s1 : State, s1 = { reset s with
      currentMode := TraversalMode.DIJKSTRA
      dist := Function.update (reset s).dist i 0
      dijkstraPQ := (0, (reset s).startNode) :: (reset s).dijkstraPQ
      isRunning := true } := ⟨_, rfl⟩
  have hstart : startDijkstra s = some s1 := by
    rw [hs1]
    have hi' : idx (reset s).startNode = some i := hi
    simp only [startDijkstra, hi', Option.some_bind]
  have hq1 : s1.dijkstraPQ = [(0, s.startNode)] := by rw [hs1]; rfl
  have hv1 : s1.visited = fun _ => false := by rw [hs1]; rfl
  have hd1 : distAt s1 = Function.update (fun _ => INF) s.startNode 0 := by
    rw [hs1]
    show arrAt (Function.update (fun _ => INF) i 0) INF = _
    rw [arrAt_update _ _ _ _ _ hi, arrAt_const]
  have hp1 : parentAt s1 = fun _ => -1 := by
    rw [hs1]
    exact arrAt_const (-1)
  have h0 : DijCInv s (touchW s.numNodes edges) [] s1 := by
    refine ⟨by rw [hs1]; rfl, by rw [hs1]; rfl, ?_, ?_, by simp, ?_, fun _ => by rw [hs1]; rfl,
      fun h => ?_⟩
    · intro e he
      rw [hq1] at he
      simp at he
      subst he
      exact hs
    · intro v
      simp [visitedAt, hv1]
      split <;> simp
    · rw [hd1, hp1, hq1]
      exact DijInv.init H
    · rw [hs1] at h
      simp at h
  have hμ : dijMeasure s1 ≤ n := by
    have h1 := pendingWork_le s1
    have h2 : adjTotal s1 = adjTotal s := by rw [hs1]; rfl
    have h3 : s1.isRunning = true := by rw [hs1]
    simp only [dijMeasure, hq1, h3, List.length_singleton, if_true]
    omega
  obtain ⟨tr, sf, hrun, hf, hP⟩ := runTrace_of_inv (dijkstraStep fuel)
    (DijCInv s (touchW s.numNodes edges)) dijMeasure
    (fun t st hI hr => dijkstraStep_inv s _ hg H hend fuel hfuel t st hI hr)
    n [] s1 h0 hμ
  exact ⟨s1, tr, sf, hstart, hrun, hf, by simpa using hP⟩

theorem DijInv.walk_settled (s : State) (Bd : List Int → Int) (t : List Int)
    (D par : Int → Int)
    (h : DijInv (neighbors s) s.startNode Bd (fun v c => ∃ k, Walk s s.startNode v k c)
      doneAll t D par []) :
    ∀ (a v : Int) (k : Nat) (c : Int), Walk s a v k c → a = s.startNode →
      v ∈ t ∧ D v ≤ c := by
  intro a v k c hw
  induction hw with
  | nil =>
    intro hu
    rw [hu]
    have : D s.startNode = 0 := h.start_dist
    refine ⟨h.finite_visited _ (by rw [this]; simp [INF]), by omega⟩
  | snoc _ hedge ih =>
    intro hu
    obtain ⟨hv, hle⟩ := ih hu
    have := h.relaxed _ hv _ hedge trivial
    exact ⟨h.finite_visited _ this.2, by simp only at this; omega⟩

theorem DijInv.shortest (s : State) (Bd : List Int → Int) (t : List Int)
    (D par : Int → Int)
    (h : DijInv (neighbors s) s.startNode Bd (fun v c => ∃ k, Walk s s.startNode v k c)
      doneAll t D par []) (v : Int) (hv : Reachable s v) : ShortestWeight s v (D v) := by
  obtain ⟨k, c, hw⟩ := hv
  have hvt := (h.walk_settled s Bd t D par _ v k c hw rfl).1
  refine ⟨h.realized v (h.vis_fin v hvt), ?_⟩
  intro k' c' hw'
  exact (h.walk_settled s Bd t D par _ v k' c' hw' rfl).2

/-- C1 (Dijkstra distances): for a graph read from an edge list with non-negative weights
whose sum is below `INF`, and start and end nodes in `[1, numNodes]`, the run
`startDijkstra()` then `dijkstraStep()` until `isRunning` is false ends within
`2 + adjTotal s` steps; afterwards `dist[v]` is the least weight of a walk from the start
node to `v` for every reachable `v`, and `dist[v] = INF` for every `v` in `[1, numNodes]`
that is not reachable. -/
theorem dijkstra_distances (s : State) (edges : List (Int × Int × Int))
    (hn : 1 ≤ s.numNodes ∧ s.numNodes ≤ 20)
    (hadj : readEdges s.numNodes edges = some s.adj)
    (hw : ∀ e ∈ edges, 0 ≤ e.2.2) (htot : (edges.map fun e => e.2.2).sum < INF)
    (hs : 1 ≤ s.startNode ∧ s.startNode ≤ s.numNodes)
    (hend : 1 ≤ s.endNode ∧ s.endNode ≤ s.numNodes)
    (fuel : Nat) (hfuel : N ≤ fuel) (n : Nat) (hsteps : 2 + adjTotal s ≤ n) :
    ∃ s1 tr sf, startDijkstra s = some s1 ∧
      runTrace (dijkstraStep fuel) n s1 = some (tr, sf) ∧ sf.isRunning = false ∧
      (∀ v, Reachable s v → ShortestWeight s v (distAt sf v)) ∧
      (∀ v, 1 ≤ v → v ≤ s.numNodes → ¬ Reachable s v → distAt sf v = INF) := by
  obtain ⟨s1, tr, sf, h1, h2, h3, hI⟩ :=
    dijkstra_run s edges hn hadj hw htot hs hend fuel hfuel n hsteps
  obtain ⟨_, _, _, _, _, hinv, _, hfin⟩ := hI
  rw [(hfin h3).1] at hinv
  refine ⟨s1, tr, sf, h1, h2, h3, fun v hv => hinv.shortest s _ _ _ _ v hv, ?_⟩
  intro v _ _ hnr
  by_contra hne
  obtain ⟨k, hk⟩ := hinv.realized v hne
  exact hnr ⟨k, _, hk⟩

/-- C2 (reconstructed path): under the hypotheses of C1, when the run has ended and
`dist[endNode]` is not `INF`, the parent walk has terminated and `shortestPath` starts
with the start node, ends with the end node, every consecutive pair `(a, b)` is joined by
an entry `(b, w)` of `adj[a]` with `dist[b] = dist[a] + w`, the weights along the path
add up to `dist[endNode]`, and that value is the shortest-path weight of the end node;
when `dist[endNode]` is `INF`, `shortestPath` is empty. -/
theorem dijkstra_path (s : State) (edges : List (Int × Int × Int))
    (hn : 1 ≤ s.numNodes ∧ s.numNodes ≤ 20)
    (hadj : readEdges s.numNodes edges = some s.adj)
    (hw : ∀ e ∈ edges, 0 ≤ e.2.2) (htot : (edges.map fun e => e.2.2).sum < INF)
    (hs : 1 ≤ s.startNode ∧ s.startNode ≤ s.numNodes)
    (hend : 1 ≤ s.endNode ∧ s.endNode ≤ s.numNodes)
    (fuel : Nat) (hfuel : N ≤ fuel) (n : Nat) (hsteps : 2 + adjTotal s ≤ n) :
    ∃ s1 tr sf, startDijkstra s = some s1 ∧
      runTrace (dijkstraStep fuel) n s1 = some (tr, sf) ∧ sf.isRunning = false ∧
      (distAt sf s.endNode ≠ INF →
        sf.shortestPath.head? = some s.startNode ∧
        sf.shortestPath.getLast? = some s.endNode ∧
        sf.shortestPath.Chain' (fun a b =>
          ∃ w, (b, w) ∈ neighbors s a ∧ distAt sf b = distAt sf a + w) ∧
        PathWeight s sf.shortestPath (distAt sf s.endNode) ∧
        ShortestWeight s s.endNode (distAt sf s.endNode)) ∧
      (distAt sf s.endNode = INF → sf.shortestPath = []) := by
  obtain ⟨s1, tr, sf, h1, h2, h3, hI⟩ :=
    dijkstra_run s edges hn hadj hw htot hs hend fuel hfuel n hsteps
  obtain ⟨_, _, _, _, _, hinv, _, hfin⟩ := hI
  obtain ⟨hq, hres⟩ := hfin h3
  rw [hq] at hinv
  refine ⟨s1, tr, sf, h1, h2, h3, ?_, hres.2⟩
  intro hne
  obtain ⟨ha, hb, hc, hd⟩ := hres.1 hne
  refine ⟨ha, hb, hc, hd, hinv.shortest s _ _ _ _ _ ?_⟩
  obtain ⟨k, hk⟩ := hinv.realized _ hne
  exact ⟨k, _, hk⟩

/-- C1, witness: the graph of scenario C. -/
theorem dijkstra_distances_witness :
    ∃ s1 tr sf, startDijkstra scenarioC = some s1 ∧
      runTrace (dijkstraStep 21) 10 s1 = some (tr, sf) ∧ sf.isRunning = false ∧
      (∀ v, Reachable scenarioC v → ShortestWeight scenarioC v (distAt sf v)) ∧
      (∀ v, 1 ≤ v → v ≤ scenarioC.numNodes → ¬ Reachable scenarioC v → distAt sf v = INF) :=
  dijkstra_distances scenarioC [(1, 2, 4), (1, 3, 1), (3, 2, 1), (2, 4, 1)]
    (by decide) rfl (by decide) (by decide) (by decide) (by decide) 21 (by decide) 10
    (by decide)

/-- C2, witness (scenario C): edges (1,2,4), (1,3,1), (3,2,1), (2,4,1), start 1, end 4 give
`dist[4] = 3` and `shortestPath = [1, 3, 2, 4]`. -/
theorem dijkstra_path_witness :
    (∃ s1 tr sf, startDijkstra scenarioC = some s1 ∧
      runTrace (dijkstraStep 21) 10 s1 = some (tr, sf) ∧ sf.isRunning = false ∧
      (distAt sf scenarioC.endNode ≠ INF →
        sf.shortestPath.head? = some scenarioC.startNode ∧
        sf.shortestPath.getLast? = some scenarioC.endNode ∧
        sf.shortestPath.Chain' (fun a b =>
          ∃ w, (b, w) ∈ neighbors scenarioC a ∧ distAt sf b = distAt sf a + w) ∧
        PathWeight scenarioC sf.shortestPath (distAt sf scenarioC.endNode) ∧
        ShortestWeight scenarioC scenarioC.endNode (distAt sf scenarioC.endNode)) ∧
      (distAt sf scenarioC.endNode = INF → sf.shortestPath = [])) ∧
    ((startDijkstra scenarioC).bind fun s1 =>
      (runTrace (dijkstraStep 21) 10 s1).map fun r => (distAt r.2 4, r.2.shortestPath)) =
      some (3, [1, 3, 2, 4]) :=
  ⟨dijkstra_path scenarioC [(1, 2, 4), (1, 3, 1), (3, 2, 1), (2, 4, 1)]
    (by decide) rfl (by decide) (by decide) (by decide) (by decide) 21 (by decide) 10
    (by decide), by decide⟩

/-! ### Dijkstra: visited nodes are settled (C11) -/

theorem relax_cases (u : Int) (i : Fin N) (st st' : State) (e : Int × Int)
    (h : relax u i st e = some st') :
    st' = st ∨ ∃ j, idx e.1 = some j ∧ st.visited j = false ∧
      st.dist i + e.2 < st.dist j ∧
      st' = { st with
        dist := Function.update st.dist j (st.dist i + e.2)
        parent := Function.update st.parent j u
        dijkstraPQ := (st.dist i + e.2, e.1) :: st.dijkstraPQ } := by
  simp only [relax, Option.bind_eq_some] at h
  obtain ⟨j, hj, h⟩ := h
  split at h
  · simp at h; exact Or.inl h.symm
  · rename_i hv
    simp only [Option.bind_eq_some] at h
    obtain ⟨nd, hnd, h⟩ := h
    have hnd' : nd = st.dist i + e.2 := by
      unfold addInt at hnd
      split at hnd
      · simp at hnd; exact hnd.symm
      · simp at hnd
    subst hnd'
    split at h
    · rename_i hlt
      simp at h
      exact Or.inr ⟨j, hj, by simpa using hv, hlt, h.symm⟩
    · simp at h; exact Or.inl h.symm

/-- Shape of a `dijkstraStep` that marks a node: the popped entry, its index, and the
relaxation loop run from the state with the node marked. -/
theorem dijkstraStep_cases (fuel : Nat) (s s' : State) (h : dijkstraStep fuel s = some s') :
    (s'.dist = s.dist ∧ s'.parent = s.parent ∧ s'.visited = s.visited ∧
      s'.currentMode = s.currentMode ∧
      (s'.dijkstraPQ = s.dijkstraPQ ∨
        ∃ top, pqTop s.dijkstraPQ = some top ∧ s'.dijkstraPQ = s.dijkstraPQ.erase top)) ∨
    ∃ top i, pqTop s.dijkstraPQ = some top ∧ idx top.2 = some i ∧ s.visited i = false ∧
      (s.adj i).foldlM (relax top.2 i)
        { s with
          dijkstraPQ := s.dijkstraPQ.erase top
          currentNode := top.2
          visited := Function.update s.visited i true } = some s' := by
  unfold dijkstraStep at h
  split at h
  · left
    simp only [Option.bind_eq_some] at h
    obtain ⟨e, _, he⟩ := h
    split at he
    · simp only [Option.bind_eq_some] at he
      obtain ⟨p, _, hp⟩ := he
      simp at hp; subst hp
      exact ⟨rfl, rfl, rfl, rfl, Or.inl rfl⟩
    · simp at he; subst he
      exact ⟨rfl, rfl, rfl, rfl, Or.inl rfl⟩
  · rename_i top htop
    simp only [Option.bind_eq_some] at h
    obtain ⟨i, hi, hk⟩ := h
    split at hk
    · left
      simp at hk; subst hk
      exact ⟨rfl, rfl, rfl, rfl, Or.inr ⟨top, htop, rfl⟩⟩
    · rename_i hv
      right
      exact ⟨top, i, htop, hi, by simpa using hv, hk⟩

/-- C11 (visited nodes are settled): whenever `dijkstraStep` returns, `dist[v]` and
`parent[v]` are unchanged for every node `v` that was visited before the step; when the
step changes `parent[v]`, the new value is the node just marked visited (the new
`currentNode`) and `dist[v]` has strictly decreased; and when no adjacency entry `(v, w)`
of the marked node `u` has `dist[u] + w < dist[v]` (in particular for an equal-cost
alternative), `dist[v]` and `parent[v]` are unchanged and no entry for `v` is pushed. -/
theorem visited_settled :
    (∀ (fuel : Nat) (s s' : State), dijkstraStep fuel s = some s' →
      ∀ j, s.visited j = true → s'.dist j = s.dist j ∧ s'.parent j = s.parent j) ∧
    (∀ (fuel : Nat) (s s' : State), dijkstraStep fuel s = some s' →
      ∀ j, s'.parent j ≠ s.parent j →
        s'.parent j = s'.currentNode ∧ s'.dist j < s.dist j ∧
        visitedAt s s'.currentNode = false ∧ visitedAt s' s'.currentNode = true) ∧
    (∀ (fuel : Nat) (s s' : State) (top : Int × Int) (i j : Fin N),
      dijkstraStep fuel s = some s' → pqTop s.dijkstraPQ = some top →
      idx top.2 = some i → s.visited i = false →
      (∀ e ∈ s.adj i, idx e.1 = some j → ¬ (s.dist i + e.2 < s.dist j)) →
      s'.dist j = s.dist j ∧ s'.parent j = s.parent j ∧
      ∀ x ∈ s'.dijkstraPQ, idx x.2 = some j → x ∈ s.dijkstraPQ.erase top) := by
  have key : ∀ (fuel : Nat) (s s' : State), dijkstraStep fuel s = some s' →
      ∀ j, (s'.dist j = s.dist j ∧ s'.parent j = s.parent j) ∨
        (s.visited j = false ∧ s'.parent j = s'.currentNode ∧ s'.dist j < s.dist j ∧
          visitedAt s s'.currentNode = false ∧ visitedAt s' s'.currentNode = true) := by
    intro fuel s s' h j
    rcases dijkstraStep_cases fuel s s' h with ⟨hd, hp, _, _, _⟩ | ⟨top, i, _, hi, hv, hloop⟩
    · left; rw [hd, hp]; exact ⟨rfl, rfl⟩
    · have hinv := foldlM_inv (relax top.2 i)
        (fun st => st.visited = Function.update s.visited i true ∧ st.currentNode = top.2 ∧
          ∀ j, (st.dist j = s.dist j ∧ st.parent j = s.parent j) ∨
            (s.visited j = false ∧ st.parent j = top.2 ∧ st.dist j < s.dist j))
        (fun b a b' hb hP => by
          obtain ⟨hbv, hbc, hbj⟩ := hP
          rcases relax_cases _ _ _ _ _ hb with rfl | ⟨k, _, hkv, hlt, rfl⟩
          · exact ⟨hbv, hbc, hbj⟩
          · refine ⟨hbv, hbc, fun j => ?_⟩
            by_cases hjk : j = k
            · subst hjk
              right
              have hsv : s.visited j = false := by
                rw [hbv] at hkv
                by_cases hji : j = i
                · subst hji; simp at hkv
                · rw [Function.update_noteq hji] at hkv; exact hkv
              refine ⟨hsv, by simp, ?_⟩
              simp only [Function.update_same]
              rcases hbj j with ⟨h1, _⟩ | ⟨_, _, h1⟩
              · rw [← h1]; exact hlt
              · exact lt_trans hlt h1
            · simp only [Function.update_noteq hjk]
              exact hbj j) _ _ _ hloop
        ⟨rfl, rfl, fun j => Or.inl ⟨rfl, rfl⟩⟩
      obtain ⟨hv', hc', hj'⟩ := hinv
      rcases hj' j with h1 | ⟨h1, h2, h3⟩
      · exact Or.inl h1
      · right
        refine ⟨h1, by rw [hc']; exact h2, h3, ?_, ?_⟩
        · rw [hc', visitedAt_idx s _ i hi, hv]
        · rw [hc', visitedAt_idx s' _ i hi, hv']; simp
  refine ⟨?_, ?_, ?_⟩
  · intro fuel s s' h j hj
    rcases key fuel s s' h j with h1 | ⟨h1, _⟩
    · exact h1
    · rw [hj] at h1; simp at h1
  · intro fuel s s' h j hne
    rcases key fuel s s' h j with ⟨_, h1⟩ | ⟨_, h1⟩
    · exact absurd h1 hne
    · exact h1
  · intro fuel s s' top i j h htop hi hv hge
    have hloop := h
    unfold dijkstraStep at hloop
    simp only [htop, hi, Option.some_bind, hv, Bool.false_eq_true, if_false] at hloop
    · have hinv := foldlM_inv_mem (relax top.2 i)
        (fun st => st.visited i = true ∧ st.dist i = s.dist i ∧ st.dist j = s.dist j ∧
          st.parent j = s.parent j ∧
          ∀ x ∈ st.dijkstraPQ, idx x.2 = some j → x ∈ s.dijkstraPQ.erase top)
        (s.adj i)
        (fun b a b' ha hb hP => by
          obtain ⟨hbv, hbi, hbd, hbp, hbq⟩ := hP
          rcases relax_cases _ _ _ _ _ hb with rfl | ⟨k, hk, hkv, hlt, rfl⟩
          · exact ⟨hbv, hbi, hbd, hbp, hbq⟩
          · have hki : k ≠ i := by
              intro e; rw [e, hbv] at hkv; simp at hkv
            have hkj : k ≠ j := by
              intro e
              subst e
              rw [hbi, hbd] at hlt
              exact hge a ha hk hlt
            refine ⟨hbv, ?_, ?_, ?_, ?_⟩
            · simp only [Function.update_noteq (Ne.symm hki)]; exact hbi
            · simp only [Function.update_noteq (Ne.symm hkj)]; exact hbd
            · simp only [Function.update_noteq (Ne.symm hkj)]; exact hbp
            · intro x hx hxj
              rcases List.mem_cons.1 hx with h1 | h1
              · subst h1
                simp only at hxj
                rw [hk] at hxj
                exact absurd (Option.some.inj hxj) hkj
              · exact hbq x h1 hxj) _ _ hloop
        ⟨by simp, rfl, rfl, rfl, fun x hx _ => hx⟩
      exact ⟨hinv.2.2.1, hinv.2.2.2.1, hinv.2.2.2.2⟩

/-- C11, witness: the step from `midRunState` to `midRunNext` leaves the visited node 3
alone and gives node 2 the parent 1 with `dist[2]` lowered from `INF` to 4; the step from
`tieState` to `tieNext` meets the equal-cost edge (2, 4) and changes nothing for node 2. -/
theorem visited_settled_witness :
    (midRunNext.dist 3 = midRunState.dist 3 ∧ midRunNext.parent 3 = midRunState.parent 3) ∧
    (midRunNext.parent 2 = midRunNext.currentNode ∧ midRunNext.dist 2 < midRunState.dist 2 ∧
      visitedAt midRunState midRunNext.currentNode = false ∧
      visitedAt midRunNext midRunNext.currentNode = true) ∧
    (tieNext.dist 2 = tieState.dist 2 ∧ tieNext.parent 2 = tieState.parent 2 ∧
      ∀ x ∈ tieNext.dijkstraPQ, idx x.2 = some 2 → x ∈ tieState.dijkstraPQ.erase (0, 1)) :=
  ⟨visited_settled.1 21 midRunState midRunNext rfl 3 rfl,
    visited_settled.2.1 21 midRunState midRunNext rfl 2 (by decide),
    visited_settled.2.2 21 tieState tieNext (0, 1) 1 2 rfl (by decide) (by decide) rfl
      (by decide)⟩

/-! ### The shortest path over all commands (C12) -/

theorem bfsStep_path (s s' : State) (h : bfsStep s = some s') :
    s'.shortestPath = s.shortestPath := by
  unfold bfsStep at h
  split at h
  · simp at h; subst h; rfl
  · simp only [Option.bind_eq_some] at h
    obtain ⟨k, _, hk⟩ := h
    split at hk
    · simp at hk; subst hk; rfl
    · exact foldlM_inv bfsPush (fun st => st.shortestPath = s.shortestPath)
        (fun b a b' hb hP => by
          simp only [bfsPush, Option.bind_eq_some] at hb
          obtain ⟨j, _, hj⟩ := hb
          split at hj <;> simp at hj <;> subst hj <;> exact hP) _ _ _ hk rfl

theorem dfsStep_path (s s' : State) (h : dfsStep s = some s') :
    s'.shortestPath = s.shortestPath := by
  unfold dfsStep at h
  split at h
  · simp at h; subst h; rfl
  · simp only [Option.bind_eq_some] at h
    obtain ⟨k, _, hk⟩ := h
    split at hk
    · simp at hk; subst hk; rfl
    · exact foldlM_inv dfsPush (fun st => st.shortestPath = s.shortestPath)
        (fun b a b' hb hP => by
          simp only [dfsPush, Option.bind_eq_some] at hb
          obtain ⟨j, _, hj⟩ := hb
          split at hj <;> simp at hj <;> subst hj <;> exact hP) _ _ _ hk rfl

theorem dijkstraStep_path (fuel : Nat) (s s' : State) (h : dijkstraStep fuel s = some s') :
    s'.currentMode = s.currentMode ∧
    (s'.shortestPath = s.shortestPath ∨
      (s'.isRunning = false ∧ s'.dijkstraPQ = [] ∧ distAt s' s'.endNode ≠ INF)) := by
  unfold dijkstraStep at h
  split at h
  · rename_i htop
    have hq : s.dijkstraPQ = [] := (pqTop_eq_none _).1 htop
    simp only [Option.bind_eq_some] at h
    obtain ⟨e, he, h⟩ := h
    split at h
    · rename_i hd
      simp only [Option.bind_eq_some] at h
      obtain ⟨p, _, hp⟩ := h
      simp at hp; subst hp
      refine ⟨rfl, Or.inr ⟨rfl, hq, ?_⟩⟩
      show arrAt s.dist INF s.endNode ≠ INF
      rw [arrAt_idx _ _ _ _ he]
      exact hd
    · simp at h; subst h
      exact ⟨rfl, Or.inl rfl⟩
  · simp only [Option.bind_eq_some] at h
    obtain ⟨i, _, hk⟩ := h
    split at hk
    · simp at hk; subst hk
      exact ⟨rfl, Or.inl rfl⟩
    · have := foldlM_inv (relax _ i)
        (fun st => st.currentMode = s.currentMode ∧ st.shortestPath = s.shortestPath)
        (fun b a b' hb hP => by
          rcases relax_cases _ _ _ _ _ hb with rfl | ⟨k, _, _, _, rfl⟩
          · exact hP
          · exact hP) _ _ _ hk ⟨rfl, rfl⟩
      exact ⟨this.1, Or.inl this.2⟩

theorem PathInv.of_empty (s : State) (h : s.shortestPath = []) : PathInv s :=
  fun hne => absurd h hne

theorem PathInv.of_same (s s' : State) (h : PathInv s)
    (h1 : s'.shortestPath = s.shortestPath) (h2 : s'.currentMode = s.currentMode)
    (h3 : s'.isRunning = s.isRunning) (h4 : s'.dijkstraPQ = s.dijkstraPQ)
    (h5 : s'.dist = s.dist) (h6 : s'.endNode = s.endNode) : PathInv s' := by
  intro hne
  rw [h1] at hne
  have := h hne
  rw [h2, h3, h4, h6, distAt_congr s s' h5]
  exact this

/-- One step of the current mode, as the timer and the step key perform it, keeps the
path invariant. -/
theorem PathInv.keep_mode_step (fuel : Nat) (s s' : State) (h : PathInv s)
    (hr : s.isRunning = true)
    (hs : (match s.currentMode with
      | TraversalMode.BFS => bfsStep s
      | TraversalMode.DFS => dfsStep s
      | TraversalMode.DIJKSTRA => dijkstraStep fuel s
      | TraversalMode.NONE => some s) = some s') : PathInv s' := by
  have hp : s.shortestPath = [] := by
    by_contra hne
    have := (h hne).2.1
    rw [hr] at this
    simp at this
  cases hm : s.currentMode with
  | NONE =>
    rw [hm] at hs
    simp at hs; subst hs; exact h
  | BFS =>
    rw [hm] at hs
    exact PathInv.of_empty s' ((bfsStep_path s s' hs).trans hp)
  | DFS =>
    rw [hm] at hs
    exact PathInv.of_empty s' ((dfsStep_path s s' hs).trans hp)
  | DIJKSTRA =>
    rw [hm] at hs
    obtain ⟨h1, h2⟩ := dijkstraStep_path fuel s s' hs
    rcases h2 with h2 | h2
    · exact PathInv.of_empty s' (h2.trans hp)
    · intro _
      exact ⟨h1.trans hm, h2⟩

theorem PathInv.keep_timer (fuel : Nat) (s s' : State) (h : PathInv s)
    (ht : timer fuel s = some s') : PathInv s' := by
  unfold GraphViz.timer at ht
  split at ht
  · rename_i hc
    simp only [Bool.and_eq_true] at hc
    exact PathInv.keep_mode_step fuel s s' h hc.1.1 ht
  · simp at ht; subst ht; exact h

theorem PathInv.keep_keyStep (fuel : Nat) (s s' : State) (h : PathInv s)
    (hk : keyStep fuel s = some s') : PathInv s' := by
  have h1 : PathInv { s with isStepMode := true, shouldStep := true } :=
    PathInv.of_same s _ h rfl rfl rfl rfl rfl rfl
  dsimp only [GraphViz.keyStep] at hk
  split at hk
  · rename_i hc
    simp only [Bool.and_eq_true] at hc
    simp only [Option.bind_eq_some] at hk
    obtain ⟨s2, hs2, hk⟩ := hk
    simp at hk; subst hk
    have h2 : PathInv s2 := PathInv.keep_mode_step fuel _ s2 h1 hc.1 hs2
    exact PathInv.of_same s2 _ h2 rfl rfl rfl rfl rfl rfl
  · simp at hk; subst hk; exact h1

theorem PathInv.keep_keyboard (fuel : Nat) (k : Nat) (s s' : State) (h : PathInv s)
    (hk : keyboard fuel k s = KeyOutcome.returned (some s')) : PathInv s' := by
  unfold GraphViz.keyboard at hk
  split at hk
  · simp at hk; subst hk
    unfold keyPause
    split
    · exact PathInv.of_same s _ h rfl rfl rfl rfl rfl rfl
    · exact h
  split at hk
  · simp at hk
    exact PathInv.keep_keyStep fuel s s' h hk
  split at hk
  · simp at hk; subst hk
    dsimp only [keyAuto]
    split
    · exact PathInv.of_same s _ h rfl rfl rfl rfl rfl rfl
    · exact PathInv.of_same s _ h rfl rfl rfl rfl rfl rfl
  split at hk
  · simp at hk; subst hk
    exact PathInv.of_empty _ rfl
  split at hk
  · simp at hk; subst hk
    exact PathInv.of_empty _ rfl
  split at hk
  · simp at hk; subst hk
    exact PathInv.of_empty _ rfl
  split at hk
  · simp at hk
    simp only [startDijkstra, Option.bind_eq_some] at hk
    obtain ⟨i, _, hi⟩ := hk
    simp at hi; subst hi
    exact PathInv.of_empty _ rfl
  split at hk
  · simp at hk
  · simp at hk; subst hk; exact h

theorem EngineReach.path_inv (s0 s : State) (h0 : PathInv s0) (h : EngineReach s0 s) :
    PathInv s := by
  induction h with
  | init => exact h0
  | key fuel k _ hk ih => exact PathInv.keep_keyboard fuel k _ _ ih hk
  | tick fuel _ ht ih => exact PathInv.keep_timer fuel _ _ ih ht

theorem EngineReach.ticks (s0 : State) (fuel : Nat) :
    ∀ (n : Nat) (s s' : State), EngineReach s0 s → iterTimer fuel n s = some s' →
      EngineReach s0 s' := by
  intro n
  induction n with
  | zero =>
    intro s s' hr h
    simp [iterTimer] at h
    subst h; exact hr
  | succ n ih =>
    intro s s' hr h
    simp only [iterTimer, Option.bind_eq_some] at h
    obtain ⟨s1, h1, h2⟩ := h
    exact ih s1 s' (EngineReach.tick fuel hr h1) h2

/-- C12 (shortest path only after a completed Dijkstra run): in every state reachable from
the initial state by key presses and timer callbacks, a non-empty `shortestPath` implies
that the run mode is `DIJKSTRA`, `isRunning` is false, the priority queue is empty and
`dist[endNode]` is not `INF`. -/
theorem path_only_after_dijkstra (adj : Fin N → List (Int × Int))
    (numNodes startNode endNode : Int) (s : State)
    (hr : EngineReach (initialState adj numNodes startNode endNode) s)
    (hp : s.shortestPath ≠ []) :
    s.currentMode = TraversalMode.DIJKSTRA ∧ s.isRunning = false ∧ s.dijkstraPQ = [] ∧
      distAt s s.endNode ≠ INF :=
  EngineReach.path_inv _ s (PathInv.of_empty _ rfl) hr hp

theorem finishedC_reach : EngineReach scenarioC finishedC := by
  have h : ((startDijkstra scenarioC).bind (iterTimer 21 6)).isSome = true := by decide
  obtain ⟨sf, hsf⟩ := Option.isSome_iff_exists.1 h
  have hf : finishedC = sf := by simp [finishedC, hsf]
  obtain ⟨s1, h1, h2⟩ := Option.bind_eq_some.1 hsf
  rw [hf]
  refine EngineReach.ticks scenarioC 21 6 s1 sf ?_ h2
  exact EngineReach.key 21 106 EngineReach.init (by simp [keyboard, h1])

/-- C12, witness: scenario C after the key `j` and six timer callbacks holds the path
`[1, 3, 2, 4]`. -/
theorem path_only_after_dijkstra_witness :
    finishedC.shortestPath = [1, 3, 2, 4] ∧
    (finishedC.currentMode = TraversalMode.DIJKSTRA ∧ finishedC.isRunning = false ∧
      finishedC.dijkstraPQ = [] ∧ distAt finishedC finishedC.endNode ≠ INF) :=
  ⟨by decide, path_only_after_dijkstra _ 4 1 4 finishedC finishedC_reach (by decide)⟩

/-! ### Graph construction (C13) -/

theorem cast_eq_iff (i k : Fin N) : (((i : Nat) : Int) = ((k : Nat) : Int)) ↔ i = k := by
  constructor
  · intro h
    exact Fin.ext (by exact_mod_cast h)
  · intro h; rw [h]

theorem addEdge_exact (n : Int) (hn : n ≤ 20) (a : Fin N → List (Int × Int))
    (e : Int × Int × Int) :
    addEdge n a e = some (fun k => a k ++ entriesFor n ((k : Nat) : Int) e) := by
  unfold addEdge
  by_cases hr : 1 ≤ e.1 ∧ e.1 ≤ n ∧ 1 ≤ e.2.1 ∧ e.2.1 ≤ n
  · obtain ⟨i0, hi0⟩ := idx_of_range (v := e.1) (by omega) (by omega)
    obtain ⟨j0, hj0⟩ := idx_of_range (v := e.2.1) (by omega) (by omega)
    rw [if_pos hr]
    simp only [hi0, hj0, Option.some_bind, Option.some.injEq]
    rw [idx_eq_some] at hi0 hj0
    funext k
    have hki : e.1 = ((k : Nat) : Int) ↔ k = i0 := by
      rw [hi0, cast_eq_iff]; exact eq_comm
    have hkj : e.2.1 = ((k : Nat) : Int) ↔ k = j0 := by
      rw [hj0, cast_eq_iff]; exact eq_comm
    simp only [entriesFor, if_pos hr]
    by_cases h2 : k = j0
    · by_cases h1 : k = i0
      · have e1 : e.1 = ((k : Nat) : Int) := hki.2 h1
        have e2 : e.2.1 = ((k : Nat) : Int) := hkj.2 h2
        rw [if_pos e1, if_pos e2, h2]
        rw [Function.update_same]
        have : i0 = j0 := by rw [← h1, ← h2]
        rw [this, Function.update_same]
        simp
      · have e1 : ¬ e.1 = ((k : Nat) : Int) := fun h => h1 (hki.1 h)
        have e2 : e.2.1 = ((k : Nat) : Int) := hkj.2 h2
        rw [if_neg e1, if_pos e2, h2, Function.update_same]
        have : j0 ≠ i0 := fun h => h1 (h2.trans h)
        rw [Function.update_noteq this]
        simp
    · have e2 : ¬ e.2.1 = ((k : Nat) : Int) := fun h => h2 (hkj.1 h)
      rw [Function.update_noteq h2, if_neg e2]
      by_cases h1 : k = i0
      · have e1 : e.1 = ((k : Nat) : Int) := hki.2 h1
        rw [if_pos e1, h1, Function.update_same]
        simp
      · have e1 : ¬ e.1 = ((k : Nat) : Int) := fun h => h1 (hki.1 h)
        rw [if_neg e1, Function.update_noteq h1]
        simp
  · rw [if_neg hr]
    simp [entriesFor, hr]

theorem readEdges_fold (n : Int) (hn : n ≤ 20) :
    ∀ (edges : List (Int × Int × Int)) (a : Fin N → List (Int × Int)),
      edges.foldlM (addEdge n) a =
        some (fun k => a k ++ adjSpec n edges ((k : Nat) : Int)) := by
  intro edges
  induction edges with
  | nil => intro a; simp [adjSpec]
  | cons e es ih =>
    intro a
    rw [List.foldlM_cons, addEdge_exact n hn a e]
    simp only [Option.some_bind, Option.bind_eq_bind]
    rw [ih]
    simp [adjSpec, List.append_assoc]

theorem count_ite_singleton (c : Prop) [Decidable c] (x y : Int × Int) :
    (if c then [x] else []).count y = if c ∧ x = y then 1 else 0 := by
  by_cases hc : c
  · by_cases hxy : x = y
    · simp [hc, hxy]
    · simp [hc, hxy, List.count_cons]
  · simp [hc]

theorem entriesFor_count (n : Int) (u v w : Int) (e : Int × Int × Int) :
    (entriesFor n u e).count (v, w) = (entriesFor n v e).count (u, w) := by
  unfold entriesFor
  split
  · rw [List.count_append, List.count_append, count_ite_singleton, count_ite_singleton,
      count_ite_singleton, count_ite_singleton, Nat.add_comm]
    have h1 : (e.2.1 = u ∧ (e.1, e.2.2) = (v, w)) ↔ (e.1 = v ∧ (e.2.1, e.2.2) = (u, w)) := by
      simp only [Prod.mk.injEq]; tauto
    have h2 : (e.1 = u ∧ (e.2.1, e.2.2) = (v, w)) ↔ (e.2.1 = v ∧ (e.1, e.2.2) = (u, w)) := by
      simp only [Prod.mk.injEq]; tauto
    simp only [h1, h2]
  · rfl

theorem adjSpec_count (n : Int) (u v w : Int) :
    ∀ (edges : List (Int × Int × Int)),
      (adjSpec n edges u).count (v, w) = (adjSpec n edges v).count (u, w) := by
  intro edges
  induction edges with
  | nil => rfl
  | cons e es ih =>
    simp only [adjSpec, List.flatMap_cons, List.count_append] at ih ⊢
    rw [ih, entriesFor_count]

/-- C13 (graph construction): for `numNodes` in `[1, 20]` the edge-reading loop returns,
and `adj[u]` is, in input order, the entry `(v, w)` for every in-range input edge
`(u, v, w)` and the entry `(x, w)` for every in-range input edge `(x, u, w)`; an edge with
an endpoint outside `[1, numNodes]` leaves the lists unchanged.  Hence every stored
neighbour id lies in `[1, numNodes]`, and for `u ≠ v` the entry `(v, w)` occurs in
`adj[u]` as often as `(u, w)` occurs in `adj[v]`. -/
theorem readEdges_exact (numNodes : Int) (hn : 1 ≤ numNodes ∧ numNodes ≤ 20)
    (edges : List (Int × Int × Int)) :
    ∃ adj, readEdges numNodes edges = some adj ∧
      (∀ i : Fin N, adj i = adjSpec numNodes edges ((i : Nat) : Int)) ∧
      (∀ (a : Fin N → List (Int × Int)) (e : Int × Int × Int),
        ¬ (1 ≤ e.1 ∧ e.1 ≤ numNodes ∧ 1 ≤ e.2.1 ∧ e.2.1 ≤ numNodes) →
        addEdge numNodes a e = some a) ∧
      (∀ (i : Fin N), ∀ p ∈ adj i, 1 ≤ p.1 ∧ p.1 ≤ numNodes) ∧
      (∀ (i j : Fin N) (w : Int), i ≠ j →
        (adj i).count (((j : Nat) : Int), w) = (adj j).count (((i : Nat) : Int), w)) := by
  have hfold := readEdges_fold numNodes hn.2 edges (fun _ => [])
  simp only [List.nil_append] at hfold
  refine ⟨_, hfold, fun i => rfl, ?_, ?_, ?_⟩
  · intro a e he
    simp [addEdge, he]
  · intro i p hp
    have hg := readEdges_graphOK
      (initialState (fun k => adjSpec numNodes edges ((k : Nat) : Int)) numNodes 1 1)
      edges hn hfold
    exact hg.2.2 i p hp
  · intro i j w _
    exact adjSpec_count numNodes _ _ w edges

/-- C13, witness: three nodes and the input edges (1,2,1), (2,3,1) and the out-of-range
(5,1,7). -/
theorem readEdges_exact_witness :
    (∃ adj, readEdges 3 [(1, 2, 1), (2, 3, 1), (5, 1, 7)] = some adj ∧
      (∀ i : Fin N, adj i = adjSpec 3 [(1, 2, 1), (2, 3, 1), (5, 1, 7)] ((i : Nat) : Int)) ∧
      (∀ (a : Fin N → List (Int × Int)) (e : Int × Int × Int),
        ¬ (1 ≤ e.1 ∧ e.1 ≤ 3 ∧ 1 ≤ e.2.1 ∧ e.2.1 ≤ 3) → addEdge 3 a e = some a) ∧
      (∀ (i : Fin N), ∀ p ∈ adj i, 1 ≤ p.1 ∧ p.1 ≤ 3) ∧
      (∀ (i j : Fin N) (w : Int), i ≠ j →
        (adj i).count (((j : Nat) : Int), w) = (adj j).count (((i : Nat) : Int), w))) ∧
    (readEdges 3 [(1, 2, 1), (2, 3, 1), (5, 1, 7)]).map (fun a => [a 0, a 1, a 2, a 3, a 4]) =
      some [[], [(2, 1)], [(1, 1), (3, 1)], [(2, 1)], []] :=
  ⟨readEdges_exact 3 (by decide) [(1, 2, 1), (2, 3, 1), (5, 1, 7)], by decide⟩

/-! ### Start states and the step-mode flags -/

/-- A fold of a fallible step commutes with a state transformer that the step commutes
with. -/
theorem foldlM_map_comm {α : Type} (f : State → α → Option State) (g : State → State)
    (hf : ∀ st e, f (g st) e = (f st e).map g) :
    ∀ (l : List α) (st : State), l.foldlM f (g st) = (l.foldlM f st).map g := by
  intro l
  induction l with
  | nil => intro st; simp
  | cons e l ih =>
    intro st
    rw [List.foldlM_cons, List.foldlM_cons, hf]
    cases h : f st e with
    | none => simp
    | some st1 => simp [ih]

/-- The neighbour loop of `bfsStep` neither reads nor writes the step-mode flags. -/
theorem bfsPush_flags (a b : Bool) (st : State) (e : Int × Int) :
    bfsPush (setFlags a b st) e = (bfsPush st e).map (setFlags a b) := by
  unfold bfsPush
  cases idx e.1 with
  | none => rfl
  | some j =>
    simp only [Option.some_bind]
    show (if st.visited j = true then _ else _) = _
    split <;> rfl

/-- The neighbour loop of `dfsStep` neither reads nor writes the step-mode flags. -/
theorem dfsPush_flags (a b : Bool) (st : State) (e : Int × Int) :
    dfsPush (setFlags a b st) e = (dfsPush st e).map (setFlags a b) := by
  unfold dfsPush
  cases idx e.1 with
  | none => rfl
  | some j =>
    simp only [Option.some_bind]
    show (if st.visited j = true then _ else _) = _
    split <;> rfl

/-- A relaxation neither reads nor writes the step-mode flags. -/
theorem relax_flags (a b : Bool) (u : Int) (i : Fin N) (st : State) (e : Int × Int) :
    relax u i (setFlags a b st) e = (relax u i st e).map (setFlags a b) := by
  unfold relax
  cases idx e.1 with
  | none => rfl
  | some j =>
    simp only [Option.some_bind]
    show (if st.visited j = true then _ else _) = _
    split
    · rfl
    · show (addInt (st.dist i) e.2).bind _ = _
      cases addInt (st.dist i) e.2 with
      | none => rfl
      | some nd =>
        simp only [Option.some_bind]
        show (if nd < st.dist j then _ else _) = _
        split <;> rfl

/-- A call of `bfsStep` neither reads nor writes the step-mode flags. -/
theorem bfsStep_flags (a b : Bool) (s : State) :
    bfsStep (setFlags a b s) = (bfsStep s).map (setFlags a b) := by
  obtain ⟨adj, nn, sn, en, vis, cur, dist, par, sp, ip, ir, ism, ss, cm, bq, ds, pq⟩ := s
  cases bq with
  | nil => rfl
  | cons u rest =>
    simp only [bfsStep, setFlags]
    cases idx u with
    | none => rfl
    | some i =>
      simp only [Option.some_bind]
      split
      · rfl
      · exact foldlM_map_comm bfsPush (setFlags a b) (bfsPush_flags a b) (adj i)
          ⟨adj, nn, sn, en, Function.update vis i true, u, dist, par, sp, ip, ir, ism, ss, cm,
            rest, ds, pq⟩

/-- A call of `dfsStep` neither reads nor writes the step-mode flags. -/
theorem dfsStep_flags (a b : Bool) (s : State) :
    dfsStep (setFlags a b s) = (dfsStep s).map (setFlags a b) := by
  obtain ⟨adj, nn, sn, en, vis, cur, dist, par, sp, ip, ir, ism, ss, cm, bq, ds, pq⟩ := s
  cases ds with
  | nil => rfl
  | cons u rest =>
    simp only [dfsStep, setFlags]
    cases idx u with
    | none => rfl
    | some i =>
      simp only [Option.some_bind]
      split
      · rfl
      · exact foldlM_map_comm dfsPush (setFlags a b) (dfsPush_flags a b) (adj i).reverse
          ⟨adj, nn, sn, en, Function.update vis i true, u, dist, par, sp, ip, ir, ism, ss, cm,
            bq, rest, pq⟩

/-- A call of `dijkstraStep` neither reads nor writes the step-mode flags. -/
theorem dijkstraStep_flags (fuel : Nat) (a b : Bool) (s : State) :
    dijkstraStep fuel (setFlags a b s) = (dijkstraStep fuel s).map (setFlags a b) := by
  obtain ⟨adj, nn, sn, en, vis, cur, dist, par, sp, ip, ir, ism, ss, cm, bq, ds, pq⟩ := s
  simp only [dijkstraStep, setFlags]
  cases pqTop pq with
  | none =>
    simp only
    cases idx en with
    | none => rfl
    | some e =>
      simp only [Option.some_bind]
      split
      · cases walkParents par fuel en [] with
        | none => rfl
        | some p => rfl
      · rfl
  | some top =>
    simp only
    cases idx top.2 with
    | none => rfl
    | some i =>
      simp only [Option.some_bind]
      split
      · rfl
      · exact foldlM_map_comm (relax top.2 i) (setFlags a b) (relax_flags a b top.2 i) (adj i)
          ⟨adj, nn, sn, en, Function.update vis i true, top.2, dist, par, sp, ip, ir, ism, ss,
            cm, bq, ds, pq.erase top⟩

/-- Repeated calls of a step that ignores the step-mode flags ignore them too. -/
theorem iterStep_flags (step : State → Option State) (a b : Bool)
    (h : ∀ s, step (setFlags a b s) = (step s).map (setFlags a b)) :
    ∀ (n : Nat) (s : State),
      iterStep step n (setFlags a b s) = (iterStep step n s).map (setFlags a b) := by
  intro n
  induction n with
  | zero => intro s; rfl
  | succ n ih =>
    intro s
    simp only [iterStep, h]
    cases step s with
    | none => rfl
    | some s1 => simp [ih]

/-- The three start functions read the prior state only through the graph, the start and
end node and the two step-mode flags, which they pass on unchanged. -/
theorem start_config (p q : State) (h : SameConfig p q) :
    startBFS q = setFlags q.isStepMode q.shouldStep (startBFS p) ∧
    startDFS q = setFlags q.isStepMode q.shouldStep (startDFS p) ∧
    startDijkstra q = (startDijkstra p).map (setFlags q.isStepMode q.shouldStep) := by
  obtain ⟨adj, nn, sn, en, vis, cur, dist, par, sp, ip, ir, ism, ss, cm, bq, ds, pq⟩ := p
  obtain ⟨adj', nn', sn', en', vis', cur', dist', par', sp', ip', ir', ism', ss', cm', bq',
    ds', pq'⟩ := q
  obtain ⟨h1, h2, h3, h4⟩ := h
  simp only at h1 h2 h3 h4
  subst h1; subst h2; subst h3; subst h4
  refine ⟨rfl, rfl, ?_⟩
  simp only [startDijkstra, reset]
  cases idx sn' with
  | none => rfl
  | some i => rfl

/-- C14, counterexample: `scenarioA` and the state after the key `s` hold the same graph and
start node, yet `startBFS` gives different states (`isStepMode` survives the start), and
one timer callback marks node 1 after the first start and nothing after the second. -/
theorem start_fresh_counterexample :
    SameConfig scenarioA (setFlags true true scenarioA) ∧
    keyStep 0 scenarioA = some (setFlags true true scenarioA) ∧
    startBFS (setFlags true true scenarioA) ≠ startBFS scenarioA ∧
    (timer 0 (startBFS scenarioA)).map (fun s => s.visited 1) = some true ∧
    (timer 0 (startBFS (setFlags true true scenarioA))).map (fun s => s.visited 1) =
      some false := by
  refine ⟨⟨rfl, rfl, rfl, rfl⟩, rfl, ?_, by decide, by decide⟩
  intro h
  have h2 := congrArg State.isStepMode h
  revert h2
  decide

/-- C14, amended (a start yields a fresh state up to the step-mode flags): after `startBFS`,
`startDFS` and `startDijkstra` from any prior state, `isRunning` is true, `isPaused` is
false, the mode is the one started, `visited` is all false, `parent` is all -1,
`shortestPath` is empty, `currentNode` is -1, the two other frontiers are empty, the own
frontier holds exactly the start node (with key 0 for Dijkstra) and `dist` is `INF`
everywhere (0 at the start node for Dijkstra).  Two prior states with the same graph, start
and end node give start states that differ at most in `isStepMode` and `shouldStep`, which
no reset or start writes, and any number of step calls from the two start states give
states that again differ at most in these two flags. -/
theorem start_fresh (p : State) :
    ((startBFS p).isRunning = true ∧ (startBFS p).isPaused = false ∧
      (startBFS p).currentMode = TraversalMode.BFS ∧
      (∀ i, (startBFS p).visited i = false) ∧ (∀ i, (startBFS p).parent i = -1) ∧
      (startBFS p).shortestPath = [] ∧ (startBFS p).currentNode = -1 ∧
      (startBFS p).dfsStack = [] ∧ (startBFS p).dijkstraPQ = [] ∧
      (startBFS p).bfsQueue = [p.startNode] ∧ (∀ i, (startBFS p).dist i = INF)) ∧
    ((startDFS p).isRunning = true ∧ (startDFS p).isPaused = false ∧
      (startDFS p).currentMode = TraversalMode.DFS ∧
      (∀ i, (startDFS p).visited i = false) ∧ (∀ i, (startDFS p).parent i = -1) ∧
      (startDFS p).shortestPath = [] ∧ (startDFS p).currentNode = -1 ∧
      (startDFS p).bfsQueue = [] ∧ (startDFS p).dijkstraPQ = [] ∧
      (startDFS p).dfsStack = [p.startNode] ∧ (∀ i, (startDFS p).dist i = INF)) ∧
    (∀ i, idx p.startNode = some i → ∃ s, startDijkstra p = some s ∧
      s.isRunning = true ∧ s.isPaused = false ∧
      s.currentMode = TraversalMode.DIJKSTRA ∧
      (∀ j, s.visited j = false) ∧ (∀ j, s.parent j = -1) ∧
      s.shortestPath = [] ∧ s.currentNode = -1 ∧
      s.bfsQueue = [] ∧ s.dfsStack = [] ∧
      s.dijkstraPQ = [(0, p.startNode)] ∧ s.dist i = 0 ∧ (∀ j, j ≠ i → s.dist j = INF)) ∧
    (∀ q, SameConfig p q →
      startBFS q = setFlags q.isStepMode q.shouldStep (startBFS p) ∧
      startDFS q = setFlags q.isStepMode q.shouldStep (startDFS p) ∧
      startDijkstra q = (startDijkstra p).map (setFlags q.isStepMode q.shouldStep) ∧
      (∀ n, iterStep bfsStep n (startBFS q) =
        (iterStep bfsStep n (startBFS p)).map (setFlags q.isStepMode q.shouldStep)) ∧
      (∀ n, iterStep dfsStep n (startDFS q) =
        (iterStep dfsStep n (startDFS p)).map (setFlags q.isStepMode q.shouldStep)) ∧
      (∀ fuel n, (startDijkstra q).bind (iterStep (dijkstraStep fuel) n) =
        ((startDijkstra p).bind (iterStep (dijkstraStep fuel) n)).map
          (setFlags q.isStepMode q.shouldStep))) := by
  refine ⟨?_, ?_, ?_, ?_⟩
  · simp [startBFS, reset]
  · simp [startDFS, reset]
  · intro i hi
    have hi' : idx (reset p).startNode = some i := hi
    simp only [startDijkstra, hi', Option.some_bind, Option.some.injEq, exists_eq_left']
    simp only [reset, Function.update_same, true_and, implies_true]
    intro j hj
    simp [Function.update_noteq hj]
  · intro q hq
    obtain ⟨h1, h2, h3⟩ := start_config p q hq
    refine ⟨h1, h2, h3, ?_, ?_, ?_⟩
    · intro n
      rw [h1]
      exact iterStep_flags bfsStep _ _ (bfsStep_flags _ _) n _
    · intro n
      rw [h2]
      exact iterStep_flags dfsStep _ _ (dfsStep_flags _ _) n _
    · intro fuel n
      rw [h3]
      cases startDijkstra p with
      | none => rfl
      | some s1 =>
        simp only [Option.map_some', Option.some_bind]
        exact iterStep_flags (dijkstraStep fuel) _ _ (dijkstraStep_flags fuel _ _) n _

/-- C14, witness: a Dijkstra start from the middle of a run (`midRunState`) is fresh, and a
BFS run started there agrees step by step with one started from `scenarioC`. -/
theorem start_fresh_witness :
    (∃ s, startDijkstra midRunState = some s ∧
      s.isRunning = true ∧ s.isPaused = false ∧
      s.currentMode = TraversalMode.DIJKSTRA ∧
      (∀ j, s.visited j = false) ∧ (∀ j, s.parent j = -1) ∧
      s.shortestPath = [] ∧ s.currentNode = -1 ∧
      s.bfsQueue = [] ∧ s.dfsStack = [] ∧
      s.dijkstraPQ = [(0, midRunState.startNode)] ∧ s.dist 1 = 0 ∧
      (∀ j, j ≠ 1 → s.dist j = INF)) ∧
    (∀ n, iterStep bfsStep n (startBFS scenarioC) =
      (iterStep bfsStep n (startBFS midRunState)).map (setFlags false false)) :=
  ⟨(start_fresh midRunState).2.2.1 1 (by decide),
    ((start_fresh midRunState).2.2.2 scenarioC ⟨rfl, rfl, rfl, rfl⟩).2.2.2.1⟩

/-! ### The visited set of BFS and DFS -/

theorem ClosedInv.drop_known {nbrs : Int → List Int} {start : Int} {reach : Int → Prop}
    {t rest : List Int} {u : Int} (h : ClosedInv nbrs start reach t (u :: rest)) (hu : u ∈ t) :
    ClosedInv nbrs start reach t rest := by
  refine ⟨h.nodup, ?_, ?_, h.reach_t, fun v hv => h.reach_q v (List.mem_cons_of_mem _ hv)⟩
  · rcases h.start_known with h1 | h1
    · exact Or.inl h1
    · rcases List.mem_cons.1 h1 with h2 | h2
      · exact Or.inl (h2 ▸ hu)
      · exact Or.inr h2
  · intro a ha v hv
    rcases h.closed a ha v hv with h1 | h1
    · exact Or.inl h1
    · rcases List.mem_cons.1 h1 with h2 | h2
      · exact Or.inl (h2 ▸ hu)
      · exact Or.inr h2

theorem ClosedInv.expand {nbrs : Int → List Int} {start : Int} {reach : Int → Prop}
    {t rest q : List Int} {u : Int} (h : ClosedInv nbrs start reach t (u :: rest))
    (hedge : ∀ a, reach a → ∀ v ∈ nbrs a, reach v) (hu : u ∉ t)
    (h1 : ∀ v ∈ q, v ∈ rest ∨ v ∈ nbrs u) (h2 : ∀ v ∈ rest, v ∈ q)
    (h3 : ∀ v ∈ nbrs u, v ∈ t ++ [u] ∨ v ∈ q) :
    ClosedInv nbrs start reach (t ++ [u]) q := by
  have hru : reach u := h.reach_q u (List.mem_cons_self _ _)
  refine ⟨?_, ?_, ?_, ?_, ?_⟩
  · rw [List.nodup_append]
    refine ⟨h.nodup, List.nodup_singleton u, ?_⟩
    intro a ha hb
    rw [List.mem_singleton] at hb
    exact hu (hb ▸ ha)
  · rcases h.start_known with h4 | h4
    · exact Or.inl (List.mem_append_left _ h4)
    · rcases List.mem_cons.1 h4 with h5 | h5
      · exact Or.inl (by simp [h5])
      · exact Or.inr (h2 _ h5)
  · intro a ha v hv
    rcases List.mem_append.1 ha with h4 | h4
    · rcases h.closed a h4 v hv with h5 | h5
      · exact Or.inl (List.mem_append_left _ h5)
      · rcases List.mem_cons.1 h5 with h6 | h6
        · exact Or.inl (by simp [h6])
        · exact Or.inr (h2 _ h6)
    · rw [List.mem_singleton] at h4
      subst h4
      exact h3 v hv
  · intro v hv
    rcases List.mem_append.1 hv with h4 | h4
    · exact h.reach_t v h4
    · rw [List.mem_singleton] at h4
      exact h4 ▸ hru
  · intro v hv
    rcases h1 v hv with h4 | h4
    · exact h.reach_q v (List.mem_cons_of_mem _ h4)
    · exact hedge u hru v h4

theorem reachable_edge (s : State) (a : Int) (ha : Reachable s a) :
    ∀ v ∈ (neighbors s a).map Prod.fst, Reachable s v := by
  intro v hv
  obtain ⟨e, he, rfl⟩ := List.mem_map.1 hv
  obtain ⟨n, c, hw⟩ := ha
  exact ⟨_, _, Walk.snoc hw he⟩

theorem ClosedInv.complete (s : State) (t : List Int)
    (h : ClosedInv (fun u => (neighbors s u).map Prod.fst) s.startNode (Reachable s) t []) :
    ∀ v, v ∈ t ↔ Reachable s v := by
  intro v
  refine ⟨h.reach_t v, ?_⟩
  rintro ⟨n, c, hw⟩
  induction hw with
  | nil =>
    rcases h.start_known with h1 | h1
    · exact h1
    · simp at h1
  | snoc hw he ih =>
    rcases h.closed _ ih _ (List.mem_map.2 ⟨_, he, rfl⟩) with h1 | h1
    · exact h1
    · simp at h1

theorem bfsStep_closed (s0 : State) (hg : GraphOK s0) (t : List Int) (s s' : State)
    (hadj : s.adj = s0.adj) (hstk : ∀ v ∈ s.bfsQueue, 1 ≤ v ∧ v ≤ s0.numNodes)
    (hvis : ∀ v, v ∈ t ↔ visitedAt s v = true)
    (hC : ClosedInv (fun u => (neighbors s0 u).map Prod.fst) s0.startNode (Reachable s0) t
      s.bfsQueue)
    (hs : bfsStep s = some s') :
    ClosedInv (fun u => (neighbors s0 u).map Prod.fst) s0.startNode (Reachable s0)
      (t ++ newlyVisited s s') s'.bfsQueue := by
  cases hq : s.bfsQueue with
  | nil =>
    obtain ⟨s1, hs1, _, hvv, hst, _⟩ := bfsStep_nil s hq
    rw [hs] at hs1
    cases hs1
    rw [newlyVisited_same s s' hvv, List.append_nil, hst, ← hq]
    exact hC
  | cons u rest =>
    have hu := hstk u (by simp [hq])
    obtain ⟨i, hi⟩ := idx_of_range (v := u) (by omega) (by have := hg.2.1; omega)
    rw [hq] at hC
    by_cases hv : s.visited i = true
    · obtain ⟨s1, hs1, _, hvv, hst, _⟩ := bfsStep_seen s u rest i hq hi hv
      rw [hs] at hs1
      cases hs1
      rw [newlyVisited_same s s' hvv, List.append_nil, hst]
      exact hC.drop_known ((hvis u).2 (by rw [visitedAt_idx s u i hi, hv]))
    · have hv' : s.visited i = false := by simpa using hv
      have hut : u ∉ t := fun h => by
        have := (hvis u).1 h
        rw [visitedAt_idx s u i hi, hv'] at this
        simp at this
      have hnb : neighbors s0 u = s.adj i := by rw [neighbors_idx s0 u i hi, hadj]
      have hidx : ∀ e ∈ s.adj i, ∃ j, idx e.1 = some j := fun e he => by
        have : 1 ≤ e.1 ∧ e.1 ≤ s0.numNodes := by rw [hadj] at he; exact hg.2.2 i e he
        exact idx_of_range (by omega) (by have := hg.2.1; omega)
      obtain ⟨s1, hs1, _, hvv, hst, _⟩ := bfsStep_new s u rest i hq hi hv' hidx
      rw [hs] at hs1
      cases hs1
      have hmem : ∀ v, v ∈ t ++ [u] ↔ visitedAt s' v = true := by
        intro v
        rw [visitedAt_update s s' u i hi hvv v, List.mem_append, hvis v]
        simp [or_comm]
      rw [newlyVisited_update s s' i hv' hvv, ← idx_eq_some.1 hi, hst]
      refine hC.expand (reachable_edge s0) hut ?_ ?_ ?_
      · intro v hv
        simp only [List.mem_append, List.mem_filter] at hv
        rw [hnb]
        tauto
      · intro v hv
        simp [hv]
      · intro v hv
        rw [hnb] at hv
        by_cases hx : visitedAt s' v = true
        · exact Or.inl ((hmem v).2 hx)
        · refine Or.inr ?_
          simp only [List.mem_append, List.mem_filter]
          simp [hx, hv]

theorem dfsStep_closed (s0 : State) (hg : GraphOK s0) (t : List Int) (s s' : State)
    (hadj : s.adj = s0.adj) (hstk : ∀ v ∈ s.dfsStack, 1 ≤ v ∧ v ≤ s0.numNodes)
    (hvis : ∀ v, v ∈ t ↔ visitedAt s v = true)
    (hC : ClosedInv (fun u => (neighbors s0 u).map Prod.fst) s0.startNode (Reachable s0) t
      s.dfsStack)
    (hs : dfsStep s = some s') :
    ClosedInv (fun u => (neighbors s0 u).map Prod.fst) s0.startNode (Reachable s0)
      (t ++ newlyVisited s s') s'.dfsStack := by
  cases hq : s.dfsStack with
  | nil =>
    obtain ⟨s1, hs1, _, hvv, hst, _⟩ := dfsStep_nil s hq
    rw [hs] at hs1
    cases hs1
    rw [newlyVisited_same s s' hvv, List.append_nil, hst, ← hq]
    exact hC
  | cons u rest =>
    have hu := hstk u (by simp [hq])
    obtain ⟨i, hi⟩ := idx_of_range (v := u) (by omega) (by have := hg.2.1; omega)
    rw [hq] at hC
    by_cases hv : s.visited i = true
    · obtain ⟨s1, hs1, _, hvv, hst, _⟩ := dfsStep_seen s u rest i hq hi hv
      rw [hs] at hs1
      cases hs1
      rw [newlyVisited_same s s' hvv, List.append_nil, hst]
      exact hC.drop_known ((hvis u).2 (by rw [visitedAt_idx s u i hi, hv]))
    · have hv' : s.visited i = false := by simpa using hv
      have hut : u ∉ t := fun h => by
        have := (hvis u).1 h
        rw [visitedAt_idx s u i hi, hv'] at this
        simp at this
      have hnb : neighbors s0 u = s.adj i := by rw [neighbors_idx s0 u i hi, hadj]
      have hidx : ∀ e ∈ s.adj i, ∃ j, idx e.1 = some j := fun e he => by
        have : 1 ≤ e.1 ∧ e.1 ≤ s0.numNodes := by rw [hadj] at he; exact hg.2.2 i e he
        exact idx_of_range (by omega) (by have := hg.2.1; omega)
      obtain ⟨s1, hs1, _, hvv, hst, _⟩ := dfsStep_new s u rest i hq hi hv' hidx
      rw [hs] at hs1
      cases hs1
      have hmem : ∀ v, v ∈ t ++ [u] ↔ visitedAt s' v = true := by
        intro v
        rw [visitedAt_update s s' u i hi hvv v, List.mem_append, hvis v]
        simp [or_comm]
      rw [newlyVisited_update s s' i hv' hvv, ← idx_eq_some.1 hi, hst]
      refine hC.expand (reachable_edge s0) hut ?_ ?_ ?_
      · intro v hv
        simp only [List.mem_append, List.mem_filter] at hv
        rw [hnb]
        tauto
      · intro v hv
        simp [hv]
      · intro v hv
        rw [hnb] at hv
        by_cases hx : visitedAt s' v = true
        · exact Or.inl ((hmem v).2 hx)
        · refine Or.inr ?_
          simp only [List.mem_append, List.mem_filter]
          simp [hx, hv]

theorem runTrace_succ (step : State → Option State) :
    ∀ (n : Nat) (s : State) (r : List Int × State), runTrace step n s = some r →
      runTrace step (n + 1) s = some r := by
  intro n
  induction n with
  | zero =>
    intro s r h
    cases hr : s.isRunning with
    | false => simpa [runTrace, hr] using h
    | true => simp [runTrace, hr] at h
  | succ n ih =>
    intro s r h
    cases hr : s.isRunning with
    | false => simpa [runTrace, hr] using h
    | true =>
      rw [runTrace] at h ⊢
      simp only [hr, if_true] at h ⊢
      cases hs : step s with
      | none => simp [hs] at h
      | some s1 =>
        simp only [hs, Option.some_bind] at h ⊢
        cases h1 : runTrace step n s1 with
        | none => simp [h1] at h
        | some r1 =>
          rw [ih s1 r1 h1]
          rw [h1] at h
          exact h

theorem runTrace_mono (step : State → Option State) (n m : Nat) (hnm : n ≤ m) (s : State)
    (r : List Int × State) (h : runTrace step n s = some r) : runTrace step m s = some r := by
  induction m with
  | zero =>
    have : n = 0 := by omega
    subst this
    exact h
  | succ m ih =>
    by_cases hn : n = m + 1
    · subst hn; exact h
    · exact runTrace_succ step m s r (ih (by omega))

theorem bfs_run (s : State) (hg : GraphOK s)
    (hs : 1 ≤ s.startNode ∧ s.startNode ≤ s.numNodes) (n : Nat) (hn : 2 + adjTotal s ≤ n) :
    ∃ tr sf, runTrace bfsStep n (startBFS s) = some (tr, sf) ∧ sf.isRunning = false ∧
      tr.Nodup ∧ (∀ v, v ∈ tr ↔ Reachable s v) ∧
      (∀ v, visitedAt sf v = true ↔ Reachable s v) := by
  obtain ⟨d, hd⟩ := hopDist_fun s
  have hstart : Reachable s s.startNode := ⟨0, 0, Walk.nil _⟩
  have hd0 : d s.startNode = 0 := by
    have := (hd _ hstart).2 0 0 (Walk.nil _)
    omega
  have hq : (startBFS s).bfsQueue = [s.startNode] := by simp [startBFS, reset]
  have h0 : BfsCInv s d [] (startBFS s) := by
    refine ⟨rfl, ?_, ?_, ?_, ?_⟩
    · intro v hv
      rw [hq] at hv
      simp at hv
      subst hv; exact hs
    · intro v
      simp [visitedAt, startBFS, reset]
      split <;> simp
    · simp [startBFS]
    · rw [hq]
      refine ⟨Or.inr (by simp), by simp, by simp, ?_, ?_, ?_, ?_⟩
      · intro v hv; simp at hv; subst hv; exact hstart
      · intro w _ a ha hlt
        simp at ha; subst ha; omega
      · intro p x hp _ hx _
        simp at hp hx; subst hp; subst hx; omega
      · simp [firsts]
  have h1 : ClosedInv (fun u => (neighbors s u).map Prod.fst) s.startNode (Reachable s) []
      (startBFS s).bfsQueue := by
    rw [hq]
    refine ⟨List.nodup_nil, Or.inr (by simp), by simp, by simp, ?_⟩
    intro v hv; simp at hv; subst hv; exact hstart
  have hμ : bfsMeasure (startBFS s) ≤ n := by
    have := pendingWork_le (startBFS s)
    have h2 : adjTotal (startBFS s) = adjTotal s := rfl
    simp only [bfsMeasure] at *
    simp [startBFS, reset] at *
    omega
  obtain ⟨tr, sf, hrun, hf, hP, hC⟩ := runTrace_of_inv bfsStep
    (fun t st => BfsCInv s d t st ∧
      ClosedInv (fun u => (neighbors s u).map Prod.fst) s.startNode (Reachable s) t st.bfsQueue)
    bfsMeasure
    (fun t st hI hr => by
      obtain ⟨s', hs', hI', hlt⟩ := bfsStep_inv s d hg hd t st hI.1 hr
      exact ⟨s', hs', ⟨hI', bfsStep_closed s hg t st s' hI.1.1 hI.1.2.1 hI.1.2.2.1 hI.2 hs'⟩,
        hlt⟩)
    n [] (startBFS s) ⟨h0, h1⟩ hμ
  rw [List.nil_append] at hP hC
  obtain ⟨_, _, hvis, hstk, _⟩ := hP
  rw [hstk hf] at hC
  have hall := ClosedInv.complete s tr hC
  exact ⟨tr, sf, hrun, hf, hC.nodup, hall, fun v => by rw [← hvis v]; exact hall v⟩

theorem dfs_run (s : State) (hg : GraphOK s)
    (hs : 1 ≤ s.startNode ∧ s.startNode ≤ s.numNodes) (n : Nat) (hn : 2 + adjTotal s ≤ n) :
    ∃ tr sf, runTrace dfsStep n (startDFS s) = some (tr, sf) ∧ sf.isRunning = false ∧
      tr.Nodup ∧ (∀ v, v ∈ tr ↔ Reachable s v) ∧
      (∀ v, visitedAt sf v = true ↔ Reachable s v) := by
  have hstart : Reachable s s.startNode := ⟨0, 0, Walk.nil _⟩
  have hq : (startDFS s).dfsStack = [s.startNode] := by simp [startDFS, reset]
  have h0 : DfsInv s N [] (startDFS s) := by
    refine ⟨rfl, ?_, ?_, ?_, ?_, ?_⟩
    · intro v hv
      rw [hq] at hv
      simp at hv
      subst hv; exact hs
    · intro v
      simp [visitedAt, startDFS, reset]
      split <;> simp
    · simp
    · simp [startDFS]
    · simp [startDFS, reset, dfsRefList]
  have h1 : ClosedInv (fun u => (neighbors s u).map Prod.fst) s.startNode (Reachable s) []
      (startDFS s).dfsStack := by
    rw [hq]
    refine ⟨List.nodup_nil, Or.inr (by simp), by simp, by simp, ?_⟩
    intro v hv; simp at hv; subst hv; exact hstart
  have hμ : dfsMeasure (startDFS s) ≤ n := by
    have := pendingWork_le (startDFS s)
    have h2 : adjTotal (startDFS s) = adjTotal s := rfl
    simp only [dfsMeasure] at *
    simp [startDFS, reset] at *
    omega
  obtain ⟨tr, sf, hrun, hf, hP, hC⟩ := runTrace_of_inv dfsStep
    (fun t st => DfsInv s N t st ∧
      ClosedInv (fun u => (neighbors s u).map Prod.fst) s.startNode (Reachable s) t st.dfsStack)
    dfsMeasure
    (fun t st hI hr => by
      obtain ⟨s', hs', hI', hlt⟩ := dfsStep_inv s N (by simp only [N]; omega) hg t st hI.1 hr
      exact ⟨s', hs', ⟨hI', dfsStep_closed s hg t st s' hI.1.1 hI.1.2.1 hI.1.2.2.1 hI.2 hs'⟩,
        hlt⟩)
    n [] (startDFS s) ⟨h0, h1⟩ hμ
  rw [List.nil_append] at hP hC
  obtain ⟨_, _, hvis, _, hstk, _⟩ := hP
  rw [hstk hf] at hC
  have hall := ClosedInv.complete s tr hC
  exact ⟨tr, sf, hrun, hf, hC.nodup, hall, fun v => by rw [← hvis v]; exact hall v⟩

theorem run_completed (step : State → Option State) (s0 : State) (b : Nat)
    (P : List Int → State → Prop)
    (h : ∀ n, b ≤ n → ∃ tr sf, runTrace step n s0 = some (tr, sf) ∧ P tr sf)
    (n : Nat) (tr : List Int) (sf : State) (hrun : runTrace step n s0 = some (tr, sf)) :
    P tr sf := by
  obtain ⟨tr1, sf1, h1, hP⟩ := h (max n b) (Nat.le_max_right _ _)
  have h2 := runTrace_mono step n (max n b) (Nat.le_max_left _ _) s0 _ hrun
  rw [h1] at h2
  cases h2
  exact hP

/-- C15 (BFS and DFS visit exactly the reachable set, each node once): on a graph whose
neighbour ids are in range and for a start node in `[1, numNodes]`, the run `startBFS()`
then `bfsStep()` until `isRunning` is false completes (within `2 + adjTotal s` steps), and
whenever it has completed, `visited[v]` is true exactly for the nodes `v` reachable from the
start node through the adjacency lists, every reachable node occurs exactly once in the
sequence of newly marked nodes of the steps, and no other node occurs in it.  The same
holds for `startDFS()` and `dfsStep()`. -/
theorem visits_reachable_once (s : State) (hg : GraphOK s)
    (hs : 1 ≤ s.startNode ∧ s.startNode ≤ s.numNodes) :
    ((∀ n, 2 + adjTotal s ≤ n → ∃ r, runTrace bfsStep n (startBFS s) = some r) ∧
      ∀ n tr sf, runTrace bfsStep n (startBFS s) = some (tr, sf) →
        sf.isRunning = false ∧ (∀ v, visitedAt sf v = true ↔ Reachable s v) ∧
        (∀ v, Reachable s v → tr.count v = 1) ∧ (∀ v, ¬ Reachable s v → tr.count v = 0)) ∧
    ((∀ n, 2 + adjTotal s ≤ n → ∃ r, runTrace dfsStep n (startDFS s) = some r) ∧
      ∀ n tr sf, runTrace dfsStep n (startDFS s) = some (tr, sf) →
        sf.isRunning = false ∧ (∀ v, visitedAt sf v = true ↔ Reachable s v) ∧
        (∀ v, Reachable s v → tr.count v = 1) ∧ (∀ v, ¬ Reachable s v → tr.count v = 0)) := by
  have hcount : ∀ (tr : List Int) (sf : State), (sf.isRunning = false ∧
      tr.Nodup ∧ (∀ v, v ∈ tr ↔ Reachable s v) ∧
      (∀ v, visitedAt sf v = true ↔ Reachable s v)) →
      sf.isRunning = false ∧ (∀ v, visitedAt sf v = true ↔ Reachable s v) ∧
        (∀ v, Reachable s v → tr.count v = 1) ∧ (∀ v, ¬ Reachable s v → tr.count v = 0) := by
    rintro tr sf ⟨h1, h2, h3, h4⟩
    refine ⟨h1, h4, ?_, ?_⟩
    · intro v hv
      exact List.count_eq_one_of_mem h2 ((h3 v).2 hv)
    · intro v hv
      exact List.count_eq_zero_of_not_mem (fun h => hv ((h3 v).1 h))
  refine ⟨⟨?_, ?_⟩, ⟨?_, ?_⟩⟩
  · intro n hn
    obtain ⟨tr, sf, h, _⟩ := bfs_run s hg hs n hn
    exact ⟨_, h⟩
  · intro n tr sf hrun
    exact hcount tr sf (run_completed bfsStep (startBFS s) (2 + adjTotal s) _
      (fun m hm => bfs_run s hg hs m hm) n tr sf hrun)
  · intro n hn
    obtain ⟨tr, sf, h, _⟩ := dfs_run s hg hs n hn
    exact ⟨_, h⟩
  · intro n tr sf hrun
    exact hcount tr sf (run_completed dfsStep (startDFS s) (2 + adjTotal s) _
      (fun m hm => dfs_run s hg hs m hm) n tr sf hrun)

/-- C15, witness (scenario A): nodes 1..3, edges (1,2,1), (2,3,1), start 1; both runs mark
1, 2 and 3 once each. -/
theorem visits_reachable_once_witness :
    (((∀ n, 2 + adjTotal scenarioA ≤ n →
        ∃ r, runTrace bfsStep n (startBFS scenarioA) = some r) ∧
      ∀ n tr sf, runTrace bfsStep n (startBFS scenarioA) = some (tr, sf) →
        sf.isRunning = false ∧ (∀ v, visitedAt sf v = true ↔ Reachable scenarioA v) ∧
        (∀ v, Reachable scenarioA v → tr.count v = 1) ∧
        (∀ v, ¬ Reachable scenarioA v → tr.count v = 0)) ∧
    ((∀ n, 2 + adjTotal scenarioA ≤ n →
        ∃ r, runTrace dfsStep n (startDFS scenarioA) = some r) ∧
      ∀ n tr sf, runTrace dfsStep n (startDFS scenarioA) = some (tr, sf) →
        sf.isRunning = false ∧ (∀ v, visitedAt sf v = true ↔ Reachable scenarioA v) ∧
        (∀ v, Reachable scenarioA v → tr.count v = 1) ∧
        (∀ v, ¬ Reachable scenarioA v → tr.count v = 0))) ∧
    (runTrace bfsStep 6 (startBFS scenarioA)).map Prod.fst = some [1, 2, 3] ∧
    (runTrace dfsStep 6 (startDFS scenarioA)).map Prod.fst = some [1, 2, 3] ∧
    (runTrace bfsStep 6 (startBFS scenarioA)).map
      (fun r => [visitedAt r.2 0, visitedAt r.2 1, visitedAt r.2 2, visitedAt r.2 3,
        visitedAt r.2 4]) = some [false, true, true, true, false] :=
  ⟨visits_reachable_once scenarioA (by decide) (by decide), by decide, by decide, by decide⟩

/-! ### Range invariant of Dijkstra runs and termination of all runs -/

theorem relax_safe (s2 : State) (u : Int) (n : Int) (i : Fin N) (st st' : State)
    (e : Int × Int) (h : relax u i st e = some st') (he : 1 ≤ e.1 ∧ e.1 ≤ n)
    (hI : RelaxSafe s2 u n st) : RelaxSafe s2 u n st' := by
  rcases relax_cases u i st st' e h with h1 | ⟨j, hj, hv, _, h1⟩
  · rw [h1]; exact hI
  · obtain ⟨a1, a2, a3, a4, a5, a6, a7, a8⟩ := hI
    subst h1
    refine ⟨a1, a2, a3, a4, a5, a6, ?_, ?_⟩
    · intro x hx
      simp only [List.mem_cons] at hx
      rcases hx with hx | hx
      · subst hx; exact he
      · exact a7 x hx
    · intro k
      by_cases hk : k = j
      · subst hk
        right
        simp only [Function.update_same, true_and]
        rw [← a3]; exact hv
      · simp only [Function.update_noteq hk]
        exact a8 k

theorem relax_bound (u : Int) (i : Fin N) (st st' : State) (e : Int × Int)
    (h : relax u i st e = some st') (he : 0 ≤ e.2) (hB : DistBound st) : DistBound st' := by
  rcases relax_cases u i st st' e h with h1 | ⟨j, hj, hv, hlt, h1⟩
  · rw [h1]; exact hB
  · subst h1
    intro k
    by_cases hk : k = j
    · subst hk
      simp only [Function.update_same]
      have h1 := hB i
      have h2 := hB k
      omega
    · simp only [Function.update_noteq hk]
      exact hB k

theorem relax_defined (u : Int) (i : Fin N) (st : State) (e : Int × Int)
    (hj : ∃ j, idx e.1 = some j) (he : 0 ≤ e.2 ∧ e.2 ≤ INT_MAX - INF) (hB : DistBound st) :
    ∃ st', relax u i st e = some st' ∧
      st'.dijkstraPQ.length ≤ st.dijkstraPQ.length + 1 := by
  obtain ⟨j, hj⟩ := hj
  have hadd : addInt (st.dist i) e.2 = some (st.dist i + e.2) := by
    have h1 := hB i
    have h2 : INT_MIN ≤ st.dist i + e.2 ∧ st.dist i + e.2 ≤ INT_MAX := by
      simp only [INT_MIN, INT_MAX, INF] at *
      omega
    simp [addInt, h2]
  by_cases hv : st.visited j = true
  · exact ⟨st, by simp [relax, hj, hv], by omega⟩
  · by_cases hlt : st.dist i + e.2 < st.dist j
    · exact ⟨{ st with
          dist := Function.update st.dist j (st.dist i + e.2)
          parent := Function.update st.parent j u
          dijkstraPQ := (st.dist i + e.2, e.1) :: st.dijkstraPQ },
        by simp [relax, hj, hv, hadd, hlt], by simp⟩
    · exact ⟨st, by simp [relax, hj, hv, hadd, hlt], by omega⟩

theorem relaxSafe_refl (s2 : State) (u : Int) (n : Int)
    (h : ∀ e ∈ s2.dijkstraPQ, 1 ≤ e.2 ∧ e.2 ≤ n) : RelaxSafe s2 u n s2 :=
  ⟨rfl, rfl, rfl, rfl, rfl, rfl, h, fun _ => Or.inl rfl⟩

theorem relax_loop_safe (s2 s' : State) (u : Int) (n : Int) (i : Fin N)
    (es : List (Int × Int)) (hes : ∀ e ∈ es, 1 ≤ e.1 ∧ e.1 ≤ n)
    (hq : ∀ e ∈ s2.dijkstraPQ, 1 ≤ e.2 ∧ e.2 ≤ n)
    (h : es.foldlM (relax u i) s2 = some s') : RelaxSafe s2 u n s' :=
  foldlM_inv_mem (relax u i) (RelaxSafe s2 u n) es
    (fun b a b' ha hb hP => relax_safe s2 u n i b b' a hb (hes a ha) hP)
    s2 s' h (relaxSafe_refl s2 u n hq)

theorem relax_loop_defined (s2 : State) (u : Int) (i : Fin N) (es : List (Int × Int))
    (hidx : ∀ e ∈ es, ∃ j, idx e.1 = some j)
    (hw : ∀ e ∈ es, 0 ≤ e.2 ∧ e.2 ≤ INT_MAX - INF) (hB : DistBound s2) :
    ∃ s', es.foldlM (relax u i) s2 = some s' ∧ DistBound s' ∧
      s'.dijkstraPQ.length ≤ s2.dijkstraPQ.length + es.length := by
  obtain ⟨s', h1, h2, h3⟩ := foldlM_steps (relax u i)
    (fun pre st => DistBound st ∧ st.dijkstraPQ.length ≤ s2.dijkstraPQ.length + pre.length)
    es
    (fun pre a b ha hP => by
      obtain ⟨b', hb', hlen⟩ := relax_defined u i b a (hidx a ha) (hw a ha) hP.1
      refine ⟨b', hb', relax_bound u i b b' a hb' (hw a ha).1 hP.1, ?_⟩
      have := hP.2
      simp only [List.length_append, List.length_singleton]
      omega)
    es [] rfl s2 ⟨hB, by simp⟩
  exact ⟨s', h1, h2, h3⟩

theorem walkParents_range (parent : Fin N → Int) (n : Int)
    (hpar : ∀ j, parent j = -1 ∨ (1 ≤ parent j ∧ parent j ≤ n)) :
    ∀ (fuel : Nat) (curr : Int) (acc p : List Int), walkParents parent fuel curr acc = some p →
      (curr = -1 ∨ (1 ≤ curr ∧ curr ≤ n)) → (∀ v ∈ acc, 1 ≤ v ∧ v ≤ n) →
      ∀ v ∈ p, 1 ≤ v ∧ v ≤ n := by
  intro fuel
  induction fuel with
  | zero =>
    intro curr acc p h _ hacc
    simp only [walkParents] at h
    split at h
    · cases h; exact hacc
    · simp at h
  | succ fuel ih =>
    intro curr acc p h hc hacc
    simp only [walkParents] at h
    split at h
    · cases h; exact hacc
    · rename_i hne
      simp only [Option.bind_eq_some] at h
      obtain ⟨i, _, h⟩ := h
      refine ih (parent i) (acc ++ [curr]) p h (hpar i) ?_
      intro v hv
      rcases List.mem_append.1 hv with h1 | h1
      · exact hacc v h1
      · rw [List.mem_singleton] at h1
        rcases hc with h2 | h2
        · exact absurd h2 hne
        · rw [h1]; exact h2

theorem walkParents_defined (parent : Fin N → Int) (t : List Int)
    (hidx : ∀ v ∈ t, ∃ i, idx v = some i) (hpo : ParentOrder t parent) :
    ∀ (k : Nat) (curr : Int) (fuel : Nat) (acc : List Int), curr ∈ t → t.indexOf curr ≤ k →
      k + 1 ≤ fuel → ∃ p, walkParents parent fuel curr acc = some p := by
  intro k
  induction k with
  | zero =>
    intro curr fuel acc hc hk hf
    obtain ⟨i, hi⟩ := hidx curr hc
    have hci := idx_eq_some.1 hi
    have hne : curr ≠ -1 := by omega
    obtain ⟨f, rfl⟩ : ∃ f, fuel = f + 1 := ⟨fuel - 1, by omega⟩
    rw [walkParents_step parent f curr i acc hne hi]
    rcases hpo i with h1 | ⟨_, h2⟩
    · rw [h1]; exact ⟨_, walkParents_done parent f _⟩
    · have := h2 (hci ▸ hc)
      rw [← hci] at this
      omega
  | succ k ih =>
    intro curr fuel acc hc hk hf
    obtain ⟨i, hi⟩ := hidx curr hc
    have hci := idx_eq_some.1 hi
    have hne : curr ≠ -1 := by omega
    obtain ⟨f, rfl⟩ : ∃ f, fuel = f + 1 := ⟨fuel - 1, by omega⟩
    rw [walkParents_step parent f curr i acc hne hi]
    rcases hpo i with h1 | ⟨h1, h2⟩
    · rw [h1]; exact ⟨_, walkParents_done parent f _⟩
    · have := h2 (hci ▸ hc)
      rw [← hci] at this
      exact ih (parent i) f _ h1 (by omega) (by omega)

theorem walkParents_from (parent : Fin N → Int) (t : List Int)
    (hidx : ∀ v ∈ t, ∃ i, idx v = some i) (hpo : ParentOrder t parent)
    (v : Int) (e : Fin N) (he : idx v = some e) (fuel : Nat) (hf : t.length + 1 ≤ fuel) :
    ∃ p, walkParents parent fuel v [] = some p := by
  have hve := idx_eq_some.1 he
  have hne : v ≠ -1 := by omega
  obtain ⟨f, rfl⟩ : ∃ f, fuel = f + 1 := ⟨fuel - 1, by omega⟩
  rw [walkParents_step parent f v e [] hne he]
  rcases hpo e with h1 | ⟨h1, _⟩
  · rw [h1]; exact ⟨_, walkParents_done parent f _⟩
  · have hlt := List.indexOf_lt_length.2 h1
    exact walkParents_defined parent t hidx hpo (t.length - 1) (parent e) f _ h1
      (by omega) (by omega)

/-- Shape of a call of `dijkstraStep` that returns. -/
theorem dijkstraStep_shape (fuel : Nat) (s s' : State) (h : dijkstraStep fuel s = some s') :
    (pqTop s.dijkstraPQ = none ∧
      (s' = { s with isRunning := false, currentNode := -1 } ∨
        ∃ p, walkParents s.parent fuel s.endNode [] = some p ∧
          s' = { s with isRunning := false, currentNode := -1, shortestPath := p.reverse })) ∨
    (∃ top i, pqTop s.dijkstraPQ = some top ∧ idx top.2 = some i ∧ s.visited i = true ∧
      s' = { s with dijkstraPQ := s.dijkstraPQ.erase top, currentNode := top.2 }) ∨
    (∃ top i, pqTop s.dijkstraPQ = some top ∧ idx top.2 = some i ∧ s.visited i = false ∧
      (s.adj i).foldlM (relax top.2 i)
        { s with
          dijkstraPQ := s.dijkstraPQ.erase top
          currentNode := top.2
          visited := Function.update s.visited i true } = some s') := by
  unfold dijkstraStep at h
  split at h
  · rename_i htop
    left
    refine ⟨htop, ?_⟩
    simp only [Option.bind_eq_some] at h
    obtain ⟨e, _, he⟩ := h
    split at he
    · simp only [Option.bind_eq_some] at he
      obtain ⟨p, hp, hp2⟩ := he
      simp at hp2; subst hp2
      exact Or.inr ⟨p, hp, rfl⟩
    · simp at he; subst he
      exact Or.inl rfl
  · rename_i top htop
    right
    simp only [Option.bind_eq_some] at h
    obtain ⟨i, hi, hk⟩ := h
    split at hk
    · rename_i hv
      left
      simp at hk; subst hk
      exact ⟨top, i, htop, hi, hv, rfl⟩
    · rename_i hv
      right
      exact ⟨top, i, htop, hi, by simpa using hv, hk⟩

theorem ParentOrder.after_visit (t : List Int) (u : Int) (i : Fin N) (hui : u = ((i : Nat) : Int))
    (old new : Fin N → Int) (visited : Fin N → Bool)
    (hvis : ∀ j : Fin N, ((j : Nat) : Int) ∈ t → visited j = true)
    (hpo : ParentOrder t old)
    (hnew : ∀ j, new j = old j ∨ (new j = u ∧ j ≠ i ∧ visited j = false)) :
    ParentOrder (t ++ [u]) new := by
  intro j
  rcases hnew j with h1 | ⟨h1, hji, hvj⟩
  · rw [h1]
    rcases hpo j with h2 | ⟨h2, h3⟩
    · exact Or.inl h2
    · refine Or.inr ⟨List.mem_append_left _ h2, ?_⟩
      intro _
      rw [List.indexOf_append_of_mem h2]
      by_cases hjt : ((j : Nat) : Int) ∈ t
      · rw [List.indexOf_append_of_mem hjt]
        exact h3 hjt
      · rw [List.indexOf_append_of_not_mem hjt]
        have := List.indexOf_lt_length.2 h2
        omega
  · refine Or.inr ⟨by simp [h1], ?_⟩
    intro hj
    exfalso
    rcases List.mem_append.1 hj with h2 | h2
    · have := hvis j h2
      rw [hvj] at this
      exact Bool.false_ne_true this
    · rw [List.mem_singleton, hui] at h2
      exact hji (Fin.ext (by exact_mod_cast h2))

theorem dijkstraStep_safe (s0 : State) (hg : GraphOK s0)
    (hend : 1 ≤ s0.endNode ∧ s0.endNode ≤ s0.numNodes) (fuel : Nat) (t : List Int)
    (s s' : State) (hI : DijSafe s0 t s) (hs : dijkstraStep fuel s = some s') :
    DijSafe s0 (t ++ newlyVisited s s') s' := by
  obtain ⟨hadj, hen, hpq, hvis, htr, hnd, hpo, hcur, hsp⟩ := hI
  rcases dijkstraStep_shape fuel s s' hs with
    ⟨_, h1 | ⟨p, hp, h1⟩⟩ | ⟨top, i, htop, hi, hv, h1⟩ | ⟨top, i, htop, hi, hv, hfold⟩
  · have hnv : newlyVisited s s' = [] := by rw [h1]; exact newlyVisited_same s _ rfl
    rw [hnv, List.append_nil, h1]
    exact ⟨hadj, hen, hpq, hvis, htr, hnd, hpo, Or.inl rfl, hsp⟩
  · have hnv : newlyVisited s s' = [] := by rw [h1]; exact newlyVisited_same s _ rfl
    rw [hnv, List.append_nil, h1]
    refine ⟨hadj, hen, hpq, hvis, htr, hnd, hpo, Or.inl rfl, ?_⟩
    intro v hv
    have hv' : v ∈ p := List.mem_reverse.1 hv
    refine walkParents_range s.parent s0.numNodes
      (fun j => (hpo j).imp id (fun h => htr _ h.1)) fuel s.endNode [] p hp
      (Or.inr (by rw [hen]; exact hend)) (by simp) v hv'
  · have hnv : newlyVisited s s' = [] := by rw [h1]; exact newlyVisited_same s _ rfl
    have htm := (pqTop_spec _ _ htop).1
    rw [hnv, List.append_nil, h1]
    exact ⟨hadj, hen, fun e he => hpq e (List.mem_of_mem_erase he), hvis, htr, hnd, hpo,
      Or.inr (hpq top htm), hsp⟩
  · have htm := (pqTop_spec _ _ htop).1
    have hu := hpq top htm
    have hui := idx_eq_some.1 hi
    have hes : ∀ e ∈ s.adj i, 1 ≤ e.1 ∧ e.1 ≤ s0.numNodes := fun e he => by
      rw [hadj] at he; exact hg.2.2 i e he
    have hRS := relax_loop_safe _ s' top.2 s0.numNodes i (s.adj i) hes
      (fun e he => hpq e (List.mem_of_mem_erase he)) hfold
    obtain ⟨a1, a2, a3, _, a5, a6, a7, a8⟩ := hRS
    have hvv : s'.visited = Function.update s.visited i true := a3
    have hut : top.2 ∉ t := fun h => by
      have := (hvis top.2).1 h
      rw [visitedAt_idx s top.2 i hi, hv] at this
      simp at this
    have hmem : ∀ v, v ∈ t ++ [top.2] ↔ visitedAt s' v = true := by
      intro v
      rw [visitedAt_update s s' top.2 i hi hvv v, List.mem_append, hvis v]
      simp [or_comm]
    rw [newlyVisited_update s s' i hv hvv, ← hui]
    refine ⟨a1.trans hadj, a2.trans hen, a7, hmem, ?_, ?_, ?_, Or.inr (by rw [a5]; exact hu),
      by rw [a6]; exact hsp⟩
    · intro v hv
      rcases List.mem_append.1 hv with h4 | h4
      · exact htr v h4
      · rw [List.mem_singleton] at h4
        rw [h4]; exact hu
    · rw [List.nodup_append]
      refine ⟨hnd, List.nodup_singleton _, ?_⟩
      intro a ha hb
      rw [List.mem_singleton] at hb
      exact hut (hb ▸ ha)
    · refine ParentOrder.after_visit t top.2 i hui s.parent s'.parent s.visited ?_ hpo ?_
      · intro j hj
        have := (hvis _).1 hj
        rwa [visitedAt_cast] at this
      · intro j
        rcases a8 j with h4 | ⟨h4, h5⟩
        · exact Or.inl h4
        · refine Or.inr ⟨h4, ?_⟩
          have h6 : Function.update s.visited i true j = false := h5
          by_cases hji : j = i
          · subst hji; simp at h6
          · rw [Function.update_noteq hji] at h6
            exact ⟨hji, h6⟩

theorem dijkstraStep_total (s0 : State) (hg : GraphOK s0) (hw : WeightsOK s0)
    (hend : 1 ≤ s0.endNode ∧ s0.endNode ≤ s0.numNodes) (fuel : Nat) (hfuel : N ≤ fuel)
    (t : List Int) (s : State) (hI : DijSafe s0 t s) (hB : DistBound s)
    (hr : s.isRunning = true) :
    ∃ s', dijkstraStep fuel s = some s' ∧ DistBound s' ∧ dijMeasure s' < dijMeasure s := by
  obtain ⟨hadj, hen, hpq, hvis, htr, hnd, hpo, _, _⟩ := hI
  have hn20 := hg.2.1
  cases htop : pqTop s.dijkstraPQ with
  | none =>
    have hq : s.dijkstraPQ = [] := (pqTop_eq_none _).1 htop
    obtain ⟨e, he⟩ := idx_of_range (v := s.endNode) (by rw [hen]; omega) (by rw [hen]; omega)
    by_cases hd : s.dist e = INF
    · obtain ⟨s', hs', ha, _, hvv, hdd, _, hqq, _, hrn⟩ :=
        dijkstraStep_empty_inf fuel s e htop he hd
      refine ⟨s', hs', fun j => by rw [hdd]; exact hB j, ?_⟩
      have := pendingWork_same s s' hvv ha
      simp [dijMeasure, hr, hrn, this, hqq, hq]
    · have hidx : ∀ v ∈ t, ∃ i, idx v = some i := fun v hv => by
        have := htr v hv
        exact idx_of_range (by omega) (by omega)
      have hlen := nodup_range_length s0.numNodes hn20 t hnd htr
      obtain ⟨p, hp⟩ := walkParents_from s.parent t hidx hpo s.endNode e he fuel
        (by simp only [N] at hfuel; omega)
      obtain ⟨s', hs', ha, _, hvv, hdd, _, hqq, _, hrn⟩ :=
        dijkstraStep_empty_fin fuel s e p htop he hd hp
      refine ⟨s', hs', fun j => by rw [hdd]; exact hB j, ?_⟩
      have := pendingWork_same s s' hvv ha
      simp [dijMeasure, hr, hrn, this, hqq, hq]
  | some top =>
    have htm := (pqTop_spec _ _ htop).1
    have hu := hpq top htm
    obtain ⟨i, hi⟩ := idx_of_range (v := top.2) (by omega) (by omega)
    have hlen1 := List.length_erase_of_mem htm
    have hpos : 0 < s.dijkstraPQ.length := List.length_pos_of_mem htm
    by_cases hv : s.visited i = true
    · obtain ⟨s', hs', ha, _, hvv, hdd, _, hqq, _, hrn⟩ :=
        dijkstraStep_seen fuel s top i htop hi hv
      refine ⟨s', hs', fun j => by rw [hdd]; exact hB j, ?_⟩
      have := pendingWork_same s s' hvv ha
      simp only [dijMeasure, hr, hrn, this, hqq, hlen1, if_true]
      omega
    · have hv' : s.visited i = false := by simpa using hv
      have hes : ∀ e ∈ s.adj i, 1 ≤ e.1 ∧ e.1 ≤ s0.numNodes := fun e he => by
        rw [hadj] at he; exact hg.2.2 i e he
      have hidx : ∀ e ∈ s.adj i, ∃ j, idx e.1 = some j := fun e he => by
        have := hes e he
        exact idx_of_range (by omega) (by omega)
      have hwe : ∀ e ∈ s.adj i, 0 ≤ e.2 ∧ e.2 ≤ INT_MAX - INF := fun e he => by
        rw [hadj] at he; exact hw i e he
      obtain ⟨s', hfold, hB', hlen⟩ := relax_loop_defined
        { s with
          dijkstraPQ := s.dijkstraPQ.erase top
          currentNode := top.2
          visited := Function.update s.visited i true } top.2 i (s.adj i) hidx hwe hB
      obtain ⟨a1, _, a3, a4, _, _, _, _⟩ := relax_loop_safe _ s' top.2 s0.numNodes i (s.adj i)
        hes (fun e he => hpq e (List.mem_of_mem_erase he)) hfold
      have hvv : s'.visited = Function.update s.visited i true := a3
      have ha : s'.adj = s.adj := a1
      have hrn : s'.isRunning = s.isRunning := a4
      have hlen' : s'.dijkstraPQ.length ≤ (s.dijkstraPQ.erase top).length + (s.adj i).length :=
        hlen
      refine ⟨s', ?_, hB', ?_⟩
      · simp only [dijkstraStep, htop, hi, hv', Option.some_bind, Bool.false_eq_true, if_false]
        exact hfold
      · have hp := pendingWork_update s s' i hv' hvv ha
        simp only [dijMeasure, hr, hrn, if_true]
        omega

theorem runTrace_iter (step : State → Option State) :
    ∀ (n : Nat) (s : State) (tr : List Int) (sf : State), runTrace step n s = some (tr, sf) →
      ∃ k, k ≤ n ∧ iterStep step k s = some sf := by
  intro n
  induction n with
  | zero =>
    intro s tr sf h
    cases hr : s.isRunning with
    | false =>
      simp [runTrace, hr] at h
      exact ⟨0, le_rfl, by rw [h.2]; rfl⟩
    | true => simp [runTrace, hr] at h
  | succ n ih =>
    intro s tr sf h
    cases hr : s.isRunning with
    | false =>
      simp [runTrace, hr] at h
      exact ⟨0, Nat.zero_le _, by rw [h.2]; rfl⟩
    | true =>
      rw [runTrace] at h
      simp only [hr, if_true, Option.bind_eq_some, Option.map_eq_some'] at h
      obtain ⟨s1, hs1, r, hr1, hr2⟩ := h
      have hsf : r.2 = sf := (Prod.mk.inj hr2).2
      obtain ⟨k, hk, hk2⟩ := ih s1 r.1 r.2 hr1
      rw [hsf] at hk2
      exact ⟨k + 1, by omega, by simp [iterStep, hs1, hk2]⟩

theorem startDijkstra_safe (s : State) (hn : s.numNodes ≤ 20)
    (hs : 1 ≤ s.startNode ∧ s.startNode ≤ s.numNodes) :
    ∃ s1, startDijkstra s = some s1 ∧ DijSafe s [] s1 ∧ DistBound s1 ∧
      dijMeasure s1 ≤ 2 + adjTotal s := by
  obtain ⟨i, hi⟩ := idx_of_range (v := s.startNode) (by omega) (by omega)
  obtain ⟨s1, hs1⟩ : ∃ s1 : State, s1 = { reset s with
      currentMode := TraversalMode.DIJKSTRA
      dist := Function.update (reset s).dist i 0
      dijkstraPQ := (0, (reset s).startNode) :: (reset s).dijkstraPQ
      isRunning := true } := ⟨_, rfl⟩
  have hstart : startDijkstra s = some s1 := by
    rw [hs1]
    have hi' : idx (reset s).startNode = some i := hi
    simp only [startDijkstra, hi', Option.some_bind]
  have hq1 : s1.dijkstraPQ = [(0, s.startNode)] := by rw [hs1]; rfl
  have hv1 : s1.visited = fun _ => false := by rw [hs1]; rfl
  have hp1 : s1.parent = fun _ => -1 := by rw [hs1]; rfl
  have hd1 : s1.dist = Function.update (fun _ => INF) i 0 := by rw [hs1]; rfl
  refine ⟨s1, hstart, ?_, ?_, ?_⟩
  · refine ⟨by rw [hs1]; rfl, by rw [hs1]; rfl, ?_, ?_, by simp, List.nodup_nil, ?_,
      Or.inl (by rw [hs1]; rfl), by rw [hs1]; simp [reset]⟩
    · intro e he
      rw [hq1] at he
      simp at he
      subst he
      exact hs
    · intro v
      simp [visitedAt, hv1]
      split <;> simp
    · intro j
      left
      rw [hp1]
  · intro j
    rw [hd1]
    by_cases hj : j = i
    · subst hj; simp [INF]
    · simp [Function.update_noteq hj, INF]
  · have h1 := pendingWork_le s1
    have h2 : adjTotal s1 = adjTotal s := by rw [hs1]; rfl
    have h3 : s1.isRunning = true := by rw [hs1]
    simp only [dijMeasure, hq1, h3, List.length_singleton, if_true]
    omega

theorem dijkstra_total_run (s : State) (hg : GraphOK s) (hw : WeightsOK s)
    (hs : 1 ≤ s.startNode ∧ s.startNode ≤ s.numNodes)
    (hend : 1 ≤ s.endNode ∧ s.endNode ≤ s.numNodes)
    (fuel : Nat) (hfuel : N ≤ fuel) (n : Nat) (hn : 2 + adjTotal s ≤ n) :
    ∃ s1 tr sf, startDijkstra s = some s1 ∧
      runTrace (dijkstraStep fuel) n s1 = some (tr, sf) ∧ sf.isRunning = false ∧
      DijSafe s tr sf := by
  obtain ⟨s1, hstart, h0, hB, hμ⟩ := startDijkstra_safe s hg.2.1 hs
  obtain ⟨tr, sf, hrun, hf, hP⟩ := runTrace_of_inv (dijkstraStep fuel)
    (fun t st => DijSafe s t st ∧ DistBound st) dijMeasure
    (fun t st hI hr => by
      obtain ⟨s', hs', hB', hlt⟩ := dijkstraStep_total s hg hw hend fuel hfuel t st hI.1 hI.2 hr
      exact ⟨s', hs', ⟨dijkstraStep_safe s hg hend fuel t st s' hI.1 hs', hB'⟩, hlt⟩)
    n [] s1 ⟨h0, hB⟩ (by omega)
  exact ⟨s1, tr, sf, hstart, hrun, hf, by simpa using hP.1⟩

theorem foldlM_stuck {α β : Type} (f : β → α → Option β) :
    ∀ (l : List α) (b : β), (∃ b', l.foldlM f b = some b') ∨
      ∃ pre e post st, l = pre ++ e :: post ∧ pre.foldlM f b = some st ∧ f st e = none := by
  intro l
  induction l with
  | nil => intro b; exact Or.inl ⟨b, by simp⟩
  | cons a l ih =>
    intro b
    cases h : f b a with
    | none => exact Or.inr ⟨[], a, l, b, rfl, by simp, h⟩
    | some b1 =>
      rcases ih b1 with ⟨b', hb'⟩ | ⟨pre, e, post, st, hl, hpre, hf⟩
      · exact Or.inl ⟨b', by rw [List.foldlM_cons, h]; exact hb'⟩
      · refine Or.inr ⟨a :: pre, e, post, st, by rw [hl]; rfl, ?_, hf⟩
        rw [List.foldlM_cons, h]
        exact hpre

theorem relax_none (u : Int) (i : Fin N) (st : State) (e : Int × Int) (j : Fin N)
    (hj : idx e.1 = some j) (h : relax u i st e = none) :
    st.visited j = false ∧
      ¬ (INT_MIN ≤ st.dist i + e.2 ∧ st.dist i + e.2 ≤ INT_MAX) := by
  by_cases hv : st.visited j = true
  · simp [relax, hj, hv] at h
  · have hv' : st.visited j = false := by simpa using hv
    refine ⟨hv', ?_⟩
    intro hb
    have hadd : addInt (st.dist i) e.2 = some (st.dist i + e.2) := by simp [addInt, hb]
    by_cases hlt : st.dist i + e.2 < st.dist j
    · simp [relax, hj, hv', hadd, hlt] at h
    · simp [relax, hj, hv', hadd, hlt] at h

theorem relax_loop_length (u : Int) (i : Fin N) :
    ∀ (es : List (Int × Int)) (st st' : State), es.foldlM (relax u i) st = some st' →
      st'.dijkstraPQ.length ≤ st.dijkstraPQ.length + es.length := by
  intro es
  induction es with
  | nil =>
    intro st st' h
    simp at h
    subst h
    simp
  | cons e es ih =>
    intro st st' h
    rw [List.foldlM_cons] at h
    cases h1 : relax u i st e with
    | none => simp [h1] at h
    | some st1 =>
      simp only [h1, Option.some_bind, Option.bind_eq_bind] at h
      have h2 := ih st1 st' h
      have h3 : st1.dijkstraPQ.length ≤ st.dijkstraPQ.length + 1 := by
        rcases relax_cases u i st st1 e h1 with h4 | ⟨j, _, _, _, h4⟩
        · rw [h4]; omega
        · rw [h4]; simp
      simp only [List.length_cons]
      omega

theorem dijkstraStep_progress (s0 : State) (hg : GraphOK s0)
    (hend : 1 ≤ s0.endNode ∧ s0.endNode ≤ s0.numNodes) (fuel : Nat) (hfuel : N ≤ fuel)
    (t : List Int) (s : State) (hI : DijSafe s0 t s) (hr : s.isRunning = true) :
    (∃ s', dijkstraStep fuel s = some s' ∧ dijMeasure s' < dijMeasure s) ∨
      RelaxOverflow s := by
  obtain ⟨hadj, hen, hpq, hvis, htr, hnd, hpo, _, _⟩ := hI
  have hn20 := hg.2.1
  cases htop : pqTop s.dijkstraPQ with
  | none =>
    left
    have hq : s.dijkstraPQ = [] := (pqTop_eq_none _).1 htop
    obtain ⟨e, he⟩ := idx_of_range (v := s.endNode) (by rw [hen]; omega) (by rw [hen]; omega)
    by_cases hd : s.dist e = INF
    · obtain ⟨s', hs', ha, _, hvv, _, _, hqq, _, hrn⟩ :=
        dijkstraStep_empty_inf fuel s e htop he hd
      refine ⟨s', hs', ?_⟩
      have := pendingWork_same s s' hvv ha
      simp [dijMeasure, hr, hrn, this, hqq, hq]
    · have hidx : ∀ v ∈ t, ∃ i, idx v = some i := fun v hv => by
        have := htr v hv
        exact idx_of_range (by omega) (by omega)
      have hlen := nodup_range_length s0.numNodes hn20 t hnd htr
      obtain ⟨p, hp⟩ := walkParents_from s.parent t hidx hpo s.endNode e he fuel
        (by simp only [N] at hfuel; omega)
      obtain ⟨s', hs', ha, _, hvv, _, _, hqq, _, hrn⟩ :=
        dijkstraStep_empty_fin fuel s e p htop he hd hp
      refine ⟨s', hs', ?_⟩
      have := pendingWork_same s s' hvv ha
      simp [dijMeasure, hr, hrn, this, hqq, hq]
  | some top =>
    have htm := (pqTop_spec _ _ htop).1
    have hu := hpq top htm
    obtain ⟨i, hi⟩ := idx_of_range (v := top.2) (by omega) (by omega)
    have hlen1 := List.length_erase_of_mem htm
    have hpos : 0 < s.dijkstraPQ.length := List.length_pos_of_mem htm
    by_cases hv : s.visited i = true
    · left
      obtain ⟨s', hs', ha, _, hvv, _, _, hqq, _, hrn⟩ :=
        dijkstraStep_seen fuel s top i htop hi hv
      refine ⟨s', hs', ?_⟩
      have := pendingWork_same s s' hvv ha
      simp only [dijMeasure, hr, hrn, this, hqq, hlen1, if_true]
      omega
    · have hv' : s.visited i = false := by simpa using hv
      have hes : ∀ e ∈ s.adj i, 1 ≤ e.1 ∧ e.1 ≤ s0.numNodes := fun e he => by
        rw [hadj] at he; exact hg.2.2 i e he
      rcases foldlM_stuck (relax top.2 i) (s.adj i)
          { s with
            dijkstraPQ := s.dijkstraPQ.erase top
            currentNode := top.2
            visited := Function.update s.visited i true } with
        ⟨s', hfold⟩ | ⟨pre, e, post, st, hl, hpre, hf⟩
      · left
        have hlen := relax_loop_length top.2 i (s.adj i) _ s' hfold
        obtain ⟨a1, _, a3, a4, _, _, _, _⟩ := relax_loop_safe _ s' top.2 s0.numNodes i
          (s.adj i) hes (fun e he => hpq e (List.mem_of_mem_erase he)) hfold
        have hvv : s'.visited = Function.update s.visited i true := a3
        have ha : s'.adj = s.adj := a1
        have hrn : s'.isRunning = s.isRunning := a4
        have hlen' : s'.dijkstraPQ.length ≤
            (s.dijkstraPQ.erase top).length + (s.adj i).length := hlen
        refine ⟨s', ?_, ?_⟩
        · simp only [dijkstraStep, htop, hi, hv', Option.some_bind, Bool.false_eq_true,
            if_false]
          exact hfold
        · have hp := pendingWork_update s s' i hv' hvv ha
          simp only [dijMeasure, hr, hrn, if_true]
          omega
      · right
        have he := hes e (by rw [hl]; simp)
        obtain ⟨j, hj⟩ := idx_of_range (v := e.1) (by omega) (by omega)
        obtain ⟨h1, h2⟩ := relax_none top.2 i st e j hj hf
        exact ⟨top, i, j, pre, post, e, st, htop, hi, hv', hl, hpre, hj, h1, h2⟩

theorem relaxOverflow_none (fuel : Nat) (s : State) (h : RelaxOverflow s) :
    dijkstraStep fuel s = none := by
  obtain ⟨top, i, j, pre, post, e, st, htop, hi, hv, hl, hpre, hj, h1, h2⟩ := h
  have hadd : addInt (st.dist i) e.2 = none := by simp [addInt, h2]
  have hrel : relax top.2 i st e = none := by simp [relax, hj, h1, hadd]
  simp only [dijkstraStep, htop, hi, hv, Option.some_bind, Bool.false_eq_true, if_false]
  rw [hl, List.foldlM_append, hpre]
  simp [List.foldlM_cons, hrel]

theorem iterStep_progress (step : State → Option State) (P : List Int → State → Prop)
    (Q : State → Prop) (μ : State → Nat)
    (hstep : ∀ t s, P t s → s.isRunning = true →
      (∃ s', step s = some s' ∧ P (t ++ newlyVisited s s') s' ∧ μ s' < μ s) ∨ Q s) :
    ∀ (n : Nat) (t : List Int) (s : State), P t s → μ s ≤ n →
      ∃ k sk, k ≤ n ∧ iterStep step k s = some sk ∧
        (sk.isRunning = false ∨ (sk.isRunning = true ∧ Q sk)) := by
  intro n
  induction n with
  | zero =>
    intro t s hP hμ
    cases hr : s.isRunning with
    | false => exact ⟨0, s, le_rfl, rfl, Or.inl hr⟩
    | true =>
      rcases hstep t s hP hr with ⟨s', _, _, hlt⟩ | hQ
      · omega
      · exact ⟨0, s, le_rfl, rfl, Or.inr ⟨hr, hQ⟩⟩
  | succ n ih =>
    intro t s hP hμ
    cases hr : s.isRunning with
    | false => exact ⟨0, s, Nat.zero_le _, rfl, Or.inl hr⟩
    | true =>
      rcases hstep t s hP hr with ⟨s', hs', hP', hlt⟩ | hQ
      · obtain ⟨k, sk, hk, hit, hres⟩ := ih _ s' hP' (by omega)
        exact ⟨k + 1, sk, by omega, by simp [iterStep, hs', hit], hres⟩
      · exact ⟨0, s, Nat.zero_le _, rfl, Or.inr ⟨hr, hQ⟩⟩

theorem dijkstra_progress_run (s : State) (hg : GraphOK s)
    (hs : 1 ≤ s.startNode ∧ s.startNode ≤ s.numNodes)
    (hend : 1 ≤ s.endNode ∧ s.endNode ≤ s.numNodes) (fuel : Nat) (hfuel : N ≤ fuel) :
    ∃ s1 k sk, startDijkstra s = some s1 ∧ k ≤ 2 + adjTotal s ∧
      iterStep (dijkstraStep fuel) k s1 = some sk ∧
      (sk.isRunning = false ∨ (sk.isRunning = true ∧ RelaxOverflow sk)) := by
  obtain ⟨s1, hstart, h0, _, hμ⟩ := startDijkstra_safe s hg.2.1 hs
  obtain ⟨k, sk, hk, hit, hres⟩ := iterStep_progress (dijkstraStep fuel) (DijSafe s)
    RelaxOverflow dijMeasure
    (fun t st hI hr => by
      rcases dijkstraStep_progress s hg hend fuel hfuel t st hI hr with ⟨s', hs', hlt⟩ | hQ
      · exact Or.inl ⟨s', hs', dijkstraStep_safe s hg hend fuel t st s' hI hs', hlt⟩
      · exact Or.inr hQ)
    (2 + adjTotal s) [] s1 h0 hμ
  exact ⟨s1, k, sk, hstart, hk, hit, hres⟩

theorem bfsStep_range (s0 : State) (hg : GraphOK s0) (s : State) (hI : BfsSafe s0 s) :
    ∃ s', bfsStep s = some s' ∧ BfsSafe s0 s' := by
  obtain ⟨hadj, hstk, _⟩ := hI
  cases hq : s.bfsQueue with
  | nil =>
    exact ⟨{ s with isRunning := false, currentNode := -1 }, by simp [bfsStep, hq],
      hadj, hstk, Or.inl rfl⟩
  | cons u rest =>
    have hu := hstk u (by simp [hq])
    have hn20 := hg.2.1
    obtain ⟨i, hi⟩ := idx_of_range (v := u) (by omega) (by omega)
    have hrest : ∀ v ∈ rest, 1 ≤ v ∧ v ≤ s0.numNodes := fun v hv => hstk v (by simp [hq, hv])
    by_cases hv : s.visited i = true
    · exact ⟨{ s with currentNode := u, bfsQueue := rest }, by simp [bfsStep, hq, hi, hv],
        hadj, hrest, Or.inr (by exact hu)⟩
    · have hv' : s.visited i = false := by simpa using hv
      have hes : ∀ e ∈ s.adj i, 1 ≤ e.1 ∧ e.1 ≤ s0.numNodes := fun e he => by
        rw [hadj] at he; exact hg.2.2 i e he
      have hidx : ∀ e ∈ s.adj i, ∃ j, idx e.1 = some j := fun e he => by
        have := hes e he
        exact idx_of_range (by omega) (by omega)
      have hloop := bfsPush_loop (s.adj i)
        { s with currentNode := u, bfsQueue := rest, visited := Function.update s.visited i true }
        hidx
      obtain ⟨s', hs', ha, hc, hqq⟩ : ∃ s', (s.adj i).foldlM bfsPush
          { s with currentNode := u, bfsQueue := rest,
                   visited := Function.update s.visited i true } = some s' ∧
          s'.adj = s.adj ∧ s'.currentNode = u ∧
          s'.bfsQueue = rest ++ ((s.adj i).filter fun e => !visitedAt
            { s with currentNode := u, bfsQueue := rest,
                     visited := Function.update s.visited i true } e.1).map Prod.fst :=
        ⟨_, hloop, rfl, rfl, rfl⟩
      refine ⟨s', ?_, ha.trans hadj, ?_, Or.inr (by rw [hc]; exact hu)⟩
      · simp only [bfsStep, hq, hi, hv', Option.some_bind, Bool.false_eq_true, if_false]
        exact hs'
      · intro v hv
        rw [hqq] at hv
        simp only [List.mem_append, List.mem_map, List.mem_filter] at hv
        rcases hv with h1 | ⟨e, ⟨he, _⟩, rfl⟩
        · exact hrest v h1
        · exact hes e he

theorem dfsStep_range (s0 : State) (hg : GraphOK s0) (s : State) (hI : DfsSafe s0 s) :
    ∃ s', dfsStep s = some s' ∧ DfsSafe s0 s' := by
  obtain ⟨hadj, hstk, _⟩ := hI
  cases hq : s.dfsStack with
  | nil =>
    exact ⟨{ s with isRunning := false, currentNode := -1 }, by simp [dfsStep, hq],
      hadj, hstk, Or.inl rfl⟩
  | cons u rest =>
    have hu := hstk u (by simp [hq])
    have hn20 := hg.2.1
    obtain ⟨i, hi⟩ := idx_of_range (v := u) (by omega) (by omega)
    have hrest : ∀ v ∈ rest, 1 ≤ v ∧ v ≤ s0.numNodes := fun v hv => hstk v (by simp [hq, hv])
    by_cases hv : s.visited i = true
    · exact ⟨{ s with currentNode := u, dfsStack := rest }, by simp [dfsStep, hq, hi, hv],
        hadj, hrest, Or.inr (by exact hu)⟩
    · have hv' : s.visited i = false := by simpa using hv
      have hes : ∀ e ∈ s.adj i, 1 ≤ e.1 ∧ e.1 ≤ s0.numNodes := fun e he => by
        rw [hadj] at he; exact hg.2.2 i e he
      have hidx : ∀ e ∈ (s.adj i).reverse, ∃ j, idx e.1 = some j := fun e he => by
        have := hes e (List.mem_reverse.1 he)
        exact idx_of_range (by omega) (by omega)
      have hloop := dfsPush_loop (s.adj i).reverse
        { s with currentNode := u, dfsStack := rest, visited := Function.update s.visited i true }
        hidx
      obtain ⟨s', hs', ha, hc, hqq⟩ : ∃ s', (s.adj i).reverse.foldlM dfsPush
          { s with currentNode := u, dfsStack := rest,
                   visited := Function.update s.visited i true } = some s' ∧
          s'.adj = s.adj ∧ s'.currentNode = u ∧
          s'.dfsStack = (((s.adj i).reverse.filter fun e => !visitedAt
            { s with currentNode := u, dfsStack := rest,
                     visited := Function.update s.visited i true } e.1).map Prod.fst).reverse
              ++ rest :=
        ⟨_, hloop, rfl, rfl, rfl⟩
      refine ⟨s', ?_, ha.trans hadj, ?_, Or.inr (by rw [hc]; exact hu)⟩
      · simp only [dfsStep, hq, hi, hv', Option.some_bind, Bool.false_eq_true, if_false]
        exact hs'
      · intro v hv
        rw [hqq] at hv
        simp only [List.mem_append, List.mem_reverse, List.mem_map, List.mem_filter] at hv
        rcases hv with ⟨e, ⟨he, _⟩, rfl⟩ | h1
        · exact hes e he
        · exact hrest v h1

theorem iterStep_total (step : State → Option State) (P : State → Prop)
    (hstep : ∀ s, P s → ∃ s', step s = some s' ∧ P s') :
    ∀ (k : Nat) (s : State), P s → ∃ sk, iterStep step k s = some sk ∧ P sk := by
  intro k
  induction k with
  | zero => intro s hs; exact ⟨s, rfl, hs⟩
  | succ k ih =>
    intro s hs
    obtain ⟨s1, h1, hP1⟩ := hstep s hs
    obtain ⟨sk, h2, hPk⟩ := ih s1 hP1
    exact ⟨sk, by simp [iterStep, h1, h2], hPk⟩

theorem iterStep_inv (step : State → Option State) (P : List Int → State → Prop)
    (hstep : ∀ t s s', P t s → step s = some s' → P (t ++ newlyVisited s s') s') :
    ∀ (k : Nat) (t : List Int) (s sk : State), P t s → iterStep step k s = some sk →
      ∃ tk, P tk sk := by
  intro k
  induction k with
  | zero =>
    intro t s sk hs h
    simp [iterStep] at h
    subst h
    exact ⟨t, hs⟩
  | succ k ih =>
    intro t s sk hs h
    simp only [iterStep, Option.bind_eq_some] at h
    obtain ⟨s1, h1, h2⟩ := h
    exact ih _ s1 sk (hstep t s s1 hs h1) h2

/-- C17 (array indices stay in range): for a graph read by the edge loop with `numNodes` in
`[1, 20]` and start and end nodes in `[1, numNodes]`, every call of `bfsStep()` after
`startBFS()` and of `dfsStep()` after `startDFS()` returns with all its index accesses
inside the arrays, and in every state so reached the ids in the queue (stack) and a
`currentNode` other than `-1` lie in `[1, numNodes]`.  `startDijkstra()` returns, and in
every state reached from it by calls of `dijkstraStep()` the ids in the priority queue, a
`currentNode` other than `-1`, every `parent` entry other than `-1` and every node of
`shortestPath` lie in `[1, numNodes]`; the parent walk from `endNode` ends within `N`
iterations and meets only nodes of `[1, numNodes]`; and the popped node, its neighbours
and `endNode` are indices of the arrays. -/
theorem indices_in_range (s : State) (edges : List (Int × Int × Int))
    (hn : 1 ≤ s.numNodes ∧ s.numNodes ≤ 20)
    (hadj : readEdges s.numNodes edges = some s.adj)
    (hs : 1 ≤ s.startNode ∧ s.startNode ≤ s.numNodes)
    (hend : 1 ≤ s.endNode ∧ s.endNode ≤ s.numNodes) :
    (∀ k, ∃ sk, iterStep bfsStep k (startBFS s) = some sk ∧
      (∀ v ∈ sk.bfsQueue, 1 ≤ v ∧ v ≤ s.numNodes) ∧
      (sk.currentNode = -1 ∨ (1 ≤ sk.currentNode ∧ sk.currentNode ≤ s.numNodes))) ∧
    (∀ k, ∃ sk, iterStep dfsStep k (startDFS s) = some sk ∧
      (∀ v ∈ sk.dfsStack, 1 ≤ v ∧ v ≤ s.numNodes) ∧
      (sk.currentNode = -1 ∨ (1 ≤ sk.currentNode ∧ sk.currentNode ≤ s.numNodes))) ∧
    (∃ s1, startDijkstra s = some s1 ∧
      ∀ fuel k sk, iterStep (dijkstraStep fuel) k s1 = some sk →
        (∀ e ∈ sk.dijkstraPQ, 1 ≤ e.2 ∧ e.2 ≤ s.numNodes) ∧
        (sk.currentNode = -1 ∨ (1 ≤ sk.currentNode ∧ sk.currentNode ≤ s.numNodes)) ∧
        (∀ j, sk.parent j = -1 ∨ (1 ≤ sk.parent j ∧ sk.parent j ≤ s.numNodes)) ∧
        (∀ v ∈ sk.shortestPath, 1 ≤ v ∧ v ≤ s.numNodes) ∧
        (∃ p, walkParents sk.parent N sk.endNode [] = some p ∧
          ∀ v ∈ p, 1 ≤ v ∧ v ≤ s.numNodes) ∧
        (∀ top, pqTop sk.dijkstraPQ = some top →
          ∃ i, idx top.2 = some i ∧ ∀ e ∈ sk.adj i, ∃ j, idx e.1 = some j) ∧
        (∃ e, idx sk.endNode = some e)) := by
  have hg := readEdges_graphOK s edges hn hadj
  have hn20 := hn.2
  refine ⟨?_, ?_, ?_⟩
  · intro k
    have h0 : BfsSafe s (startBFS s) := by
      refine ⟨rfl, ?_, Or.inl rfl⟩
      intro v hv
      simp [startBFS, reset] at hv
      subst hv; exact hs
    obtain ⟨sk, h1, h2⟩ := iterStep_total bfsStep (BfsSafe s) (bfsStep_range s hg) k _ h0
    exact ⟨sk, h1, h2.2⟩
  · intro k
    have h0 : DfsSafe s (startDFS s) := by
      refine ⟨rfl, ?_, Or.inl rfl⟩
      intro v hv
      simp [startDFS, reset] at hv
      subst hv; exact hs
    obtain ⟨sk, h1, h2⟩ := iterStep_total dfsStep (DfsSafe s) (dfsStep_range s hg) k _ h0
    exact ⟨sk, h1, h2.2⟩
  · obtain ⟨s1, hstart, h0, _, _⟩ := startDijkstra_safe s hn20 hs
    refine ⟨s1, hstart, ?_⟩
    intro fuel k sk hk
    obtain ⟨t, hsafe⟩ := iterStep_inv (dijkstraStep fuel) (DijSafe s)
      (fun t st st' hI hst => dijkstraStep_safe s hg hend fuel t st st' hI hst) k [] s1 sk h0 hk
    obtain ⟨a1, a2, a3, _, a5, a6, a7, a8, a9⟩ := hsafe
    have hpar : ∀ j, sk.parent j = -1 ∨ (1 ≤ sk.parent j ∧ sk.parent j ≤ s.numNodes) :=
      fun j => (a7 j).imp id (fun h => a5 _ h.1)
    have hidx : ∀ v ∈ t, ∃ i, idx v = some i := fun v hv => by
      have := a5 v hv
      exact idx_of_range (by omega) (by omega)
    obtain ⟨e, he⟩ := idx_of_range (v := sk.endNode) (by rw [a2]; omega) (by rw [a2]; omega)
    have hlen := nodup_range_length s.numNodes hn20 t a6 a5
    obtain ⟨p, hp⟩ := walkParents_from sk.parent t hidx a7 sk.endNode e he N
      (by simp only [N]; omega)
    refine ⟨a3, a8, hpar, a9, ⟨p, hp, ?_⟩, ?_, ⟨e, he⟩⟩
    · exact walkParents_range sk.parent s.numNodes hpar N sk.endNode [] p hp
        (Or.inr (by rw [a2]; exact hend)) (by simp)
    · intro top htop
      have hu := a3 top (pqTop_spec _ _ htop).1
      obtain ⟨i, hi⟩ := idx_of_range (v := top.2) (by omega) (by omega)
      refine ⟨i, hi, ?_⟩
      intro x hx
      rw [a1] at hx
      have := hg.2.2 i x hx
      exact idx_of_range (by omega) (by omega)

/-- C17, witness (scenario C): after two calls the BFS queue holds 3, 3, 4 and the DFS
stack 3, 4, 3 with `currentNode = 2`; after two calls of `dijkstraStep` the priority queue
holds the nodes 2 and 2 with `currentNode = 3`. -/
theorem indices_in_range_witness :
    ((∀ k, ∃ sk, iterStep bfsStep k (startBFS scenarioC) = some sk ∧
      (∀ v ∈ sk.bfsQueue, 1 ≤ v ∧ v ≤ scenarioC.numNodes) ∧
      (sk.currentNode = -1 ∨
        (1 ≤ sk.currentNode ∧ sk.currentNode ≤ scenarioC.numNodes))) ∧
    (∀ k, ∃ sk, iterStep dfsStep k (startDFS scenarioC) = some sk ∧
      (∀ v ∈ sk.dfsStack, 1 ≤ v ∧ v ≤ scenarioC.numNodes) ∧
      (sk.currentNode = -1 ∨
        (1 ≤ sk.currentNode ∧ sk.currentNode ≤ scenarioC.numNodes))) ∧
    (∃ s1, startDijkstra scenarioC = some s1 ∧
      ∀ fuel k sk, iterStep (dijkstraStep fuel) k s1 = some sk →
        (∀ e ∈ sk.dijkstraPQ, 1 ≤ e.2 ∧ e.2 ≤ scenarioC.numNodes) ∧
        (sk.currentNode = -1 ∨
          (1 ≤ sk.currentNode ∧ sk.currentNode ≤ scenarioC.numNodes)) ∧
        (∀ j, sk.parent j = -1 ∨ (1 ≤ sk.parent j ∧ sk.parent j ≤ scenarioC.numNodes)) ∧
        (∀ v ∈ sk.shortestPath, 1 ≤ v ∧ v ≤ scenarioC.numNodes) ∧
        (∃ p, walkParents sk.parent N sk.endNode [] = some p ∧
          ∀ v ∈ p, 1 ≤ v ∧ v ≤ scenarioC.numNodes) ∧
        (∀ top, pqTop sk.dijkstraPQ = some top →
          ∃ i, idx top.2 = some i ∧ ∀ e ∈ sk.adj i, ∃ j, idx e.1 = some j) ∧
        (∃ e, idx sk.endNode = some e))) ∧
    (iterStep bfsStep 2 (startBFS scenarioC)).map (fun r => (r.bfsQueue, r.currentNode)) =
      some ([3, 3, 4], 2) ∧
    (iterStep dfsStep 2 (startDFS scenarioC)).map (fun r => (r.dfsStack, r.currentNode)) =
      some ([3, 4, 3], 2) ∧
    ((startDijkstra scenarioC).bind (iterStep (dijkstraStep 21) 2)).map
      (fun r => (r.dijkstraPQ, r.currentNode)) = some ([(2, 2), (4, 2)], 3) :=
  ⟨indices_in_range scenarioC [(1, 2, 4), (1, 3, 1), (3, 2, 1), (2, 4, 1)]
    (by decide) rfl (by decide) (by decide), by decide, by decide, by decide⟩

end GraphViz
